import Mathlib

/-!
# Heap allocator: implicit-list and explicit free-list variants

A shallow embedding of `src/C/implicit.c` and `src/C/explicit.c`.

* Memory is a map from byte addresses to byte values; an 8-byte word is read and
  written little-endian, as on the x86-64 target of the sources.
* `size_t` and pointer arithmetic is done on `Nat` with an explicit reduction
  modulo `2 ^ 64`.
* The allocator owns the region `[g_heap_start, g_heap_start + g_heap_size)`.
  A load or store through the null pointer or outside that region is undefined
  behaviour in C; the embedding reports it as `Err.fault`.
* Loops run on a fuel counter taken from the region size; a loop that would
  exhaust it reports `Err.fuel`.
-/

namespace Allocator

/-- Modelled from the spec: `ALIGNMENT` is declared in `allocator.h`, which is not
among the sources; the spec fixes the quantum `A = 8`. -/
def ALIGNMENT : Nat := 8

/-- Number of values of a `size_t` (and of a pointer): `2 ^ 64`. -/
def WORD : Nat := 18446744073709551616

/-- Addition of two `size_t` values. -/
def add64 (a b : Nat) : Nat := (a + b) % WORD

/-- Subtraction of two `size_t` values (wraps round on underflow). -/
def sub64 (a b : Nat) : Nat := (a % WORD + WORD - b % WORD) % WORD

/-- Byte-addressed memory. -/
abbrev Mem : Type := Nat → Nat

/-- Little-endian value of the `n` bytes starting at `a`. -/
def readBytes (m : Mem) (a : Nat) : Nat → Nat
  | 0 => 0
  | n + 1 => m a % 256 + 256 * readBytes m (a + 1) n

/-- The 8-byte word stored at address `a`. -/
def read64 (m : Mem) (a : Nat) : Nat := readBytes m a 8

/-- Store the 8-byte word `v` at address `a`. -/
def write64 (m : Mem) (a v : Nat) : Mem :=
  fun x => if a ≤ x ∧ x < a + 8 then v / 256 ^ (x - a) % 256 else m x

/-- Effect of `memmove(dst, src, n)` on memory: the `n` source bytes are read
first, so overlapping ranges are copied correctly. -/
def moveBytes (m : Mem) (dst src n : Nat) : Mem :=
  fun x => if dst ≤ x ∧ x < dst + n then m (src + (x - dst)) else m x

/-- An access of `n` bytes at address `a` is defined when `a` is not the null
pointer and the bytes lie inside the region of `size` bytes at `start`. -/
def valid (start size a n : Nat) : Bool :=
  decide (a ≠ 0) && decide (start ≤ a) && decide (a + n ≤ start + size)

/-- Ways in which a call does not return. -/
inductive Err where
  | fault
  | fuel
  deriving DecidableEq, Repr

/-- Result of running allocator code. -/
abbrev Res (α : Type) : Type := Except Err α

/-! ## Implicit-list allocator (`src/C/implicit.c`) -/

namespace Implicit

def MIN_HEAP_SIZE : Nat := 24
def HEADER_SIZE : Nat := 8
def FREE : Nat := 0
def USED : Nat := 1

/-- The region bytes together with the globals of `implicit.c`. -/
structure State where
  mem : Mem
  g_heap_start : Nat
  g_heap_end : Nat
  g_heap_size : Nat
  bytes_used : Nat

/-- Read of `*(size_t *)a`. -/
def load (s : State) (a : Nat) : Res Nat :=
  if valid s.g_heap_start s.g_heap_size a 8 then .ok (read64 s.mem a) else .error .fault

/-- Write of `*(size_t *)a = v`. -/
def store (s : State) (a v : Nat) : Res State :=
  if valid s.g_heap_start s.g_heap_size a 8 then .ok { s with mem := write64 s.mem a v }
  else .error .fault

/-- Library `memmove(dst, src, n)`. -/
def memmove (s : State) (dst src n : Nat) : Res State :=
  if valid s.g_heap_start s.g_heap_size dst n && valid s.g_heap_start s.g_heap_size src n then
    .ok { s with mem := moveBytes s.mem dst src n }
  else .error .fault

def is_used (s : State) (block : Nat) : Res Bool := do
  let w ← load s block
  pure (w &&& 1 != 0)

def create_header (num ptr status : Nat) (s : State) : Res State :=
  store s ptr (add64 num status)

def header_num (s : State) (ptr : Nat) : Res Nat := do
  let u ← is_used s ptr
  let w ← load s ptr
  pure (if u then sub64 w 1 else w)

def roundup (sz mult : Nat) : Nat :=
  sub64 (add64 sz mult) 1 &&& (WORD - 1 - sub64 mult 1)

def toggle_free (s : State) (block : Nat) : Res State := do
  let w ← load s block
  let s1 ← store s block (w >>> 1)
  let w1 ← load s1 block
  store s1 block ((w1 <<< 1) % WORD)

/-- The call `breakpoint()` of `debug_break.h` has no effect on the allocator and is
left out. -/
def myinit (s : State) (heap_start heap_size : Nat) : Res (Bool × State) :=
  if heap_size ≤ MIN_HEAP_SIZE then pure (false, s)
  else do
    let s1 : State :=
      { s with
        g_heap_start := heap_start
        g_heap_size := heap_size
        g_heap_end := sub64 (add64 heap_start heap_size) ALIGNMENT
        bytes_used := 0 }
    let s2 ← create_header (sub64 heap_size (2 * HEADER_SIZE)) heap_start FREE s1
    let s3 ← create_header 0 (sub64 (add64 heap_start heap_size) HEADER_SIZE) USED s2
    pure (true, s3)

/-- The `while` loop of `mymalloc`; the heap is only written on the iteration that
returns. -/
def mallocLoop (s : State) (size_reqd : Nat) : Nat → Nat → Nat → Bool → Res (Nat × State)
  | 0, _, _, _ => .error .fuel
  | fuel + 1, current, cur_size, cur_used =>
    if cur_size = 0 ∧ cur_used = true then pure (0, s)
    else if cur_used = false ∧ cur_size ≥ size_reqd then do
      let s1 ← create_header size_reqd current USED s
      let s2 ←
        if cur_size > size_reqd then
          create_header (sub64 (sub64 cur_size size_reqd) ALIGNMENT)
            (add64 (add64 current size_reqd) ALIGNMENT) FREE s1
        else pure s1
      pure (add64 current ALIGNMENT, s2)
    else do
      let next := add64 (add64 current cur_size) ALIGNMENT
      let u ← is_used s next
      let n ← header_num s next
      mallocLoop s size_reqd fuel next n u

def mymalloc (s : State) (requested_size : Nat) : Res (Nat × State) :=
  if requested_size > sub64 s.g_heap_size ALIGNMENT ∨ requested_size = 0 then pure (0, s)
  else do
    let size_reqd := roundup requested_size ALIGNMENT
    let current := s.g_heap_start
    let cur_size ← header_num s current
    let cur_used ← is_used s current
    mallocLoop s size_reqd s.g_heap_size current cur_size cur_used

def myfree (s : State) (ptr : Nat) : Res State :=
  if ptr = 0 then pure s
  else toggle_free s (sub64 ptr ALIGNMENT)

def myrealloc (s : State) (old_ptr new_size : Nat) : Res (Nat × State) :=
  if old_ptr = 0 then do
    let (ptr, s1) ← mymalloc s new_size
    pure (if ptr ≠ 0 then ptr else 0, s1)
  else if new_size = 0 then pure (0, s)
  else do
    let (new_ptr, s1) ← mymalloc s new_size
    let s2 ← memmove s1 new_ptr old_ptr new_size
    let s3 ← myfree s2 old_ptr
    pure (new_ptr, s3)

/-- The `while` loop of `validate_heap`: `none` stands for the early `return false`,
`some byte_count` for leaving the loop. -/
def validateLoop (s : State) : Nat → Nat → Nat → Bool → Nat → Res (Option Nat)
  | 0, _, _, _, _ => .error .fuel
  | fuel + 1, current, cur_size, cur_used, byte_count =>
    if cur_size = 0 ∧ cur_used = true then pure (some byte_count)
    else do
      let byte_count := add64 byte_count (add64 cur_size ALIGNMENT)
      let bad ←
        if cur_used = true then do
          let w ← load s current
          if w % ALIGNMENT ≠ 1 then pure true
          else do
            let w2 ← load s current
            pure (decide (w2 % ALIGNMENT = 0))
        else pure false
      if bad = true then pure none
      else do
        let next := add64 (add64 current cur_size) ALIGNMENT
        let u ← is_used s next
        let n ← header_num s next
        validateLoop s fuel next n u byte_count

def validate_heap (s : State) : Res Bool := do
  let current := s.g_heap_start
  let cur_used ← is_used s current
  let cur_size ← header_num s current
  match ← validateLoop s s.g_heap_size current cur_size cur_used ALIGNMENT with
  | none => pure false
  | some byte_count => pure (decide (byte_count = s.g_heap_size))

/-! ### Abstract view of the implicit heap -/

/-- A block as its header describes it: payload size and used bit. -/
abbrev Blk : Type := Nat × Bool

/-- The header word of a block (what `create_header` stores for it). -/
def hdrWord (b : Blk) : Nat := b.1 + (if b.2 = true then 1 else 0)

/-- The first block of a list, or the end header `{0, used}` when the list is empty. -/
def headOf (bs : List Blk) : Blk := bs.headD (0, true)

/-- `Chain m a bs e`: starting at address `a` the memory holds the headers of the
blocks `bs`, each followed by its payload, and then the end header `{0, used}` at `e`. -/
def Chain (m : Mem) : Nat → List Blk → Nat → Prop
  | a, [], e => a = e ∧ read64 m a = 1
  | a, b :: bs, e =>
    read64 m a = hdrWord b ∧ b.1 % 8 = 0 ∧ b ≠ (0, true) ∧ Chain m (a + b.1 + 8) bs e

/-- Header addresses of the blocks `bs` laid out from `a`. -/
def hdrs : Nat → List Blk → List Nat
  | _, [] => []
  | a, b :: bs => a :: hdrs (a + b.1 + 8) bs

/-- Payload address, size and used bit of the blocks `bs` laid out from `a`. -/
def layout : Nat → List Blk → List (Nat × Nat × Bool)
  | _, [] => []
  | a, b :: bs => (a + 8, b.1, b.2) :: layout (a + b.1 + 8) bs

/-- First fit on the abstract block list: offset of the chosen header from the start
of the list and the block list after the allocation. -/
def fit (need : Nat) : List Blk → Option (Nat × List Blk)
  | [] => none
  | b :: bs =>
    if b.2 = false ∧ need ≤ b.1 then
      some (0, (need, true) :: (if need < b.1 then (b.1 - need - 8, false) :: bs else bs))
    else (fit need bs).map fun r => (b.1 + 8 + r.1, b :: r.2)

/-- Clearing the used bit of the block whose header is at `h`. -/
def release (h : Nat) : Nat → List Blk → List Blk
  | _, [] => []
  | a, b :: bs => if a = h then (b.1, false) :: bs else b :: release h (a + b.1 + 8) bs

/-- The heap invariant of the implicit allocator: the region is a chain of blocks
`bs` from `g_heap_start` to the end header in the last 8 bytes. -/
structure Inv (s : State) (bs : List Blk) : Prop where
  start_pos : s.g_heap_start ≠ 0
  fits : s.g_heap_start + s.g_heap_size ≤ WORD
  size_ge : 8 ≤ s.g_heap_size
  chain : Chain s.mem s.g_heap_start bs (s.g_heap_start + s.g_heap_size - 8)

/-- The header walk of `mymalloc`, `validate_heap` and `dump_heap`, recording payload
address, size and used bit of every block before the end header. -/
def blocksLoop (s : State) : Nat → Nat → Res (List (Nat × Nat × Bool))
  | 0, _ => .error .fuel
  | fuel + 1, current => do
    let u ← is_used s current
    let n ← header_num s current
    if n = 0 ∧ u = true then pure []
    else do
      let rest ← blocksLoop s fuel (add64 (add64 current n) ALIGNMENT)
      pure ((add64 current ALIGNMENT, n, u) :: rest)

/-- The blocks of the heap in address order. -/
def blocks (s : State) : Res (List (Nat × Nat × Bool)) :=
  blocksLoop s s.g_heap_size s.g_heap_start

/-- States reached from a successful `myinit` on a region whose size is a multiple of
`ALIGNMENT` and which lies inside the 64-bit address space, together with the pointers
the allocator has returned so far. `myfree` and `myrealloc` are called on null or on a
pointer returned earlier; a `myrealloc` step is recorded when it returns non-null. -/
inductive Reach : State → List Nat → Prop
  | init (s0 s : State) (start size : Nat) :
      start + size ≤ WORD → size % ALIGNMENT = 0 →
      myinit s0 start size = .ok (true, s) → Reach s []
  | malloc (s s' : State) (ps : List Nat) (n p : Nat) :
      Reach s ps → mymalloc s n = .ok (p, s') → Reach s' (p :: ps)
  | free (s s' : State) (ps : List Nat) (p : Nat) :
      Reach s ps → (p = 0 ∨ p ∈ ps) → myfree s p = .ok s' → Reach s' ps
  | realloc (s s' : State) (ps : List Nat) (p n q : Nat) :
      Reach s ps → (p = 0 ∨ p ∈ ps) → myrealloc s p n = .ok (q, s') → q ≠ 0 →
      Reach s' (q :: ps)

/-- Outcome of the allocation loop in terms of first fit on the block list. -/
def LoopPost (s : State) (need a e : Nat) (bs : List Blk) (r : Nat × State) : Prop :=
  match fit need bs with
  | none => r = (0, s)
  | some (off, bs') =>
    r.1 = a + off + 8 ∧ Chain r.2.mem a bs' e ∧ r.2.g_heap_start = s.g_heap_start ∧
      r.2.g_heap_size = s.g_heap_size ∧ ∀ x, x < a → r.2.mem x = s.mem x

/-- The invariant carried along a run: the heap is a chain of blocks and every pointer
returned so far is null or the payload address of a header of the chain. -/
def Good (s : State) (ps : List Nat) : Prop :=
  ∃ bs, Inv s bs ∧ ∀ p, p ∈ ps → p = 0 ∨ ∃ x, x ∈ hdrs s.g_heap_start bs ∧ p = x + 8

/-- A state before `myinit`: zeroed memory and zeroed globals. -/
def blank : State := ⟨fun _ => 0, 0, 0, 0, 0⟩

/-- The state after `myinit` on a 96-byte region at address 4096. -/
def afterInit : State :=
  { mem := write64 (write64 (fun _ => 0) 4096 80) 4184 1
    g_heap_start := 4096
    g_heap_end := 4184
    g_heap_size := 96
    bytes_used := 0 }

/-- The state after `myinit` and `mymalloc(32)`. -/
def afterMalloc : State :=
  { afterInit with mem := write64 (write64 afterInit.mem 4096 33) 4136 40 }

/-- Scenario: `myinit(region, 96); p = mymalloc(16); q = mymalloc(200)`; the result is
`(p, q)`. -/
def mallocFailRun : Res (Nat × Nat) := do
  let (_, s) ← myinit blank 4096 96
  let (p, s) ← mymalloc s 16
  let (q, _) ← mymalloc s 200
  pure (p, q)

/-- Scenario: `myinit(region, 96); p = mymalloc(16); q = myrealloc(p, 200)`; the result is
`(p, q)`. -/
def reallocFailRun : Res (Nat × Nat) := do
  let (_, s) ← myinit blank 4096 96
  let (p, s) ← mymalloc s 16
  let (q, _) ← myrealloc s p 200
  pure (p, q)

/-- Scenario: `myinit(region, 96); a = mymalloc(56); p = mymalloc(16); myfree(a);
q = myrealloc(p, 32)`; the result is `(a, p, q)`. -/
def overreadRun : Res (Nat × Nat × Nat) := do
  let (_, s) ← myinit blank 4096 96
  let (a, s) ← mymalloc s 56
  let (p, s) ← mymalloc s 16
  let s ← myfree s a
  let (q, _) ← myrealloc s p 32
  pure (a, p, q)

/-- The same scenario up to the `myrealloc`: the result is `(a, p)` and the new block
that `mymalloc(32)` returns. -/
def overreadSetupRun : Res (Nat × Nat × Nat) := do
  let (_, s) ← myinit blank 4096 96
  let (a, s) ← mymalloc s 56
  let (p, s) ← mymalloc s 16
  let s ← myfree s a
  let (q, _) ← mymalloc s 32
  pure (a, p, q)

/-- Scenario: `myinit(region, 96); p = mymalloc(8); q = myrealloc(p, 24)`; the result is
`(p, q)`, the header word that followed the block of `p` before the call and the second
word of the payload of `q` after it. -/
def copiedHeaderRun : Res (Nat × Nat × Nat × Nat) := do
  let (_, s) ← myinit blank 4096 96
  let (p, s) ← mymalloc s 8
  let (q, s1) ← myrealloc s p 24
  let w ← load s1 (add64 p 8)
  let v ← load s1 (add64 q 8)
  pure (p, q, w, v)

/-- The state after `myinit` on a 96-byte region at address 4096 and `mymalloc(72)`: a
used block of size 72 followed by a free block of size 0. -/
def zeroBlockHeap : State :=
  { afterInit with mem := write64 (write64 afterInit.mem 4096 73) 4176 0 }

end Implicit

/-! ## Explicit free-list allocator (`src/C/explicit.c`) -/

namespace Explicit

def FREE : Nat := 0
def USED : Nat := 1

/-- The value of `sizeof(block)`: two 8-byte pointers, `prev` at offset 0 and `next` at
offset 8. -/
def FREE_SIZE : Nat := 16
def HEADER_SIZE : Nat := ALIGNMENT
def MIN_HEADER_SIZE : Nat := 2 * HEADER_SIZE
def MIN_HEAP_SIZE : Nat := HEADER_SIZE + FREE_SIZE + HEADER_SIZE
def MIN_ALLOC_SIZE : Nat := HEADER_SIZE + FREE_SIZE

/-- The region bytes together with the globals of `explicit.c`. -/
structure State where
  mem : Mem
  first_free_block : Nat
  g_heap_start : Nat
  g_heap_end : Nat
  g_heap_size : Nat

/-- Read of `*(size_t *)a`. -/
def load (s : State) (a : Nat) : Res Nat :=
  if valid s.g_heap_start s.g_heap_size a 8 then .ok (read64 s.mem a) else .error .fault

/-- Write of `*(size_t *)a = v`. -/
def store (s : State) (a v : Nat) : Res State :=
  if valid s.g_heap_start s.g_heap_size a 8 then .ok { s with mem := write64 s.mem a v }
  else .error .fault

/-- Library `memmove(dst, src, n)`. -/
def memmove (s : State) (dst src n : Nat) : Res State :=
  if valid s.g_heap_start s.g_heap_size dst n && valid s.g_heap_start s.g_heap_size src n then
    .ok { s with mem := moveBytes s.mem dst src n }
  else .error .fault

/-- Read of `b->prev`. -/
def getPrev (s : State) (b : Nat) : Res Nat := load s b

/-- Read of `b->next`. -/
def getNext (s : State) (b : Nat) : Res Nat := load s (add64 b 8)

/-- Write of `b->prev = v`. -/
def setPrev (s : State) (b v : Nat) : Res State := store s b v

/-- Write of `b->next = v`. -/
def setNext (s : State) (b v : Nat) : Res State := store s (add64 b 8) v

def is_used (s : State) (ptr : Nat) : Res Bool := do
  let w ← load s ptr
  pure (w &&& 1 != 0)

def create_header (num ptr status : Nat) (s : State) : Res State :=
  store s ptr (add64 num status)

def header_num (s : State) (ptr : Nat) : Res Nat := do
  let u ← is_used s ptr
  let w ← load s ptr
  pure (if u then sub64 w 1 else w)

def roundup (sz mult : Nat) : Nat :=
  sub64 (add64 sz mult) 1 &&& (WORD - 1 - sub64 mult 1)

def toggle_free (s : State) (ptr : Nat) : Res State := do
  let w ← load s ptr
  let s1 ← store s ptr (w >>> 1)
  let w1 ← load s1 ptr
  store s1 ptr ((w1 <<< 1) % WORD)

/-- The early `return NULL` of a `bool` function is `false`; `breakpoint()` of
`debug_break.h` has no effect on the allocator and is left out. -/
def myinit (s : State) (heap_start heap_size : Nat) : Res (Bool × State) :=
  if heap_start = 0 then pure (false, s)
  else if heap_size < MIN_HEAP_SIZE then pure (false, s)
  else do
    let s1 : State :=
      { s with
        g_heap_start := heap_start
        g_heap_size := heap_size
        g_heap_end := add64 heap_start heap_size }
    let s2 ← create_header (sub64 heap_size (2 * HEADER_SIZE)) heap_start FREE s1
    let s3 ← create_header 0 (sub64 s2.g_heap_end HEADER_SIZE) USED s2
    let s4 : State := { s3 with first_free_block := add64 heap_start HEADER_SIZE }
    let s5 ← setPrev s4 s4.first_free_block 0
    let s6 ← setNext s5 s5.first_free_block 0
    pure (true, s6)

def updatedHeader (s : State) (min_size_reqd cur_header_size cur_block : Nat) :
    Res (Nat × State) := do
  let size_new := add64 (add64 min_size_reqd HEADER_SIZE) FREE_SIZE
  let validate_size := if FREE_SIZE > min_size_reqd then FREE_SIZE else min_size_reqd
  let space := if cur_header_size ≥ size_new then validate_size else cur_header_size
  let cur_header := sub64 cur_block HEADER_SIZE
  let s1 ← create_header space cur_header USED s
  if cur_header_size ≥ size_new then do
    let next_header := add64 cur_block space
    let next_size := sub64 (sub64 cur_header_size space) HEADER_SIZE
    let s2 ← create_header next_size next_header FREE s1
    pure (add64 next_header HEADER_SIZE, s2)
  else pure (0, s1)

def rewireAdd (s : State) (cur_block new_block : Nat) : Res State := do
  let cp ← getPrev s cur_block
  if cp = 0 then do
    let s1 : State := { s with first_free_block := new_block }
    if s1.first_free_block ≠ 0 then do
      let s2 ← setPrev s1 s1.first_free_block 0
      let cn ← getNext s2 cur_block
      let s3 ← setNext s2 s2.first_free_block cn
      let fn ← getNext s3 s3.first_free_block
      if fn ≠ 0 then setPrev s3 fn s3.first_free_block
      else pure s3
    else pure s1
  else do
    let s1 ← setNext s cp new_block
    let cn ← getNext s1 cur_block
    let s2 ← if cn ≠ 0 then setPrev s1 cn new_block else pure s1
    let cp2 ← getPrev s2 cur_block
    let s3 ← setPrev s2 new_block cp2
    let cn2 ← getNext s3 cur_block
    setNext s3 new_block cn2

def rewireNoAdd (s : State) (cur_block : Nat) : Res State := do
  let cp ← getPrev s cur_block
  if cp = 0 then do
    let cn ← getNext s cur_block
    let s1 : State := { s with first_free_block := cn }
    if s1.first_free_block ≠ 0 then do
      let s2 ← setPrev s1 s1.first_free_block 0
      let fn ← getNext s2 s2.first_free_block
      if fn ≠ 0 then setPrev s2 fn s2.first_free_block
      else pure s2
    else pure s1
  else do
    let cn ← getNext s cur_block
    let s1 ← setNext s cp cn
    let cn2 ← getNext s1 cur_block
    if cn2 ≠ 0 then do
      let cp2 ← getPrev s1 cur_block
      setPrev s1 cn2 cp2
    else pure s1

/-- The `while` loop of `mymalloc` over the free list. -/
def mallocLoop (s : State) (min_size_reqd payload_size_reqd : Nat) : Nat → Nat → Res (Nat × State)
  | 0, _ => .error .fuel
  | fuel + 1, cur_block =>
    if cur_block = 0 then pure (0, s)
    else do
      let cur_header := sub64 cur_block HEADER_SIZE
      let cur_header_size ← header_num s cur_header
      if cur_header_size ≥ min_size_reqd then do
        let (new_block, s1) ← updatedHeader s min_size_reqd cur_header_size cur_block
        let s2 ←
          if cur_header_size ≥ payload_size_reqd then rewireAdd s1 cur_block new_block
          else rewireNoAdd s1 cur_block
        pure (cur_block, s2)
      else do
        let next ← getNext s cur_block
        mallocLoop s min_size_reqd payload_size_reqd fuel next

def mymalloc (s : State) (requested_size : Nat) : Res (Nat × State) :=
  if requested_size > sub64 s.g_heap_size HEADER_SIZE ∨ requested_size = 0 then pure (0, s)
  else
    let min_size_reqd := roundup requested_size ALIGNMENT
    let payload_size_reqd := add64 (roundup requested_size ALIGNMENT) (3 * HEADER_SIZE)
    mallocLoop s min_size_reqd payload_size_reqd s.g_heap_size s.first_free_block

def coalesce (s : State) (b1 b2 : Nat) : Res State := do
  let b2p ← getPrev s b2
  let s1 ← setPrev s b1 b2p
  let b2n ← getNext s1 b2
  let s2 ← setNext s1 b1 b2n
  let b1p ← getPrev s2 b1
  let s3 ← if b1p = 0 then pure { s2 with first_free_block := b1 } else setNext s2 b1p b1
  let b1n ← getNext s3 b1
  if b1n ≠ 0 then setPrev s3 b1n b1 else pure s3

def coalesceFree (s : State) (tofree_block tofree_header tofree_size next_header next_size : Nat) :
    Res State := do
  let next_block := add64 next_header HEADER_SIZE
  let s1 ← create_header (add64 (add64 HEADER_SIZE tofree_size) next_size) tofree_header FREE s
  coalesce s1 tofree_block next_block

/-- The `while` loop of `regularFree`: the first list node above `tofree_block`, or null. -/
def regularFreeLoop (s : State) (tofree_block : Nat) : Nat → Nat → Res Nat
  | 0, _ => .error .fuel
  | fuel + 1, cur_ptr =>
    if cur_ptr = 0 then pure cur_ptr
    else if cur_ptr > tofree_block then pure cur_ptr
    else do
      let next ← getNext s cur_ptr
      regularFreeLoop s tofree_block fuel next

def regularFree (s : State) (tofree_block tofree_header : Nat) : Res State := do
  let cur_ptr := s.first_free_block
  let s1 ← toggle_free s tofree_header
  if cur_ptr = 0 then pure s1
  else do
    let cur_ptr ← regularFreeLoop s1 tofree_block s1.g_heap_size cur_ptr
    let cpp ← getPrev s1 cur_ptr
    let s2 ← if cpp = 0 then pure { s1 with first_free_block := tofree_block }
      else setNext s1 cpp tofree_block
    let cpp2 ← getPrev s2 cur_ptr
    let s3 ← setPrev s2 tofree_block cpp2
    let s4 ← setNext s3 tofree_block cur_ptr
    setPrev s4 cur_ptr tofree_block

def myfree (s : State) (ptr : Nat) : Res State :=
  if ptr = 0 then pure s
  else do
    let tofree_header := sub64 ptr HEADER_SIZE
    let u ← is_used s tofree_header
    if u = false then pure s
    else do
      let tofree_size ← header_num s tofree_header
      let tofree_block := ptr
      let next_header := add64 tofree_block tofree_size
      let next_size ← header_num s next_header
      let nu ← is_used s next_header
      if nu = false then
        coalesceFree s tofree_block tofree_header tofree_size next_header next_size
      else regularFree s tofree_block tofree_header

def coalescePossible (s : State) (ptr : Nat) : Res Bool := do
  let cur_header := sub64 ptr HEADER_SIZE
  let cur_size ← header_num s cur_header
  let next_header := add64 ptr cur_size
  let nu ← is_used s next_header
  let next_free := !nu
  pure (if next_free then true else false)

/-- The `while` loop of `coalesceReal`. -/
def coalesceRealLoop (ptr : Nat) : Nat → State → Res State
  | 0, _ => .error .fuel
  | fuel + 1, s => do
    let c ← coalescePossible s ptr
    if c = false then pure s
    else do
      let cur_header := sub64 ptr HEADER_SIZE
      let cur_size ← header_num s cur_header
      let next_header := add64 ptr cur_size
      let next_size ← header_num s next_header
      let next_block := add64 next_header HEADER_SIZE
      let s1 ← rewireNoAdd s next_block
      let updated_size := add64 (add64 cur_size next_size) HEADER_SIZE
      let s2 ← create_header updated_size cur_header FREE s1
      coalesceRealLoop ptr fuel s2

def coalesceReal (s : State) (ptr : Nat) : Res State :=
  coalesceRealLoop ptr s.g_heap_size s

def myrealloc (s : State) (old_ptr new_size : Nat) : Res (Nat × State) :=
  if old_ptr = 0 then do
    let (ptr, s1) ← mymalloc s new_size
    pure (if ptr ≠ 0 then ptr else 0, s1)
  else if new_size = 0 then pure (0, s)
  else do
    let cur_header := sub64 old_ptr HEADER_SIZE
    let cur_size ← header_num s cur_header
    let cur_block := add64 cur_header HEADER_SIZE
    let old_size ← header_num s cur_header
    let new_size := roundup new_size ALIGNMENT
    let next_header := add64 old_ptr cur_size
    let next_block := add64 next_header HEADER_SIZE
    let mem_ptr := cur_block
    if new_size > cur_size then do
      let c ← coalescePossible s next_block
      let s1 ← if c then coalesceReal s next_block else pure s
      let temp_header := sub64 next_block HEADER_SIZE
      let temp_size ← header_num s1 temp_header
      let (mem_ptr, s2) ←
        if temp_size > new_size then do
          let (m, sa) ← mymalloc s1 new_size
          let sb ← memmove sa m old_ptr new_size
          let sc ← myfree sb old_ptr
          pure (m, sc)
        else pure (mem_ptr, s1)
      if new_size < temp_size then do
        let s3 ← regularFree s2 cur_block cur_header
        let new_next_block := add64 (add64 cur_block new_size) HEADER_SIZE
        let cbp ← getPrev s3 cur_block
        let s4 : State := if cbp = 0 then { s3 with first_free_block := new_next_block } else s3
        let cbp2 ← getPrev s4 cur_block
        let s5 ← setPrev s4 new_next_block cbp2
        let cbn ← getNext s5 cur_block
        let s7 ←
          if cbn ≠ 0 then do
            let cbnn ← getNext s5 cbn
            let s6 ← setNext s5 new_next_block cbnn
            let cbn2 ← getNext s6 cur_block
            setPrev s6 cbn2 new_next_block
          else pure s5
        let new_next_header := add64 (add64 cur_header new_size) HEADER_SIZE
        let s8 ← create_header new_size cur_header USED s7
        let s9 ← create_header (sub64 (add64 temp_size cur_size) new_size) new_next_header FREE s8
        pure (mem_ptr, s9)
      else do
        let (m, sa) ← mymalloc s2 new_size
        if m ≠ 0 then do
          let sb ← memmove sa m old_ptr new_size
          let sc ← myfree sb old_ptr
          pure (m, sc)
        else pure (0, sa)
    else if sub64 old_size new_size > MIN_ALLOC_SIZE then do
      let s1 ← create_header new_size cur_header USED s
      let for_header := add64 (add64 cur_header HEADER_SIZE) new_size
      let s2 ← create_header (sub64 (sub64 cur_size new_size) HEADER_SIZE) for_header FREE s1
      pure (cur_block, s2)
    else pure (cur_block, s)

/-- The first `while` loop of `validate_heap`: `false` stands for the early
`return false`. -/
def validateLoop (s : State) : Nat → Nat → Nat → Bool → Res Bool
  | 0, _, _, _ => .error .fuel
  | fuel + 1, current, cur_size, cur_used =>
    if cur_size = 0 ∧ cur_used = true then pure true
    else do
      let bad ←
        if cur_used = true then do
          let w ← load s current
          if w % ALIGNMENT ≠ 1 then pure true
          else do
            let w2 ← load s current
            pure (decide (w2 % ALIGNMENT = 0))
        else pure false
      if bad = true then pure false
      else do
        let next := add64 (add64 current cur_size) HEADER_SIZE
        let u ← is_used s next
        let n ← header_num s next
        validateLoop s fuel next n u

/-- The second `while` loop of `validate_heap`, over the free list. -/
def validateListLoop (s : State) : Nat → Nat → Res Unit
  | 0, _ => .error .fuel
  | fuel + 1, cur_block =>
    if cur_block = 0 then pure ()
    else do
      let next ← getNext s cur_block
      validateListLoop s fuel next

/-- The counters `byte_count` and `block_count` are written but never read in the
source and are left out. -/
def validate_heap (s : State) : Res Bool := do
  let current := s.g_heap_start
  let cur_used ← is_used s current
  let cur_size ← header_num s current
  if current = 0 then pure false
  else do
    let ok ← validateLoop s s.g_heap_size current cur_size cur_used
    if ok = false then pure false
    else do
      validateListLoop s s.g_heap_size s.first_free_block
      pure true

/-- The header walk of `validate_heap` and `dump_heap`, recording payload address, size
and used bit of every block before the end header. -/
def blocksLoop (s : State) : Nat → Nat → Res (List (Nat × Nat × Bool))
  | 0, _ => .error .fuel
  | fuel + 1, current => do
    let u ← is_used s current
    let n ← header_num s current
    if n = 0 ∧ u = true then pure []
    else do
      let rest ← blocksLoop s fuel (add64 (add64 current n) HEADER_SIZE)
      pure ((add64 current HEADER_SIZE, n, u) :: rest)

/-- The blocks of the heap in address order. -/
def blocks (s : State) : Res (List (Nat × Nat × Bool)) :=
  blocksLoop s s.g_heap_size s.g_heap_start

/-- Whether two consecutive blocks of a walk are both free. -/
def adjacentFree : List (Nat × Nat × Bool) → Bool
  | b :: c :: rest => (!b.2.2 && !c.2.2) || adjacentFree (c :: rest)
  | _ => false

/-- A state before `myinit`: zeroed memory and zeroed globals. -/
def blank : State := ⟨fun _ => 0, 0, 0, 0, 0⟩

/-- The state after `myinit` on a 96-byte region at address 4096 and `mymalloc(32)`. -/
def afterMalloc32 : State :=
  match myinit blank 4096 96 >>= fun r => mymalloc r.2 32 with
  | .ok r => r.2
  | .error _ => blank

/-- Scenario: `myinit(region, 96); p = mymalloc(64); myfree(p); q = mymalloc(64)`;
the result is `(p, q)`. -/
def roundTrip64 : Res (Nat × Nat) := do
  let (_, s) ← myinit blank 4096 96
  let (p, s) ← mymalloc s 64
  let s ← myfree s p
  let (q, _) ← mymalloc s 64
  pure (p, q)

/-- Scenario: `myinit(region, 96); p = mymalloc(16); q = myrealloc(p, 32)`; the result is
`p`, `q`, the free-list head, the `prev` field of the head and the used bit of the
header of the head. -/
def growRun : Res (Nat × Nat × Nat × Nat × Bool) := do
  let (_, s) ← myinit blank 4096 96
  let (p, s) ← mymalloc s 16
  let (q, s) ← myrealloc s p 32
  let hp ← getPrev s s.first_free_block
  let hu ← is_used s (sub64 s.first_free_block HEADER_SIZE)
  pure (p, q, s.first_free_block, hp, hu)

/-- Scenario: `myinit(region, 96); a = mymalloc(16); b = mymalloc(16); myfree(a);
myfree(b)`; the result is the header walk of the final heap. -/
def freeBothRun : Res (List (Nat × Nat × Bool)) := do
  let (_, s) ← myinit blank 4096 96
  let (a, s) ← mymalloc s 16
  let (b, s) ← mymalloc s 16
  let s ← myfree s a
  let s ← myfree s b
  blocks s

/-- A region of zero bytes except for the word `4096 + 71` stored at offset 48. -/
def clientData : State := ⟨write64 (fun _ => 0) (4096 + 48) (4096 + 71), 0, 0, 0, 0⟩

/-- Scenario on a 128-byte region at address 4096 whose bytes 48..55 hold the word
`4096 + 71` (they lie in the payload of `b` and the allocator does not write them before
the `myrealloc`): `a = mymalloc(16); b = mymalloc(32); c = mymalloc(16);
r = myrealloc(a, 24); x = mymalloc(32)`; the result is `(a, b, c, r, x)`. -/
def unalignedRun : Res (Nat × Nat × Nat × Nat × Nat) := do
  let (_, s) ← myinit clientData 4096 128
  let (a, s) ← mymalloc s 16
  let (b, s) ← mymalloc s 32
  let (c, s) ← mymalloc s 16
  let (r, s) ← myrealloc s a 24
  let (x, _) ← mymalloc s 32
  pure (a, b, c, r, x)

/-- The state after `myinit` on a 96-byte region at address 4096. -/
def afterInit : State :=
  match myinit blank 4096 96 with
  | .ok r => r.2
  | .error _ => blank

/-- Scenario on a 120-byte region: `a = mymalloc(32); b = mymalloc(16); c = mymalloc(16);
myfree(a); myfree(b); x = mymalloc(8); y = mymalloc(16)`; the result is `y`, the header
word at `y - 8` and its used bit. -/
def clobberedHeaderRun : Res (Nat × Nat × Bool) := do
  let (_, s) ← myinit blank 4096 120
  let (a, s) ← mymalloc s 32
  let (b, s) ← mymalloc s 16
  let (_, s) ← mymalloc s 16
  let s ← myfree s a
  let s ← myfree s b
  let (_, s) ← mymalloc s 8
  let (y, s) ← mymalloc s 16
  let w ← load s (sub64 y HEADER_SIZE)
  let u ← is_used s (sub64 y HEADER_SIZE)
  pure (y, w, u)

/-- Scenario: `myinit(region, 48); p = mymalloc(8)`; the result is `p`, the free-list
head, and size and used bit of the header of the head. -/
def smallRemainderRun : Res (Nat × Nat × Nat × Bool) := do
  let (_, s) ← myinit blank 4096 48
  let (p, s) ← mymalloc s 8
  let c ← header_num s (sub64 s.first_free_block HEADER_SIZE)
  let u ← is_used s (sub64 s.first_free_block HEADER_SIZE)
  pure (p, s.first_free_block, c, u)

/-- Scenario: `myinit(region, 48); p = mymalloc(8)`; the result is the word in the last
8 bytes of the region after `myinit` and after `mymalloc`. -/
def endHeaderRun : Res (Nat × Nat) := do
  let (_, s) ← myinit blank 4096 48
  let e0 ← load s (sub64 s.g_heap_end HEADER_SIZE)
  let (_, s) ← mymalloc s 8
  let e1 ← load s (sub64 s.g_heap_end HEADER_SIZE)
  pure (e0, e1)

/-- `FreeList s lo prev a ns`: following the `next` fields from `a` visits exactly the
nodes `ns` (payload address and size of each) and ends at null; every node is the
payload of a free block of at least 16 bytes that starts at or after `lo` and is followed
by another header inside the region, the blocks are disjoint and in ascending address
order, and the `prev` field of every node holds its predecessor (`prev` for the first). -/
def FreeList (s : State) : Nat → Nat → Nat → List (Nat × Nat) → Prop
  | _, _, a, [] => a = 0
  | lo, prev, a, (n, c) :: ns =>
    a = n ∧ lo + 8 ≤ n ∧ n + c + 8 ≤ s.g_heap_start + s.g_heap_size ∧ 16 ≤ c ∧ c % 8 = 0 ∧
      read64 s.mem (n - 8) = c ∧ read64 s.mem n = prev ∧
      FreeList s (n + c) n (read64 s.mem (n + 8)) ns

/-- Scenario: `myinit(region, 96); a = mymalloc(16); b = mymalloc(16); c = mymalloc(16);
myfree(b)`; the result is `(a, b, c)`, the free-list head and the header walk. -/
def freeMiddleRun : Res (Nat × Nat × Nat × Nat × List (Nat × Nat × Bool)) := do
  let (_, s) ← myinit blank 4096 96
  let (a, s) ← mymalloc s 16
  let (b, s) ← mymalloc s 16
  let (c, s) ← mymalloc s 16
  let s ← myfree s b
  let l ← blocks s
  pure (a, b, c, s.first_free_block, l)

/-- Scenario on a 120-byte region: `a = mymalloc(16); b = mymalloc(16); c = mymalloc(16);
myfree(a); d = mymalloc(32); myfree(c)`; the result is the free-list head. -/
def freeAboveListRun : Res Nat := do
  let (_, s) ← myinit blank 4096 120
  let (a, s) ← mymalloc s 16
  let (_, s) ← mymalloc s 16
  let (c, s) ← mymalloc s 16
  let s ← myfree s a
  let (_, s) ← mymalloc s 32
  let s ← myfree s c
  pure s.first_free_block

/-- Scenario: `myinit(region, 96); p = mymalloc(64); q = myrealloc(p, 16)`; the result is
`(p, q)`, the free-list head and the header walk. -/
def shrinkSplitRun : Res (Nat × Nat × Nat × List (Nat × Nat × Bool)) := do
  let (_, s) ← myinit blank 4096 96
  let (p, s) ← mymalloc s 64
  let (q, s) ← myrealloc s p 16
  let l ← blocks s
  pure (p, q, s.first_free_block, l)

/-- Scenario: `myinit(region, 96); p = mymalloc(16); q = myrealloc(p, 8)`; the result is
`(p, q)` and the header walk. -/
def shrinkSmallRun : Res (Nat × Nat × List (Nat × Nat × Bool)) := do
  let (_, s) ← myinit blank 4096 96
  let (p, s) ← mymalloc s 16
  let (q, s) ← myrealloc s p 8
  let l ← blocks s
  pure (p, q, l)

/-- Scenario: `myinit(region, 96); p = mymalloc(16); q = myrealloc(p, 32)`; the result is
`(p, q)` and the header walk before the `myrealloc`. -/
def growInPlaceRun : Res (Nat × Nat × List (Nat × Nat × Bool)) := do
  let (_, s) ← myinit blank 4096 96
  let (p, s) ← mymalloc s 16
  let l ← blocks s
  let (q, _) ← myrealloc s p 32
  pure (p, q, l)

/-- Scenario: `myinit(region, 96); p = mymalloc(16); q = myrealloc(p, 32)`; the result is
the free-list head, the used bit of its header and the value of `validate_heap`. -/
def auditAfterGrowRun : Res (Nat × Bool × Bool) := do
  let (_, s) ← myinit blank 4096 96
  let (p, s) ← mymalloc s 16
  let (_, s) ← myrealloc s p 32
  let u ← is_used s (sub64 s.first_free_block HEADER_SIZE)
  let v ← validate_heap s
  pure (s.first_free_block, u, v)

/-- The state after `myinit` on a 96-byte region at address 4096 and `mymalloc(16)`. -/
def afterMalloc16 : State :=
  match myinit blank 4096 96 >>= fun r => mymalloc r.2 16 with
  | .ok r => r.2
  | .error _ => blank

/-- A 96-byte region at address 4096 whose first header is already the end header
`{0, used}`, with the free-list head at the payload behind it. -/
def truncatedHeap : State :=
  { mem := write64 (fun _ => 0) 4096 1
    first_free_block := 4104
    g_heap_start := 4096
    g_heap_end := 4192
    g_heap_size := 96 }

/-- Scenario on a 128-byte region: `a = mymalloc(16); b = mymalloc(16)` followed by the
first two calls that `myrealloc(a, 32)` makes, `coalescePossible(b)` and
`coalesceReal(b)`; the result is `(a, b)`, the header word of `b` before, the value of
`coalescePossible` and the header word of `b` after `coalesceReal`. -/
def neighbourPrefixRun : Res (Nat × Nat × Nat × Bool × Nat) := do
  let (_, s) ← myinit blank 4096 128
  let (a, s) ← mymalloc s 16
  let (b, s) ← mymalloc s 16
  let w0 ← load s (sub64 b HEADER_SIZE)
  let c ← coalescePossible s b
  let s1 ← coalesceReal s b
  let w1 ← load s1 (sub64 b HEADER_SIZE)
  pure (a, b, w0, c, w1)

/-- Scenario on a 128-byte region: `a = mymalloc(16); b = mymalloc(16);
q = myrealloc(a, 32)`; the result is `q`. -/
def neighbourExampleRun : Res Nat := do
  let (_, s) ← myinit blank 4096 128
  let (a, s) ← mymalloc s 16
  let (_, s) ← mymalloc s 16
  let (q, _) ← myrealloc s a 32
  pure q

/-- Scenario on a 192-byte region: `a = mymalloc(16); b = mymalloc(16); x = mymalloc(16);
c = mymalloc(16); myfree(x); q = myrealloc(a, 48)`; the result is `(a, b, q)`, the header
word of `b` before and after the `myrealloc`. -/
def neighbourMergedRun : Res (Nat × Nat × Nat × Nat × Nat) := do
  let (_, s) ← myinit blank 4096 192
  let (a, s) ← mymalloc s 16
  let (b, s) ← mymalloc s 16
  let (x, s) ← mymalloc s 16
  let (_, s) ← mymalloc s 16
  let s ← myfree s x
  let w0 ← load s (sub64 b HEADER_SIZE)
  let (q, s) ← myrealloc s a 48
  let w1 ← load s (sub64 b HEADER_SIZE)
  pure (a, b, q, w0, w1)

end Explicit

/-! # Theorems -/

theorem readBytes_lt (m : Mem) (n a : Nat) : readBytes m a n < 256 ^ n := by
  induction n generalizing a with
  | zero => simp [readBytes]
  | succ n ih =>
    have h := ih (a + 1)
    have hm : m a % 256 < 256 := Nat.mod_lt _ (by norm_num)
    simp only [readBytes, pow_succ]
    omega

theorem read64_lt (m : Mem) (a : Nat) : read64 m a < WORD := by
  have h := readBytes_lt m 8 a
  simpa [read64, WORD] using h

theorem readBytes_congr (m m' : Mem) (n a : Nat) (h : ∀ i, i < n → m' (a + i) = m (a + i)) :
    readBytes m' a n = readBytes m a n := by
  induction n generalizing a with
  | zero => rfl
  | succ n ih =>
    have h0 := h 0 (Nat.succ_pos n)
    have h1 : readBytes m' (a + 1) n = readBytes m (a + 1) n := by
      apply ih
      intro i hi
      have := h (i + 1) (by omega)
      simpa [Nat.add_assoc, Nat.add_comm 1 i] using this
    simp only [readBytes, h1]
    simp only [Nat.add_zero] at h0
    rw [h0]

theorem read64_congr (m m' : Mem) (a : Nat) (h : ∀ x, a ≤ x → x < a + 8 → m' x = m x) :
    read64 m' a = read64 m a := by
  apply readBytes_congr
  intro i hi
  exact h (a + i) (by omega) (by omega)

theorem readBytes_of_digits (m : Mem) (n a v : Nat)
    (h : ∀ i, i < n → m (a + i) = v / 256 ^ i % 256) : readBytes m a n = v % 256 ^ n := by
  induction n generalizing a v with
  | zero => simp [readBytes, Nat.mod_one]
  | succ n ih =>
    have h0 := h 0 (Nat.succ_pos n)
    simp only [Nat.add_zero, pow_zero, Nat.div_one] at h0
    have h1 : readBytes m (a + 1) n = v / 256 % 256 ^ n := by
      apply ih
      intro i hi
      have := h (i + 1) (by omega)
      rw [Nat.add_assoc, Nat.add_comm 1 i, this, Nat.div_div_eq_div_mul, pow_succ, Nat.mul_comm]
    simp only [readBytes, h0, h1, Nat.mod_mod]
    rw [show 256 ^ (n + 1) = 256 * 256 ^ n from by rw [pow_succ, Nat.mul_comm], Nat.mod_mul]

theorem read64_write64_same (m : Mem) (a v : Nat) : read64 (write64 m a v) a = v % WORD := by
  have : readBytes (write64 m a v) a 8 = v % 256 ^ 8 := by
    apply readBytes_of_digits
    intro i hi
    have h1 : a ≤ a + i ∧ a + i < a + 8 := by omega
    simp [write64, h1]
  simpa [read64, WORD] using this

theorem read64_write64_other (m : Mem) (a v b : Nat) (h : b + 8 ≤ a ∨ a + 8 ≤ b) :
    read64 (write64 m a v) b = read64 m b := by
  apply read64_congr
  intro x h1 h2
  have : ¬ (a ≤ x ∧ x < a + 8) := by omega
  simp [write64, this]

theorem read64_moveBytes_other (m : Mem) (d s n b : Nat) (h : b + 8 ≤ d ∨ d + n ≤ b) :
    read64 (moveBytes m d s n) b = read64 m b := by
  apply read64_congr
  intro x h1 h2
  have : ¬ (d ≤ x ∧ x < d + n) := by omega
  simp [moveBytes, this]

theorem land_mask8 (x : Nat) (hx : x < WORD) : x &&& (WORD - 1 - 7) = x / 8 * 8 := by
  apply Nat.eq_of_testBit_eq
  intro i
  have e1 : WORD - 1 - 7 = 2 ^ 3 * (2 ^ 61 - 1) := by norm_num [WORD]
  have e2 : x / 8 * 8 = 2 ^ 3 * (x >>> 3) := by
    rw [Nat.shiftRight_eq_div_pow]; norm_num [Nat.mul_comm]
  rw [Nat.testBit_and, e1, e2, Nat.testBit_mul_pow_two, Nat.testBit_mul_pow_two,
    Nat.testBit_two_pow_sub_one, Nat.testBit_shiftRight]
  by_cases h3 : i ≥ 3
  · by_cases h64 : i < 64
    · have : i - 3 < 61 := by omega
      have e : 3 + (i - 3) = i := by omega
      simp [h3, this, e]
    · have hlt : x < 2 ^ i := by
        have : 2 ^ 64 ≤ 2 ^ i := Nat.pow_le_pow_right (by norm_num) (by omega)
        have hw : WORD = 2 ^ 64 := by norm_num [WORD]
        omega
      have e : 3 + (i - 3) = i := by omega
      simp [Nat.testBit_lt_two_pow hlt, e]
  · simp [h3]

theorem add64_eq (a b : Nat) (h : a + b < WORD) : add64 a b = a + b := by
  unfold add64; exact Nat.mod_eq_of_lt h

theorem sub64_eq (a b : Nat) (ha : a < WORD) (h : b ≤ a) : sub64 a b = a - b := by
  unfold sub64 WORD at *; omega

namespace Implicit

theorem roundup_eq (n : Nat) (h : n + 7 < WORD) : roundup n ALIGNMENT = (n + 7) / 8 * 8 := by
  have h1 : sub64 (add64 n ALIGNMENT) 1 = n + 7 := by
    unfold sub64 add64 ALIGNMENT WORD at *; omega
  have h2 : sub64 ALIGNMENT 1 = 7 := by unfold sub64 ALIGNMENT WORD; omega
  unfold roundup
  rw [h1, h2]
  exact land_mask8 _ h

theorem load_ok (s : State) (a : Nat) (h0 : a ≠ 0) (h1 : s.g_heap_start ≤ a)
    (h2 : a + 8 ≤ s.g_heap_start + s.g_heap_size) : load s a = .ok (read64 s.mem a) := by
  simp [load, valid, h0, h1, h2]

theorem store_ok (s : State) (a v : Nat) (h0 : a ≠ 0) (h1 : s.g_heap_start ≤ a)
    (h2 : a + 8 ≤ s.g_heap_start + s.g_heap_size) :
    store s a v = .ok { s with mem := write64 s.mem a v } := by
  simp [store, valid, h0, h1, h2]

theorem hdrWord_decode (b : Blk) (h : b.1 % 8 = 0) (hlt : hdrWord b < WORD) :
    (hdrWord b &&& 1 != 0) = b.2 ∧ (if b.2 = true then sub64 (hdrWord b) 1 else hdrWord b) = b.1 := by
  obtain ⟨sz, u⟩ := b
  simp only [] at h
  cases u
  · simp [hdrWord, Nat.and_one_is_mod]; omega
  · simp [hdrWord, Nat.and_one_is_mod, sub64, WORD] at *; omega

theorem is_used_ok (s : State) (a : Nat) (b : Blk) (h0 : a ≠ 0) (h1 : s.g_heap_start ≤ a)
    (h2 : a + 8 ≤ s.g_heap_start + s.g_heap_size) (hw : read64 s.mem a = hdrWord b)
    (h8 : b.1 % 8 = 0) : is_used s a = .ok b.2 := by
  have hlt : hdrWord b < WORD := hw ▸ read64_lt _ _
  have hd := (hdrWord_decode b h8 hlt).1
  simp only [is_used, load_ok s a h0 h1 h2, hw]
  show Except.ok _ = _
  rw [hd]

theorem header_num_ok (s : State) (a : Nat) (b : Blk) (h0 : a ≠ 0) (h1 : s.g_heap_start ≤ a)
    (h2 : a + 8 ≤ s.g_heap_start + s.g_heap_size) (hw : read64 s.mem a = hdrWord b)
    (h8 : b.1 % 8 = 0) : header_num s a = .ok b.1 := by
  have hlt : hdrWord b < WORD := hw ▸ read64_lt _ _
  have hd := (hdrWord_decode b h8 hlt).2
  simp only [header_num, is_used_ok s a b h0 h1 h2 hw h8, load_ok s a h0 h1 h2, hw]
  show Except.ok _ = _
  rw [hd]

theorem chain_head (m : Mem) (a : Nat) (bs : List Blk) (e : Nat) (h : Chain m a bs e) :
    read64 m a = hdrWord (headOf bs) ∧ (headOf bs).1 % 8 = 0 := by
  cases bs with
  | nil => simp [Chain] at h; simp [headOf, hdrWord, h.2]
  | cons b bs => simp [Chain] at h; simp [headOf, h.1, h.2.1]

theorem chain_bound (m : Mem) (bs : List Blk) (a e : Nat) (h : Chain m a bs e) :
    a + 8 * bs.length ≤ e ∧ (e - a) % 8 = 0 := by
  induction bs generalizing a with
  | nil => simp [Chain] at h; simp [h.1]
  | cons b bs ih =>
    simp only [Chain] at h
    have := ih _ h.2.2.2
    have h8 := h.2.1
    simp only [List.length_cons]
    omega

theorem chain_congr (m m' : Mem) (bs : List Blk) (a e : Nat)
    (hm : ∀ x, a ≤ x → m' x = m x) (h : Chain m a bs e) : Chain m' a bs e := by
  induction bs generalizing a with
  | nil =>
    simp only [Chain] at h ⊢
    refine ⟨h.1, ?_⟩
    rw [read64_congr m m' a (fun x hx _ => hm x hx)]; exact h.2
  | cons b bs ih =>
    simp only [Chain] at h ⊢
    refine ⟨?_, h.2.1, h.2.2.1, ?_⟩
    · rw [read64_congr m m' a (fun x hx _ => hm x hx)]; exact h.1
    · exact ih _ (fun x hx => hm x (by omega)) h.2.2.2

theorem hdrs_bound (m : Mem) (bs : List Blk) (a e x : Nat) (h : Chain m a bs e)
    (hx : x ∈ hdrs a bs) : a ≤ x ∧ x + 8 ≤ e ∧ (x - a) % 8 = 0 := by
  induction bs generalizing a with
  | nil => simp [hdrs] at hx
  | cons b bs ih =>
    simp only [Chain] at h
    have hb := chain_bound m bs _ e h.2.2.2
    simp only [hdrs, List.mem_cons] at hx
    rcases hx with rfl | hx
    · omega
    · have := ih _ h.2.2.2 hx
      have h8 := h.2.1
      omega

/-- At a header address of the chain sits a well-formed header, and no other header of
the chain lies inside the block it describes. -/
theorem chain_at (m : Mem) (bs : List Blk) (a e h : Nat) (hc : Chain m a bs e)
    (hh : h ∈ hdrs a bs) :
    ∃ b : Blk, read64 m h = hdrWord b ∧ b.1 % 8 = 0 ∧ b ≠ (0, true) ∧ h + b.1 + 8 ≤ e ∧
      ∀ x, (x ∈ hdrs a bs ∨ x = e) → x ≤ h ∨ h + 8 + b.1 ≤ x := by
  induction bs generalizing a with
  | nil => simp [hdrs] at hh
  | cons b bs ih =>
    simp only [Chain] at hc
    have hb := chain_bound m bs _ e hc.2.2.2
    simp only [hdrs, List.mem_cons] at hh
    rcases hh with rfl | hh
    · refine ⟨b, hc.1, hc.2.1, hc.2.2.1, by omega, ?_⟩
      intro x hx
      rcases hx with hx | rfl
      · simp only [hdrs, List.mem_cons] at hx
        rcases hx with rfl | hx
        · omega
        · have := hdrs_bound m bs _ e x hc.2.2.2 hx; omega
      · omega
    · obtain ⟨b', h1, h2, h3, h4, h5⟩ := ih _ hc.2.2.2 hh
      refine ⟨b', h1, h2, h3, h4, ?_⟩
      intro x hx
      rcases hx with hx | rfl
      · simp only [hdrs, List.mem_cons] at hx
        rcases hx with rfl | hx
        · have := hdrs_bound m bs _ e h hc.2.2.2 hh; omega
        · exact h5 x (Or.inl hx)
      · exact h5 x (Or.inr rfl)

/-- A chain only depends on the words at its header addresses and at the end header. -/
theorem chain_of_reads (m m' : Mem) (bs : List Blk) (a e : Nat)
    (hm : ∀ x, (x ∈ hdrs a bs ∨ x = e) → read64 m' x = read64 m x) (h : Chain m a bs e) :
    Chain m' a bs e := by
  induction bs generalizing a with
  | nil =>
    simp only [Chain] at h ⊢
    refine ⟨h.1, ?_⟩
    rw [hm a (Or.inr h.1)]; exact h.2
  | cons b bs ih =>
    simp only [Chain] at h ⊢
    refine ⟨?_, h.2.1, h.2.2.1, ?_⟩
    · rw [hm a (Or.inl (by simp [hdrs]))]; exact h.1
    · apply ih _ _ h.2.2.2
      intro x hx
      apply hm
      rcases hx with hx | hx
      · left; simp [hdrs, hx]
      · right; exact hx

theorem bind_ok {α β : Type} (x : α) (f : α → Res β) : (Except.ok x >>= f) = f x := rfl

theorem pure_ok {α : Type} (x : α) : (pure x : Res α) = Except.ok x := rfl

theorem create_header_ok (s : State) (num ptr status v : Nat) (h0 : ptr ≠ 0)
    (h1 : s.g_heap_start ≤ ptr) (h2 : ptr + 8 ≤ s.g_heap_start + s.g_heap_size)
    (hv : add64 num status = v) :
    create_header num ptr status s = .ok { s with mem := write64 s.mem ptr v } := by
  rw [create_header, hv, store_ok s ptr v h0 h1 h2]

theorem mallocLoop_spec (s : State) (need e : Nat) (hneed : need % 8 = 0) (hpos : 0 < need)
    (hs : s.g_heap_start ≠ 0) (he : e + 8 = s.g_heap_start + s.g_heap_size)
    (hfit : s.g_heap_start + s.g_heap_size ≤ WORD) :
    ∀ (bs : List Blk) (a fuel : Nat), s.g_heap_start ≤ a → Chain s.mem a bs e →
      bs.length < fuel →
      ∃ r, mallocLoop s need fuel a (headOf bs).1 (headOf bs).2 = .ok r ∧
        LoopPost s need a e bs r := by
  intro bs
  induction bs with
  | nil =>
    intro a fuel _ _ hf
    obtain ⟨f, rfl⟩ : ∃ f, fuel = f + 1 := ⟨fuel - 1, by simp at hf; omega⟩
    exact ⟨(0, s), by simp [mallocLoop, headOf, pure_ok], by simp [LoopPost, fit]⟩
  | cons b bs ih =>
    intro a fuel ha hc hf
    obtain ⟨f, rfl⟩ : ∃ f, fuel = f + 1 := ⟨fuel - 1, by simp at hf; omega⟩
    simp only [Chain] at hc
    obtain ⟨hw, h8, hne, hrest⟩ := hc
    have hb := chain_bound s.mem bs _ e hrest
    have hend : ¬ (b.1 = 0 ∧ b.2 = true) := by
      intro hh; apply hne; exact Prod.ext hh.1 hh.2
    have ha0 : a ≠ 0 := by omega
    by_cases htake : b.2 = false ∧ need ≤ b.1
    · -- the block is taken
      have hv1 : add64 need USED = need + 1 := by
        apply add64_eq; unfold USED WORD at *; omega
      have hst1 := create_header_ok s need a USED (need + 1) ha0 ha (by omega) hv1
      by_cases hsplit : need < b.1
      · have hn2 : add64 (add64 a need) ALIGNMENT = a + need + 8 := by
          unfold add64 ALIGNMENT WORD at *; omega
        have hsz : add64 (sub64 (sub64 b.1 need) ALIGNMENT) FREE = b.1 - need - 8 := by
          unfold add64 sub64 ALIGNMENT FREE WORD at *; omega
        refine ⟨(a + 8, { s with mem := write64 (write64 s.mem a (need + 1)) (a + need + 8) (b.1 - need - 8) }), ?_, ?_⟩
        · have hst2 := create_header_ok { s with mem := write64 s.mem a (need + 1) }
            (sub64 (sub64 b.1 need) ALIGNMENT) (a + need + 8) FREE
            (b.1 - need - 8) (by omega) (by show s.g_heap_start ≤ _; omega)
            (by show _ ≤ s.g_heap_start + s.g_heap_size; omega) hsz
          have hpa : add64 a ALIGNMENT = a + 8 := by
            unfold add64 ALIGNMENT WORD at *; omega
          have htake' : b.2 = false ∧ b.1 ≥ need := htake
          have hsplit' : b.1 > need := hsplit
          simp only [mallocLoop, headOf, List.headD_cons, hend, if_false, htake', if_true, hst1,
            bind_ok, hsplit', hn2, hst2, hpa, pure_ok]
          simp
        · simp only [LoopPost, fit, htake, and_self, if_true, hsplit]
          refine ⟨by simp, ?_, trivial, trivial, ?_⟩
          · simp only [Chain]
            refine ⟨?_, hneed, by simp; omega, ?_, by omega, by simp, ?_⟩
            · rw [read64_write64_other _ _ _ _ (by omega), read64_write64_same]
              simp [hdrWord]; unfold WORD at *; omega
            · rw [read64_write64_same]
              simp [hdrWord]; unfold WORD at *; omega
            · have e1 : a + need + 8 + (b.1 - need - 8) + 8 = a + b.1 + 8 := by omega
              simp only [e1]
              apply chain_congr s.mem _ bs _ e _ hrest
              intro x hx
              simp [write64]
              have n1 : ¬ (a + need + 8 ≤ x ∧ x < a + need + 8 + 8) := by omega
              have n2 : ¬ (a ≤ x ∧ x < a + 8) := by omega
              simp [n1, n2]
          · intro x hx
            have n1 : ¬ (a + need + 8 ≤ x ∧ x < a + need + 8 + 8) := by omega
            have n2 : ¬ (a ≤ x ∧ x < a + 8) := by omega
            simp [write64, n1, n2]
      · have heq : b.1 = need := by omega
        refine ⟨(a + 8, { s with mem := write64 s.mem a (need + 1) }), ?_, ?_⟩
        · have hpa : add64 a ALIGNMENT = a + 8 := by
            unfold add64 ALIGNMENT WORD at *; omega
          have hns : ¬ (b.1 > need) := by omega
          have htake' : b.2 = false ∧ b.1 ≥ need := htake
          simp only [mallocLoop, headOf, List.headD_cons, hend, if_false, htake', if_true, hst1,
            bind_ok, hns, hpa, pure_ok]
          simp
        · simp only [LoopPost, fit, htake, and_self, if_true, hsplit, if_false]
          refine ⟨by simp, ?_, trivial, trivial, ?_⟩
          · simp only [Chain]
            refine ⟨?_, hneed, by simp; omega, ?_⟩
            · rw [read64_write64_same]
              simp [hdrWord]; unfold WORD at *; omega
            · rw [← heq]
              apply chain_congr s.mem _ bs _ e _ hrest
              intro x hx
              have n2 : ¬ (a ≤ x ∧ x < a + 8) := by omega
              simp [write64, n2]
          · intro x hx
            have n2 : ¬ (a ≤ x ∧ x < a + 8) := by omega
            simp [write64, n2]
    · -- the block is skipped
      have hnext : add64 (add64 a b.1) ALIGNMENT = a + b.1 + 8 := by
        unfold add64 ALIGNMENT WORD at *; omega
      obtain ⟨hw', h8'⟩ := chain_head s.mem _ bs e hrest
      have hu := is_used_ok s (a + b.1 + 8) (headOf bs) (by omega) (by omega) (by omega) hw' h8'
      have hn := header_num_ok s (a + b.1 + 8) (headOf bs) (by omega) (by omega) (by omega) hw' h8'
      obtain ⟨r, hr, hpost⟩ := ih (a + b.1 + 8) f (by omega) hrest (by simp at hf; omega)
      refine ⟨r, ?_, ?_⟩
      · have htake' : ¬ (b.2 = false ∧ b.1 ≥ need) := htake
        simp only [mallocLoop, headOf, List.headD_cons, hend, if_false, htake', hnext, hu, hn,
          bind_ok]
        exact hr
      · simp only [LoopPost, fit, htake, if_false] at hpost ⊢
        cases hfit' : fit need bs with
        | none => simp [hfit'] at hpost ⊢; exact hpost
        | some p =>
          obtain ⟨off, bs'⟩ := p
          simp only [hfit', Option.map_some'] at hpost ⊢
          obtain ⟨p1, p2, p3, p4, p5⟩ := hpost
          refine ⟨by omega, ?_, p3, p4, fun x hx => p5 x (by omega)⟩
          simp only [Chain]
          refine ⟨?_, h8, hne, p2⟩
          rw [read64_congr s.mem r.2.mem a (fun x _ hx => p5 x (by omega))]
          exact hw

theorem fit_facts (m : Mem) (need : Nat) (hneed : need % 8 = 0) :
    ∀ (bs : List Blk) (a e off : Nat) (bs' : List Blk), Chain m a bs e →
      fit need bs = some (off, bs') →
      (∀ x, x ∈ hdrs a bs → x ∈ hdrs a bs') ∧ a + off ∈ hdrs a bs' ∧
      (∀ m', Chain m' a bs' e → read64 m' (a + off) = need + 1) ∧
      (∀ c, c ∈ layout a bs → c.2.2 = true →
        c.1 + c.2.1 ≤ a + off + 8 ∨ a + off + 8 + need ≤ c.1) := by
  intro bs
  induction bs with
  | nil => intro a e off bs' _ hf; simp [fit] at hf
  | cons b bs ih =>
    intro a e off bs' hc hf
    simp only [Chain] at hc
    obtain ⟨hw, h8, hne, hrest⟩ := hc
    by_cases htake : b.2 = false ∧ need ≤ b.1
    · simp only [fit, htake, and_self, if_true, Option.some.injEq, Prod.mk.injEq] at hf
      obtain ⟨rfl, rfl⟩ := hf
      have hlay : ∀ c, c ∈ layout a (b :: bs) → c.2.2 = true →
          c.1 + c.2.1 ≤ a + 0 + 8 ∨ a + 0 + 8 + need ≤ c.1 := by
        intro c hcm hu
        simp only [layout, List.mem_cons] at hcm
        rcases hcm with rfl | hcm
        · simp [htake.1] at hu
        · have : a + b.1 + 8 + 8 ≤ c.1 := by
            clear hrest ih
            generalize a + b.1 + 8 = a' at hcm
            induction bs generalizing a' with
            | nil => simp [layout] at hcm
            | cons d ds ihd =>
              simp only [layout, List.mem_cons] at hcm
              rcases hcm with rfl | hcm
              · simp
              · have := ihd _ hcm; omega
          omega
      have hmem0 : ∀ l : List Blk, a + 0 ∈ hdrs a ((need, true) :: l) := by
        intro l; simp only [hdrs, List.mem_cons, Nat.add_zero, true_or]
      have hrd : ∀ (l : List Blk) (m' : Mem), Chain m' a ((need, true) :: l) e →
          read64 m' (a + 0) = need + 1 := by
        intro l m' hm'
        simp only [Chain] at hm'
        rw [Nat.add_zero, hm'.1]; rfl
      refine ⟨?_, hmem0 _, hrd _, hlay⟩
      intro x hx
      simp only [hdrs, List.mem_cons] at hx
      by_cases hsplit : need < b.1
      · have e1 : a + need + 8 + (b.1 - need - 8) + 8 = a + b.1 + 8 := by omega
        simp only [hsplit, if_true, hdrs, List.mem_cons, e1]
        rcases hx with hx | hx
        · exact Or.inl hx
        · exact Or.inr (Or.inr hx)
      · have e1 : need = b.1 := by omega
        simp only [hsplit, if_false, hdrs, List.mem_cons]
        rw [e1]
        exact hx
    · simp only [fit, htake, if_false] at hf
      cases hfit' : fit need bs with
      | none => simp [hfit'] at hf
      | some p =>
        obtain ⟨off', bs''⟩ := p
        simp only [hfit', Option.map_some', Option.some.injEq, Prod.mk.injEq] at hf
        obtain ⟨rfl, rfl⟩ := hf
        obtain ⟨i1, i2, i3, i4⟩ := ih (a + b.1 + 8) e off' bs'' hrest hfit'
        have e2 : a + (b.1 + 8 + off') = a + b.1 + 8 + off' := by omega
        refine ⟨?_, ?_, ?_, ?_⟩
        · intro x hx
          simp only [hdrs, List.mem_cons] at hx ⊢
          rcases hx with rfl | hx
          · left; rfl
          · right; exact i1 x hx
        · simp only [hdrs, List.mem_cons, e2]; right; exact i2
        · intro m' hm'
          simp only [Chain] at hm'
          rw [e2]; exact i3 m' hm'.2.2.2
        · intro c hcm hu
          simp only [layout, List.mem_cons] at hcm
          rcases hcm with rfl | hcm
          · left; simp; omega
          · have := i4 c hcm hu; omega

theorem myinit_inv (s0 s : State) (start size : Nat) (hfit : start + size ≤ WORD)
    (h8 : size % ALIGNMENT = 0) (h : myinit s0 start size = .ok (true, s)) :
    Inv s [(size - 16, false)] ∧ s.g_heap_start = start ∧ s.g_heap_size = size ∧ 24 < size := by
  unfold myinit at h
  by_cases hsz : size ≤ MIN_HEAP_SIZE
  · simp [hsz, pure_ok] at h
  · simp only [hsz, if_false] at h
    unfold MIN_HEAP_SIZE at hsz
    unfold ALIGNMENT at h8
    by_cases hs0 : start = 0
    · subst hs0
      simp [create_header, store, valid, bind, Except.bind] at h
    · have hv1 : add64 (sub64 size (2 * HEADER_SIZE)) FREE = size - 16 := by
        unfold add64 sub64 HEADER_SIZE FREE WORD at *; omega
      have hp2 : sub64 (add64 start size) HEADER_SIZE = start + size - 8 := by
        unfold add64 sub64 HEADER_SIZE WORD at *; omega
      have hv2 : add64 0 USED = 1 := by unfold add64 USED WORD; omega
      rw [create_header_ok _ _ _ _ (size - 16) hs0 (le_refl _) (by show start + 8 ≤ start + size; omega) hv1,
        bind_ok, hp2,
        create_header_ok _ _ _ _ 1 (by omega) (by show start ≤ _; omega)
          (by show _ ≤ start + size; omega) hv2, bind_ok, pure_ok] at h
      simp only [Except.ok.injEq, Prod.mk.injEq, true_and] at h
      subst h
      refine ⟨⟨hs0, hfit, by show 8 ≤ size; omega, ?_⟩, rfl, rfl, by omega⟩
      show Chain _ start _ (start + size - 8)
      simp only [Chain]
      have e1 : start + (size - 16) + 8 = start + size - 8 := by omega
      refine ⟨?_, by show (size - 16) % 8 = 0; omega, by simp, by show start + (size - 16) + 8 = start + size - 8; omega, ?_⟩
      · rw [read64_write64_other _ _ _ _ (by omega), read64_write64_same]
        simp [hdrWord]; unfold WORD at *; omega
      · simp only [e1]; rw [read64_write64_same]; unfold WORD; omega

theorem mymalloc_spec (s : State) (bs : List Blk) (n : Nat) (hinv : Inv s bs) :
    ∃ r, mymalloc s n = .ok r ∧
      (((n = 0 ∨ s.g_heap_size - 8 < n ∨ fit (roundup n ALIGNMENT) bs = none) ∧ r = (0, s)) ∨
       (0 < n ∧ n ≤ s.g_heap_size - 8 ∧ ∃ off bs', fit (roundup n ALIGNMENT) bs = some (off, bs') ∧
          r.1 = s.g_heap_start + off + 8 ∧ Inv r.2 bs' ∧
          r.2.g_heap_start = s.g_heap_start ∧ r.2.g_heap_size = s.g_heap_size)) := by
  obtain ⟨h0, hfit, hge, hc⟩ := hinv
  have hsub : sub64 s.g_heap_size ALIGNMENT = s.g_heap_size - 8 := by
    unfold sub64 ALIGNMENT WORD at *; omega
  unfold mymalloc
  rw [hsub]
  by_cases hrej : n > s.g_heap_size - 8 ∨ n = 0
  · refine ⟨(0, s), by simp only [hrej, if_true, pure_ok], Or.inl ⟨?_, rfl⟩⟩
    rcases hrej with h | h
    · right; left; exact h
    · left; exact h
  · simp only [hrej, if_false]
    have hn1 : 0 < n := by omega
    have hn2 : n ≤ s.g_heap_size - 8 := by omega
    have hr := roundup_eq n (by unfold WORD at *; omega)
    obtain ⟨hw, h8⟩ := chain_head _ _ _ _ hc
    have hb := chain_bound _ _ _ _ hc
    have hu := is_used_ok s s.g_heap_start (headOf bs) h0 (le_refl _) (by omega) hw h8
    have hn := header_num_ok s s.g_heap_start (headOf bs) h0 (le_refl _) (by omega) hw h8
    rw [hn, bind_ok, hu, bind_ok]
    obtain ⟨r, hrun, hpost⟩ := mallocLoop_spec s (roundup n ALIGNMENT)
      (s.g_heap_start + s.g_heap_size - 8) (by rw [hr]; omega) (by rw [hr]; omega) h0 (by omega)
      hfit bs s.g_heap_start s.g_heap_size (le_refl _) hc (by omega)
    refine ⟨r, hrun, ?_⟩
    unfold LoopPost at hpost
    cases hf : fit (roundup n ALIGNMENT) bs with
    | none =>
      simp only [hf] at hpost
      exact Or.inl ⟨Or.inr (Or.inr rfl), hpost⟩
    | some p =>
      obtain ⟨off, bs'⟩ := p
      simp only [hf] at hpost
      obtain ⟨p1, p2, p3, p4, _⟩ := hpost
      refine Or.inr ⟨hn1, hn2, off, bs', rfl, p1, ⟨?_, ?_, ?_, ?_⟩, p3, p4⟩
      · rw [p3]; exact h0
      · rw [p3, p4]; exact hfit
      · rw [p4]; exact hge
      · rw [p3, p4]; exact p2

theorem hdrs_release (h : Nat) (bs : List Blk) (a : Nat) :
    hdrs a (release h a bs) = hdrs a bs := by
  induction bs generalizing a with
  | nil => rfl
  | cons b bs ih =>
    by_cases hah : a = h
    · simp [release, hah, hdrs]
    · simp [release, hah, hdrs, ih]

theorem chain_release (m m' : Mem) (h : Nat) (bs : List Blk) (a e : Nat)
    (hc : Chain m a bs e) (hh : h ∈ hdrs a bs)
    (hsame : ∀ x, (x ∈ hdrs a bs ∨ x = e) → x ≠ h → read64 m' x = read64 m x)
    (hval : read64 m' h = read64 m h / 2 * 2) : Chain m' a (release h a bs) e := by
  induction bs generalizing a with
  | nil => simp [hdrs] at hh
  | cons b bs ih =>
    have hc' := hc
    simp only [Chain] at hc
    obtain ⟨hw, h8, hne, hrest⟩ := hc
    by_cases hah : a = h
    · subst hah
      simp only [release, if_true, Chain]
      refine ⟨?_, h8, by simp, ?_⟩
      · rw [hval, hw]
        obtain ⟨sz, u⟩ := b
        simp only [] at h8
        cases u <;> simp [hdrWord] <;> omega
      · apply chain_of_reads m m' bs _ e _ hrest
        intro x hx
        apply hsame x
        · rcases hx with hx | hx
          · left; simp [hdrs, hx]
          · right; exact hx
        · rcases hx with hx | hx
          · have := hdrs_bound m bs _ e x hrest hx; omega
          · have := chain_bound m bs _ e hrest; omega
    · simp only [release, hah, if_false, Chain]
      simp only [hdrs, List.mem_cons] at hh
      rcases hh with hh | hh
      · exact absurd hh.symm hah
      · refine ⟨?_, h8, hne, ?_⟩
        · rw [hsame a (Or.inl (by simp [hdrs])) hah]; exact hw
        · apply ih _ hrest hh
          intro x hx hxh
          apply hsame x _ hxh
          rcases hx with hx | hx
          · left; simp [hdrs, hx]
          · right; exact hx

theorem toggle_free_mem (s : State) (h : Nat) (h0 : h ≠ 0) (h1 : s.g_heap_start ≤ h)
    (h2 : h + 8 ≤ s.g_heap_start + s.g_heap_size) :
    ∃ s', toggle_free s h = .ok s' ∧ s'.g_heap_start = s.g_heap_start ∧
      s'.g_heap_size = s.g_heap_size ∧ read64 s'.mem h = read64 s.mem h / 2 * 2 ∧
      ∀ x, (x + 8 ≤ h ∨ h + 8 ≤ x) → read64 s'.mem x = read64 s.mem x := by
  have hl := read64_lt s.mem h
  let m1 : Mem := write64 s.mem h (read64 s.mem h >>> 1)
  let m2 : Mem := write64 m1 h ((read64 m1 h <<< 1) % WORD)
  refine ⟨{ s with mem := m2 }, ?_, ?_⟩
  · unfold toggle_free
    rw [load_ok s h h0 h1 h2, bind_ok, store_ok s h _ h0 h1 h2, bind_ok,
      load_ok _ h h0 (by exact h1) (by exact h2), bind_ok,
      store_ok _ h _ h0 (by exact h1) (by exact h2)]
  · refine ⟨rfl, rfl, ?_, ?_⟩
    · show read64 (write64 _ h _) h = _
      rw [read64_write64_same]
      show (read64 (write64 s.mem h _) h <<< 1) % WORD % WORD = _
      rw [read64_write64_same, Nat.shiftLeft_eq, Nat.shiftRight_eq_div_pow]
      unfold WORD at *
      omega
    · intro x hx
      show read64 (write64 (write64 s.mem h _) h _) x = _
      rw [read64_write64_other _ _ _ _ hx, read64_write64_other _ _ _ _ hx]

theorem myfree_inv (s : State) (bs : List Blk) (h : Nat) (hinv : Inv s bs)
    (hh : h ∈ hdrs s.g_heap_start bs) :
    ∃ s', myfree s (h + 8) = .ok s' ∧ Inv s' (release h s.g_heap_start bs) ∧
      s'.g_heap_start = s.g_heap_start ∧ s'.g_heap_size = s.g_heap_size := by
  obtain ⟨h0, hfit, hge, hc⟩ := hinv
  have hb := hdrs_bound _ _ _ _ _ hc hh
  have hp : sub64 (h + 8) ALIGNMENT = h := by unfold sub64 ALIGNMENT WORD at *; omega
  obtain ⟨s', hrun, g1, g2, hval, hsame⟩ := toggle_free_mem s h (by omega) hb.1 (by omega)
  refine ⟨s', ?_, ⟨by rw [g1]; exact h0, by rw [g1, g2]; exact hfit, by rw [g2]; exact hge, ?_⟩,
    g1, g2⟩
  · unfold myfree
    simp only [Nat.add_eq_zero, OfNat.ofNat_ne_zero, and_false, if_false, hp]
    exact hrun
  · rw [g1, g2]
    apply chain_release s.mem s'.mem h bs _ _ hc hh _ hval
    intro x hx hxh
    apply hsame
    rcases hx with hx | hx
    · have := hdrs_bound _ _ _ _ _ hc hx; omega
    · omega

theorem memmove_inv (s s' : State) (bs : List Blk) (h n src : Nat) (hinv : Inv s bs)
    (hh : h ∈ hdrs s.g_heap_start bs) (hw : read64 s.mem h = n + 1) (hn8 : n % 8 = 0) (k : Nat)
    (hk : k ≤ n) (hrun : memmove s (h + 8) src k = .ok s') :
    Inv s' bs ∧ s'.g_heap_start = s.g_heap_start ∧ s'.g_heap_size = s.g_heap_size := by
  obtain ⟨h0, hfit, hge, hc⟩ := hinv
  unfold memmove at hrun
  split at hrun
  · simp only [Except.ok.injEq] at hrun
    subst hrun
    refine ⟨⟨h0, hfit, hge, ?_⟩, rfl, rfl⟩
    show Chain (moveBytes s.mem (h + 8) src k) _ _ _
    apply chain_of_reads s.mem _ bs _ _ _ hc
    intro x hx
    apply read64_moveBytes_other
    obtain ⟨b, r1, r2, r3, r4, r5⟩ := chain_at _ _ _ _ _ hc hh
    have hbn : b.1 = n := by
      rw [r1] at hw
      obtain ⟨sz, ub⟩ := b
      simp only [] at r2
      cases ub <;> simp [hdrWord] at hw ⊢ <;> omega
    have := r5 x hx
    omega
  · simp at hrun

theorem validateLoop_spec (s : State) (e : Nat) (hs : s.g_heap_start ≠ 0)
    (he : e + 8 = s.g_heap_start + s.g_heap_size) (hfit : s.g_heap_start + s.g_heap_size ≤ WORD) :
    ∀ (bs : List Blk) (a fuel bc : Nat), s.g_heap_start ≤ a → Chain s.mem a bs e →
      bs.length < fuel → bc + (e - a) < WORD →
      validateLoop s fuel a (headOf bs).1 (headOf bs).2 bc = .ok (some (bc + (e - a))) := by
  intro bs
  induction bs with
  | nil =>
    intro a fuel bc _ hc hf _
    obtain ⟨f, rfl⟩ : ∃ f, fuel = f + 1 := ⟨fuel - 1, by simp at hf; omega⟩
    simp only [Chain] at hc
    simp [validateLoop, headOf, pure_ok, hc.1]
  | cons b bs ih =>
    intro a fuel bc ha hc hf hbc
    obtain ⟨f, rfl⟩ : ∃ f, fuel = f + 1 := ⟨fuel - 1, by simp at hf; omega⟩
    simp only [Chain] at hc
    obtain ⟨hw, h8, hne, hrest⟩ := hc
    have hb := chain_bound s.mem bs _ e hrest
    have hend : ¬ (b.1 = 0 ∧ b.2 = true) := by
      intro hh; apply hne; exact Prod.ext hh.1 hh.2
    have hnext : add64 (add64 a b.1) ALIGNMENT = a + b.1 + 8 := by
      unfold add64 ALIGNMENT WORD at *; omega
    have hcount : add64 bc (add64 b.1 ALIGNMENT) = bc + (b.1 + 8) := by
      unfold add64 ALIGNMENT WORD at *; omega
    obtain ⟨hw', h8'⟩ := chain_head s.mem _ bs e hrest
    have hu := is_used_ok s (a + b.1 + 8) (headOf bs) (by omega) (by omega) (by omega) hw' h8'
    have hn := header_num_ok s (a + b.1 + 8) (headOf bs) (by omega) (by omega) (by omega) hw' h8'
    have hl := load_ok s a (by omega) ha (by omega)
    have ih' := ih (a + b.1 + 8) f (bc + (b.1 + 8)) (by omega) hrest (by simp at hf; omega)
      (by omega)
    have e1 : bc + (b.1 + 8) + (e - (a + b.1 + 8)) = bc + (e - a) := by omega
    rw [e1] at ih'
    simp only [validateLoop, headOf, List.headD_cons, hend, if_false, hcount]
    by_cases hu2 : b.2 = true
    · have hm : read64 s.mem a % ALIGNMENT = 1 := by
        rw [hw]; unfold hdrWord ALIGNMENT; simp only [hu2, if_true]; omega
      have hm0 : ¬ (read64 s.mem a % ALIGNMENT = 0) := by omega
      simp only [hu2, if_true, hl, bind_ok, hm, ne_eq, not_true_eq_false, if_false, pure_ok,
        hm0, decide_False, Bool.false_eq_true, hnext, hu, hn]
      exact ih'
    · simp only [hu2, if_false, pure_ok, bind_ok, Bool.false_eq_true, hnext, hu, hn]
      exact ih'

theorem validate_heap_inv (s : State) (bs : List Blk) (hinv : Inv s bs) :
    validate_heap s = .ok true := by
  obtain ⟨h0, hfit, hge, hc⟩ := hinv
  obtain ⟨hw, h8⟩ := chain_head _ _ _ _ hc
  have hb := chain_bound _ _ _ _ hc
  have hu := is_used_ok s s.g_heap_start (headOf bs) h0 (le_refl _) (by omega) hw h8
  have hn := header_num_ok s s.g_heap_start (headOf bs) h0 (le_refl _) (by omega) hw h8
  have hv := validateLoop_spec s (s.g_heap_start + s.g_heap_size - 8) h0 (by omega) hfit bs
    s.g_heap_start s.g_heap_size ALIGNMENT (le_refl _) hc (by omega)
    (by unfold ALIGNMENT WORD at *; omega)
  have : ALIGNMENT + (s.g_heap_start + s.g_heap_size - 8 - s.g_heap_start) = s.g_heap_size := by
    unfold ALIGNMENT; omega
  simp only [validate_heap, hu, bind_ok, hn, hv, this, pure_ok, decide_True]

theorem blocksLoop_spec (s : State) (e : Nat) (hs : s.g_heap_start ≠ 0)
    (he : e + 8 = s.g_heap_start + s.g_heap_size) (hfit : s.g_heap_start + s.g_heap_size ≤ WORD) :
    ∀ (bs : List Blk) (a fuel : Nat), s.g_heap_start ≤ a → Chain s.mem a bs e →
      bs.length < fuel → blocksLoop s fuel a = .ok (layout a bs) := by
  intro bs
  induction bs with
  | nil =>
    intro a fuel ha hc hf
    obtain ⟨f, rfl⟩ : ∃ f, fuel = f + 1 := ⟨fuel - 1, by simp at hf; omega⟩
    obtain ⟨hw', h8'⟩ := chain_head s.mem _ _ e hc
    simp only [Chain] at hc
    have hu := is_used_ok s a (headOf []) (by omega) (by omega) (by omega) hw' h8'
    have hn := header_num_ok s a (headOf []) (by omega) (by omega) (by omega) hw' h8'
    simp only [blocksLoop, hu, hn, bind_ok]
    simp [headOf, pure_ok, layout]
  | cons b bs ih =>
    intro a fuel ha hc hf
    obtain ⟨f, rfl⟩ : ∃ f, fuel = f + 1 := ⟨fuel - 1, by simp at hf; omega⟩
    obtain ⟨hw', h8'⟩ := chain_head s.mem _ _ e hc
    simp only [Chain] at hc
    obtain ⟨hw, h8, hne, hrest⟩ := hc
    have hb := chain_bound s.mem bs _ e hrest
    have hend : ¬ (b.1 = 0 ∧ b.2 = true) := by
      intro hh; apply hne; exact Prod.ext hh.1 hh.2
    have hnext : add64 (add64 a b.1) ALIGNMENT = a + b.1 + 8 := by
      unfold add64 ALIGNMENT WORD at *; omega
    have hpa : add64 a ALIGNMENT = a + 8 := by
      unfold add64 ALIGNMENT WORD at *; omega
    have hu := is_used_ok s a (headOf (b :: bs)) (by omega) (by omega) (by omega) hw' h8'
    have hn := header_num_ok s a (headOf (b :: bs)) (by omega) (by omega) (by omega) hw' h8'
    have ih' := ih (a + b.1 + 8) f (by omega) hrest (by simp at hf; omega)
    simp only [blocksLoop, hu, hn, bind_ok]
    simp only [headOf, List.headD_cons, hend, if_false, hnext, ih', bind_ok, hpa, pure_ok, layout]

theorem blocks_inv (s : State) (bs : List Blk) (hinv : Inv s bs) :
    blocks s = .ok (layout s.g_heap_start bs) := by
  obtain ⟨h0, hfit, hge, hc⟩ := hinv
  have hb := chain_bound _ _ _ _ hc
  exact blocksLoop_spec s (s.g_heap_start + s.g_heap_size - 8) h0 (by omega) hfit bs
    s.g_heap_start s.g_heap_size (le_refl _) hc (by omega)

theorem layout_lower (bs : List Blk) (a : Nat) (c : Nat × Nat × Bool) (hc : c ∈ layout a bs) :
    a + 8 ≤ c.1 := by
  induction bs generalizing a with
  | nil => simp [layout] at hc
  | cons b bs ih =>
    simp only [layout, List.mem_cons] at hc
    rcases hc with rfl | hc
    · simp
    · have := ih _ hc; omega

theorem layout_upper (m : Mem) (bs : List Blk) (a e : Nat) (hch : Chain m a bs e)
    (c : Nat × Nat × Bool) (hc : c ∈ layout a bs) : c.1 + c.2.1 ≤ e := by
  induction bs generalizing a with
  | nil => simp [layout] at hc
  | cons b bs ih =>
    simp only [Chain] at hch
    have hb := chain_bound m bs _ e hch.2.2.2
    simp only [layout, List.mem_cons] at hc
    rcases hc with rfl | hc
    · simp; omega
    · exact ih _ hch.2.2.2 hc

theorem layout_pairwise (bs : List Blk) (a : Nat) :
    (layout a bs).Pairwise (fun b c => b.1 + b.2.1 ≤ c.1) := by
  induction bs generalizing a with
  | nil => simp [layout]
  | cons b bs ih =>
    simp only [layout, List.pairwise_cons]
    refine ⟨?_, ih _⟩
    intro c hc
    have := layout_lower bs _ c hc
    simp; omega

theorem good_malloc (s s' : State) (ps : List Nat) (n p : Nat) (hg : Good s ps)
    (hrun : mymalloc s n = .ok (p, s')) : Good s' (p :: ps) := by
  obtain ⟨bs, hinv, hps⟩ := hg
  obtain ⟨r, hr, hcase⟩ := mymalloc_spec s bs n hinv
  rw [hrun] at hr
  simp only [Except.ok.injEq] at hr
  subst hr
  rcases hcase with ⟨_, hres⟩ | ⟨_, _, off, bs', hf, hp, hinv', g1, g2⟩
  · simp only [Prod.mk.injEq] at hres
    obtain ⟨rfl, rfl⟩ := hres
    refine ⟨bs, hinv, ?_⟩
    intro q hq
    simp only [List.mem_cons] at hq
    rcases hq with rfl | hq
    · exact Or.inl rfl
    · exact hps q hq
  · simp only [] at hp hinv' g1 g2
    obtain ⟨f1, f2, _, _⟩ := fit_facts s.mem (roundup n ALIGNMENT)
      (by
        rw [roundup_eq n (by have := hinv.fits; have := hinv.size_ge; unfold WORD at *; omega)]
        omega)
      bs s.g_heap_start _ off bs' hinv.chain hf
    refine ⟨bs', hinv', ?_⟩
    intro q hq
    simp only [List.mem_cons] at hq
    rw [g1]
    rcases hq with rfl | hq
    · exact Or.inr ⟨s.g_heap_start + off, f2, hp⟩
    · rcases hps q hq with h0 | ⟨x, hx, hxe⟩
      · exact Or.inl h0
      · exact Or.inr ⟨x, f1 x hx, hxe⟩

theorem good_free (s s' : State) (ps : List Nat) (p : Nat) (hg : Good s ps)
    (hp : p = 0 ∨ p ∈ ps) (hrun : myfree s p = .ok s') : Good s' ps := by
  obtain ⟨bs, hinv, hps⟩ := hg
  have hnull : p = 0 → Good s' ps := by
    intro h0
    subst h0
    simp only [myfree, if_true, pure_ok, Except.ok.injEq] at hrun
    subst hrun
    exact ⟨bs, hinv, hps⟩
  rcases hp with h0 | hmem
  · exact hnull h0
  · rcases hps p hmem with h0 | ⟨x, hx, rfl⟩
    · exact hnull h0
    · obtain ⟨s'', hr, hinv', g1, g2⟩ := myfree_inv s bs x hinv hx
      rw [hrun] at hr
      simp only [Except.ok.injEq] at hr
      subst hr
      refine ⟨release x s.g_heap_start bs, hinv', ?_⟩
      intro q hq
      rw [g1, hdrs_release]
      exact hps q hq

theorem good_realloc (s s' : State) (ps : List Nat) (p n q : Nat) (hg : Good s ps)
    (hp : p = 0 ∨ p ∈ ps) (hrun : myrealloc s p n = .ok (q, s')) (hq : q ≠ 0) :
    Good s' (q :: ps) := by
  have hnull : p = 0 → Good s' (q :: ps) := by
    intro h0
    subst h0
    simp only [myrealloc, if_true] at hrun
    cases hm : mymalloc s n with
    | error e => rw [hm] at hrun; cases hrun
    | ok r =>
      obtain ⟨p1, s1⟩ := r
      rw [hm, bind_ok] at hrun
      simp only [pure_ok, Except.ok.injEq, Prod.mk.injEq] at hrun
      obtain ⟨h1, rfl⟩ := hrun
      have : q = p1 := by
        by_cases hp1 : p1 = 0
        · simp [hp1] at h1; exact absurd h1.symm hq
        · simp [hp1] at h1; exact h1.symm
      subst this
      exact good_malloc s s1 ps n q hg hm
  have hmain : ∀ x, p = x + 8 → (∃ bs, Inv s bs ∧ x ∈ hdrs s.g_heap_start bs ∧
      ∀ p, p ∈ ps → p = 0 ∨ ∃ x, x ∈ hdrs s.g_heap_start bs ∧ p = x + 8) →
      Good s' (q :: ps) := by
    intro x hpx hbs
    obtain ⟨bs, hinv, hx, hps⟩ := hbs
    subst hpx
    have hn0 : ¬ (x + 8 = 0) := by omega
    simp only [myrealloc, hn0, if_false] at hrun
    by_cases hz : n = 0
    · simp only [hz, if_true, pure_ok, Except.ok.injEq, Prod.mk.injEq] at hrun
      exact absurd hrun.1.symm hq
    · simp only [hz, if_false] at hrun
      obtain ⟨r, hr, hcase⟩ := mymalloc_spec s bs n hinv
      rw [hr, bind_ok] at hrun
      rcases hcase with ⟨_, hres⟩ | ⟨hn1, hn2, off, bs', hf, hpr, hinv', g1, g2⟩
      · subst hres
        simp only [memmove, valid, ne_eq, not_true_eq_false, decide_False, Bool.false_and,
          Bool.false_eq_true, if_false] at hrun
        cases hrun
      · obtain ⟨q1, s1⟩ := r
        simp only [] at hpr hinv' g1 g2 hrun
        have hr8 : roundup n ALIGNMENT % 8 = 0 := by
          rw [roundup_eq n (by have := hinv.fits; have := hinv.size_ge; unfold WORD at *; omega)]
          omega
        have hrn : n ≤ roundup n ALIGNMENT := by
          rw [roundup_eq n (by have := hinv.fits; have := hinv.size_ge; unfold WORD at *; omega)]
          omega
        obtain ⟨f1, f2, f3, _⟩ := fit_facts s.mem (roundup n ALIGNMENT) hr8
          bs s.g_heap_start _ off bs' hinv.chain hf
        have hrd := f3 s1.mem (by have := hinv'.chain; rw [g1, g2] at this; exact this)
        cases hmv : memmove s1 q1 (x + 8) n with
        | error e => rw [hmv] at hrun; cases hrun
        | ok s2 =>
          rw [hmv, bind_ok] at hrun
          rw [hpr] at hmv
          obtain ⟨hinv2, k1, k2⟩ := memmove_inv s1 s2 bs' (s.g_heap_start + off)
            (roundup n ALIGNMENT) (x + 8) hinv' (by rw [g1]; exact f2) hrd hr8 n hrn hmv
          have hx2 : x ∈ hdrs s2.g_heap_start bs' := by
            rw [k1, g1]; exact f1 x hx
          obtain ⟨s3, hfr, hinv3, j1, j2⟩ := myfree_inv s2 bs' x hinv2 hx2
          rw [hfr, bind_ok] at hrun
          simp only [pure_ok, Except.ok.injEq, Prod.mk.injEq] at hrun
          obtain ⟨rfl, rfl⟩ := hrun
          refine ⟨release x s2.g_heap_start bs', hinv3, ?_⟩
          intro p' hp'
          rw [j1, hdrs_release, k1, g1]
          simp only [List.mem_cons] at hp'
          rcases hp' with rfl | hp'
          · exact Or.inr ⟨s.g_heap_start + off, f2, hpr⟩
          · rcases hps p' hp' with h0 | ⟨y, hy, hye⟩
            · exact Or.inl h0
            · exact Or.inr ⟨y, f1 y hy, hye⟩
  obtain ⟨bs, hinv, hps⟩ := hg
  rcases hp with h0 | hmem
  · exact hnull h0
  · rcases hps p hmem with h0 | ⟨x, hx, hxe⟩
    · exact hnull h0
    · exact hmain x hxe ⟨bs, hinv, hx, hps⟩

theorem reach_good (s : State) (ps : List Nat) (h : Reach s ps) : Good s ps := by
  induction h with
  | init s0 s start size hfit h8 hrun =>
    obtain ⟨hinv, _, _, _⟩ := myinit_inv s0 s start size hfit h8 hrun
    exact ⟨_, hinv, by simp⟩
  | malloc s s' ps n p _ hrun ih => exact good_malloc s s' ps n p ih hrun
  | free s s' ps p _ hp hrun ih => exact good_free s s' ps p ih hp hrun
  | realloc s s' ps p n q _ hp hrun hq ih => exact good_realloc s s' ps p n q ih hp hrun hq

theorem reach_afterInit : Reach afterInit [] :=
  Reach.init blank afterInit 4096 96 (by decide) (by decide) rfl

theorem reach_afterMalloc : Reach afterMalloc [4104] :=
  Reach.malloc afterInit afterMalloc [] 32 4104 reach_afterInit rfl

/-- C1. In every state reached from a successful `myinit` (region size a multiple of 8)
by `mymalloc`, `myfree` of null or of a pointer returned earlier, and `myrealloc` returning
non-null, `validate_heap` returns true. -/
theorem implicit_validate_after_ops (s : State) (ps : List Nat) (h : Reach s ps) :
    validate_heap s = .ok true := by
  obtain ⟨bs, hinv, _⟩ := reach_good s ps h
  exact validate_heap_inv s bs hinv

theorem implicit_validate_after_ops_witness :
    Reach afterMalloc [4104] ∧ validate_heap afterMalloc = .ok true :=
  ⟨reach_afterMalloc, implicit_validate_after_ops afterMalloc [4104] reach_afterMalloc⟩

theorem mymalloc_payload (s s' : State) (bs : List Blk) (n p : Nat) (hinv : Inv s bs)
    (hrun : mymalloc s n = .ok (p, s')) (hp : p ≠ 0) :
    header_num s' (p - ALIGNMENT) = .ok (roundup n ALIGNMENT) ∧ n ≤ roundup n ALIGNMENT ∧
      is_used s' (p - ALIGNMENT) = .ok true ∧ (p - s.g_heap_start) % ALIGNMENT = 0 ∧
      ∀ b, b ∈ layout s.g_heap_start bs → b.2.2 = true →
        b.1 + b.2.1 ≤ p ∨ p + roundup n ALIGNMENT ≤ b.1 := by
  obtain ⟨r, hr, hcase⟩ := mymalloc_spec s bs n hinv
  rw [hrun] at hr
  simp only [Except.ok.injEq] at hr
  subst hr
  rcases hcase with ⟨_, hres⟩ | ⟨hn1, hn2, off, bs', hf, hpr, hinv', g1, g2⟩
  · simp only [Prod.mk.injEq] at hres
    exact absurd hres.1 hp
  · simp only [] at hpr hinv' g1 g2
    have hre := roundup_eq n (by have := hinv.fits; have := hinv.size_ge; unfold WORD at *; omega)
    have hr8 : roundup n ALIGNMENT % 8 = 0 := by rw [hre]; omega
    obtain ⟨f1, f2, f3, f4⟩ := fit_facts s.mem (roundup n ALIGNMENT) hr8
      bs s.g_heap_start _ off bs' hinv.chain hf
    have hch' : Chain s'.mem s.g_heap_start bs' (s.g_heap_start + s.g_heap_size - 8) := by
      have := hinv'.chain; rw [g1, g2] at this; exact this
    have hrd := f3 s'.mem hch'
    have hb := hdrs_bound _ _ _ _ _ hch' f2
    have hpe : p - ALIGNMENT = s.g_heap_start + off := by unfold ALIGNMENT; omega
    have h0 := hinv.start_pos
    have hw : read64 s'.mem (s.g_heap_start + off) = hdrWord (roundup n ALIGNMENT, true) := by
      rw [hrd]; simp [hdrWord]
    refine ⟨?_, by rw [hre]; omega, ?_, ?_, ?_⟩
    · rw [hpe]
      exact header_num_ok s' _ (roundup n ALIGNMENT, true) (by omega) (by rw [g1]; omega)
        (by rw [g1, g2]; omega) hw hr8
    · rw [hpe]
      exact is_used_ok s' _ (roundup n ALIGNMENT, true) (by omega) (by rw [g1]; omega)
        (by rw [g1, g2]; omega) hw hr8
    · unfold ALIGNMENT; omega
    · intro b hb1 hb2
      have := f4 b hb1 hb2
      omega

/-- C3. In every reachable state of the implicit allocator the blocks found by the header
walk lie one after the other, so the payloads of used blocks are pairwise disjoint; each
used payload starts at or after `base + 8` and ends at or before the end header at
`base + size - 8`; and the payload handed out by a successful `mymalloc` (whose header
records the rounded size) overlaps no block that was used before the call. -/
theorem implicit_used_payloads_disjoint (s : State) (ps : List Nat) (h : Reach s ps) :
    ∃ L, blocks s = .ok L ∧
      L.Pairwise (fun b c => b.2.2 = true → c.2.2 = true → b.1 + b.2.1 ≤ c.1) ∧
      (∀ b, b ∈ L → b.2.2 = true →
        s.g_heap_start + ALIGNMENT ≤ b.1 ∧
          b.1 + b.2.1 ≤ s.g_heap_start + s.g_heap_size - ALIGNMENT) ∧
      (∀ n p s', mymalloc s n = .ok (p, s') → p ≠ 0 →
        header_num s' (p - ALIGNMENT) = .ok (roundup n ALIGNMENT) ∧
          n ≤ roundup n ALIGNMENT ∧
          ∀ b, b ∈ L → b.2.2 = true → b.1 + b.2.1 ≤ p ∨ p + roundup n ALIGNMENT ≤ b.1) := by
  obtain ⟨bs, hinv, _⟩ := reach_good s ps h
  refine ⟨layout s.g_heap_start bs, blocks_inv s bs hinv, ?_, ?_, ?_⟩
  · exact (layout_pairwise bs s.g_heap_start).imp (fun hbc _ _ => hbc)
  · intro b hb _
    have h1 := layout_lower bs _ b hb
    have h2 := layout_upper _ bs _ _ hinv.chain b hb
    unfold ALIGNMENT
    omega
  · intro n p s' hrun hp
    obtain ⟨m1, m2, _, _, m5⟩ := mymalloc_payload s s' bs n p hinv hrun hp
    exact ⟨m1, m2, m5⟩

theorem implicit_used_payloads_disjoint_witness :
    Reach afterMalloc [4104] ∧
    ∃ L, blocks afterMalloc = .ok L ∧
      L.Pairwise (fun b c => b.2.2 = true → c.2.2 = true → b.1 + b.2.1 ≤ c.1) ∧
      (∀ b, b ∈ L → b.2.2 = true →
        afterMalloc.g_heap_start + ALIGNMENT ≤ b.1 ∧
          b.1 + b.2.1 ≤ afterMalloc.g_heap_start + afterMalloc.g_heap_size - ALIGNMENT) ∧
      (∀ n p s', mymalloc afterMalloc n = .ok (p, s') → p ≠ 0 →
        header_num s' (p - ALIGNMENT) = .ok (roundup n ALIGNMENT) ∧
          n ≤ roundup n ALIGNMENT ∧
          ∀ b, b ∈ L → b.2.2 = true → b.1 + b.2.1 ≤ p ∨ p + roundup n ALIGNMENT ≤ b.1) :=
  ⟨reach_afterMalloc, implicit_used_payloads_disjoint afterMalloc [4104] reach_afterMalloc⟩

/-- C4. Round trip of the implicit allocator: directly after a successful `myinit` on a
region whose size is a multiple of 8, if `mymalloc n` returns a non-null `p`, then
`myfree p` returns, `validate_heap` is true afterwards, and a second `mymalloc n` returns
the same pointer `p`. -/
theorem implicit_round_trip (s0 s1 s2 : State) (start size n p : Nat)
    (hfit : start + size ≤ WORD) (h8 : size % ALIGNMENT = 0)
    (hinit : myinit s0 start size = .ok (true, s1))
    (hmalloc : mymalloc s1 n = .ok (p, s2)) (hp : p ≠ 0) :
    ∃ s3, myfree s2 p = .ok s3 ∧ validate_heap s3 = .ok true ∧
      ∃ s4, mymalloc s3 n = .ok (p, s4) := by
  obtain ⟨hinv, hst, hsz, hbig⟩ := myinit_inv s0 s1 start size hfit h8 hinit
  obtain ⟨r, hr, hcase⟩ := mymalloc_spec s1 _ n hinv
  rw [hmalloc] at hr
  simp only [Except.ok.injEq] at hr
  subst hr
  rcases hcase with ⟨_, hres⟩ | ⟨hn1, hn2, off, bs', hf, hpr, hinv', g1, g2⟩
  · simp only [Prod.mk.injEq] at hres
    exact absurd hres.1 hp
  · simp only [] at hpr hinv' g1 g2
    have hre := roundup_eq n (by have := hinv.fits; have := hinv.size_ge; unfold WORD at *; omega)
    have hfit2 : roundup n ALIGNMENT ≤ size - 16 := by
      by_contra hcon
      simp [fit, hcon] at hf
    simp only [fit, hfit2, and_self, if_true, Option.some.injEq, Prod.mk.injEq] at hf
    obtain ⟨rfl, rfl⟩ := hf
    have hx : s2.g_heap_start ∈ hdrs s2.g_heap_start
        ((roundup n ALIGNMENT, true) ::
          if roundup n ALIGNMENT < size - 16 then
            [(size - 16 - roundup n ALIGNMENT - 8, false)] else []) := by
      simp [hdrs]
    obtain ⟨s3, hfr, hinv3, j1, j2⟩ := myfree_inv s2 _ s2.g_heap_start hinv' hx
    have hpe : p = s2.g_heap_start + 8 := by rw [g1]; omega
    refine ⟨s3, by rw [hpe]; exact hfr, validate_heap_inv s3 _ hinv3, ?_⟩
    obtain ⟨r, hr, hcase⟩ := mymalloc_spec s3 _ n hinv3
    rcases hcase with ⟨hbad, _⟩ | ⟨_, _, off, bs', hf, hpr', _, _, _⟩
    · exfalso
      rcases hbad with h | h | h
      · omega
      · rw [j2, g2] at h; omega
      · simp [release, fit] at h
    · simp only [release, if_true, fit, le_refl, and_self, Option.some.injEq,
        Prod.mk.injEq] at hf
      obtain ⟨r1, s4⟩ := r
      refine ⟨s4, ?_⟩
      rw [hr]
      simp only [] at hpr'
      have : r1 = p := by rw [hpr', hpe, j1, ← hf.1]
      rw [this]

theorem implicit_round_trip_witness :
    ∃ s3, myfree afterMalloc 4104 = .ok s3 ∧ validate_heap s3 = .ok true ∧
      ∃ s4, mymalloc s3 32 = .ok (4104, s4) :=
  implicit_round_trip blank afterInit afterMalloc 4096 96 32 4104 (by decide) (by decide)
    rfl rfl (by decide)

end Implicit

namespace Explicit

theorem explicit_load_ok (s : State) (a : Nat) (h0 : a ≠ 0) (h1 : s.g_heap_start ≤ a)
    (h2 : a + 8 ≤ s.g_heap_start + s.g_heap_size) : load s a = .ok (read64 s.mem a) := by
  simp [load, valid, h0, h1, h2]

theorem explicit_store_ok (s : State) (a v : Nat) (h0 : a ≠ 0) (h1 : s.g_heap_start ≤ a)
    (h2 : a + 8 ≤ s.g_heap_start + s.g_heap_size) :
    store s a v = .ok { s with mem := write64 s.mem a v } := by
  simp [store, valid, h0, h1, h2]

theorem explicit_is_used_ok (s : State) (a sz u : Nat) (h0 : a ≠ 0) (h1 : s.g_heap_start ≤ a)
    (h2 : a + 8 ≤ s.g_heap_start + s.g_heap_size) (hw : read64 s.mem a = sz + u)
    (h8 : sz % 2 = 0) (hu : u ≤ 1) : is_used s a = .ok (decide (u = 1)) := by
  simp only [is_used, explicit_load_ok s a h0 h1 h2, hw, Implicit.bind_ok, Implicit.pure_ok,
    Nat.and_one_is_mod]
  have : u = 0 ∨ u = 1 := by omega
  rcases this with rfl | rfl
  · simp [h8]
  · have : (sz + 1) % 2 = 1 := by omega
    simp [this]

theorem explicit_header_num_ok (s : State) (a sz u : Nat) (h0 : a ≠ 0) (h1 : s.g_heap_start ≤ a)
    (h2 : a + 8 ≤ s.g_heap_start + s.g_heap_size) (hw : read64 s.mem a = sz + u)
    (h8 : sz % 2 = 0) (hu : u ≤ 1) : header_num s a = .ok sz := by
  have hlt : sz + u < WORD := hw ▸ read64_lt _ _
  simp only [header_num, explicit_is_used_ok s a sz u h0 h1 h2 hw h8 hu, explicit_load_ok s a h0 h1 h2, hw,
    Implicit.bind_ok, Implicit.pure_ok]
  have : u = 0 ∨ u = 1 := by omega
  rcases this with rfl | rfl
  · simp
  · have : sub64 (sz + 1) 1 = sz := by unfold sub64 WORD at *; omega
    simp [this]

theorem explicit_roundup_eq (n : Nat) (h : n + 7 < WORD) : roundup n ALIGNMENT = (n + 7) / 8 * 8 := by
  have h1 : sub64 (add64 n ALIGNMENT) 1 = n + 7 := by
    unfold sub64 add64 ALIGNMENT WORD at *; omega
  have h2 : sub64 ALIGNMENT 1 = 7 := by unfold sub64 ALIGNMENT WORD; omega
  unfold roundup
  rw [h1, h2]
  exact land_mask8 _ h

/-- C6. Explicit variant, shrink idempotence: for a used block with payload pointer `p`
whose header records the size `sz` (a positive multiple of 8), `myrealloc p sz` returns `p`
and the whole allocator state (every byte of the region, the free-list head and the
bounds) is unchanged. -/
theorem explicit_realloc_same_size (s : State) (p sz : Nat)
    (hstart : s.g_heap_start ≠ 0) (hlo : s.g_heap_start + 8 ≤ p)
    (hhi : p + sz ≤ s.g_heap_start + s.g_heap_size) (hfit : s.g_heap_start + s.g_heap_size ≤ WORD)
    (hused : read64 s.mem (p - 8) = sz + 1) (h8 : sz % 8 = 0) (hpos : 0 < sz) :
    myrealloc s p sz = .ok (p, s) := by
  have hlt : sz + 1 < WORD := hused ▸ read64_lt _ _
  have hp0 : ¬ (p = 0) := by omega
  have hs0 : ¬ (sz = 0) := by omega
  have hh : sub64 p HEADER_SIZE = p - 8 := by
    unfold sub64 HEADER_SIZE ALIGNMENT WORD at *; omega
  have hn := explicit_header_num_ok s (p - 8) sz 1 (by omega) (by omega) (by omega) hused (by omega)
    (by omega)
  have hr : roundup sz ALIGNMENT = sz := by
    rw [explicit_roundup_eq sz (by unfold WORD at *; omega)]; omega
  have hb : add64 (p - 8) HEADER_SIZE = p := by
    unfold add64 HEADER_SIZE ALIGNMENT WORD at *; omega
  have hgt : ¬ (sz > sz) := by omega
  have hsub : ¬ (sub64 sz sz > MIN_ALLOC_SIZE) := by
    unfold sub64 MIN_ALLOC_SIZE HEADER_SIZE FREE_SIZE ALIGNMENT WORD at *; omega
  unfold myrealloc
  rw [if_neg hp0, if_neg hs0]
  rw [hh]
  dsimp only
  rw [hn, Implicit.bind_ok, hr, Implicit.bind_ok, if_neg hgt, if_neg hsub, hb]
  rfl

/-- Effect of `coalesce b1 b2` when `b2` is a list node above `b1` whose neighbours in the
list (if any) lie below `b1` and above `b2`: the call returns, and every word that does not
overlap the two link fields of `b1`, the `next` field of the predecessor or the `prev`
field of the successor keeps its value. -/
theorem coalesce_frame (s : State) (b1 b2 : Nat) (hs : s.g_heap_start ≠ 0)
    (hfit : s.g_heap_start + s.g_heap_size ≤ WORD)
    (h1 : s.g_heap_start ≤ b1) (h12 : b1 + 16 ≤ b2)
    (h2 : b2 + 16 ≤ s.g_heap_start + s.g_heap_size)
    (hprv : read64 s.mem b2 = 0 ∨
      (s.g_heap_start ≤ read64 s.mem b2 + 8 ∧ read64 s.mem b2 + 16 ≤ b1))
    (hnxt : read64 s.mem (b2 + 8) = 0 ∨
      (b2 + 16 ≤ read64 s.mem (b2 + 8) ∧
        read64 s.mem (b2 + 8) + 8 ≤ s.g_heap_start + s.g_heap_size)) :
    ∃ s', coalesce s b1 b2 = .ok s' ∧ s'.g_heap_start = s.g_heap_start ∧
      s'.g_heap_size = s.g_heap_size ∧
      ∀ x, (x + 8 ≤ b1 ∨ b1 + 16 ≤ x) →
        (read64 s.mem b2 = 0 ∨ x ≤ read64 s.mem b2 ∨ read64 s.mem b2 + 16 ≤ x) →
        (read64 s.mem (b2 + 8) = 0 ∨ x + 8 ≤ read64 s.mem (b2 + 8) ∨
          read64 s.mem (b2 + 8) + 8 ≤ x) →
        read64 s'.mem x = read64 s.mem x := by
  generalize hpv : read64 s.mem b2 = prv at hprv ⊢
  generalize hnv : read64 s.mem (b2 + 8) = nxt at hnxt ⊢
  have hpl : prv < WORD := hpv ▸ read64_lt _ _
  have hnl : nxt < WORD := hnv ▸ read64_lt _ _
  have a1 : add64 b1 8 = b1 + 8 := by unfold add64 WORD at *; omega
  have a2 : add64 b2 8 = b2 + 8 := by unfold add64 WORD at *; omega
  -- the three unconditional steps
  let m1 : Mem := write64 s.mem b1 prv
  let m2 : Mem := write64 m1 (b1 + 8) nxt
  have r1 : read64 m1 (b2 + 8) = nxt := by
    show read64 (write64 s.mem b1 prv) (b2 + 8) = nxt
    rw [read64_write64_other _ _ _ _ (by omega), hnv]
  have r2 : read64 m2 b1 = prv := by
    show read64 (write64 (write64 s.mem b1 prv) (b1 + 8) nxt) b1 = prv
    rw [read64_write64_other _ _ _ _ (by omega), read64_write64_same, Nat.mod_eq_of_lt hpl]
  have r3 : read64 m2 (b1 + 8) = nxt := by
    show read64 (write64 (write64 s.mem b1 prv) (b1 + 8) nxt) (b1 + 8) = nxt
    rw [read64_write64_same, Nat.mod_eq_of_lt hnl]
  have e1 : getPrev s b2 = .ok prv := by
    rw [getPrev, explicit_load_ok s b2 (by omega) (by omega) (by omega), hpv]
  have e2 : setPrev s b1 prv = .ok { s with mem := m1 } := by
    rw [setPrev, explicit_store_ok s b1 prv (by omega) h1 (by omega)]
  have e3 : getNext { s with mem := m1 } b2 = .ok nxt := by
    rw [getNext, a2, explicit_load_ok _ (b2 + 8) (by omega) (by show s.g_heap_start ≤ _; omega)
      (by show _ ≤ s.g_heap_start + s.g_heap_size; omega)]
    show Except.ok (read64 m1 (b2 + 8)) = _
    rw [r1]
  have e4 : setNext { s with mem := m1 } b1 nxt = .ok { s with mem := m2 } := by
    rw [setNext, a1, explicit_store_ok _ (b1 + 8) nxt (by omega) (by show s.g_heap_start ≤ _; omega)
      (by show _ ≤ s.g_heap_start + s.g_heap_size; omega)]
  have e5 : getPrev { s with mem := m2 } b1 = .ok prv := by
    rw [getPrev, explicit_load_ok _ b1 (by omega) (by show s.g_heap_start ≤ _; omega)
      (by show _ ≤ s.g_heap_start + s.g_heap_size; omega)]
    show Except.ok (read64 m2 b1) = _
    rw [r2]
  have fr2 : ∀ x, (x + 8 ≤ b1 ∨ b1 + 16 ≤ x) → read64 m2 x = read64 s.mem x := by
    intro x hx
    show read64 (write64 (write64 s.mem b1 prv) (b1 + 8) nxt) x = _
    rw [read64_write64_other _ _ _ _ (by omega), read64_write64_other _ _ _ _ (by omega)]
  unfold coalesce
  rw [e1, Implicit.bind_ok, e2, Implicit.bind_ok, e3, Implicit.bind_ok, e4, Implicit.bind_ok,
    e5, Implicit.bind_ok]
  by_cases hp0 : prv = 0
  · rw [if_pos hp0, Implicit.pure_ok, Implicit.bind_ok]
    have e6 : getNext { s with mem := m2, first_free_block := b1 } b1 = .ok nxt := by
      rw [getNext, a1, explicit_load_ok _ (b1 + 8) (by omega) (by show s.g_heap_start ≤ _; omega)
        (by show _ ≤ s.g_heap_start + s.g_heap_size; omega)]
      show Except.ok (read64 m2 (b1 + 8)) = _
      rw [r3]
    dsimp only
    rw [e6, Implicit.bind_ok]
    by_cases hn0 : nxt = 0
    · rw [if_neg (by simpa using hn0), Implicit.pure_ok]
      exact ⟨_, rfl, rfl, rfl, fun x hx _ _ => fr2 x hx⟩
    · rw [if_pos hn0]
      have hnn : b2 + 16 ≤ nxt ∧ nxt + 8 ≤ s.g_heap_start + s.g_heap_size := by
        rcases hnxt with h | h
        · exact absurd h hn0
        · exact h
      rw [setPrev, explicit_store_ok _ nxt b1 (by omega) (by show s.g_heap_start ≤ _; omega)
        (by show _ ≤ s.g_heap_start + s.g_heap_size; omega)]
      refine ⟨_, rfl, rfl, rfl, ?_⟩
      intro x hx _ hxn
      show read64 (write64 m2 nxt b1) x = _
      rw [read64_write64_other _ _ _ _ (by omega)]
      exact fr2 x hx
  · rw [if_neg hp0]
    have hpp : s.g_heap_start ≤ prv + 8 ∧ prv + 16 ≤ b1 := by
      rcases hprv with h | h
      · exact absurd h hp0
      · exact h
    have a3 : add64 prv 8 = prv + 8 := by unfold add64 WORD at *; omega
    let m3 : Mem := write64 m2 (prv + 8) b1
    have e6 : setNext { s with mem := m2 } prv b1 = .ok { s with mem := m3 } := by
      rw [setNext, a3, explicit_store_ok _ (prv + 8) b1 (by omega) (by show s.g_heap_start ≤ _; omega)
        (by show _ ≤ s.g_heap_start + s.g_heap_size; omega)]
    have e7 : getNext { s with mem := m3 } b1 = .ok nxt := by
      rw [getNext, a1, explicit_load_ok _ (b1 + 8) (by omega) (by show s.g_heap_start ≤ _; omega)
        (by show _ ≤ s.g_heap_start + s.g_heap_size; omega)]
      show Except.ok (read64 (write64 m2 (prv + 8) b1) (b1 + 8)) = _
      rw [read64_write64_other _ _ _ _ (by omega), r3]
    rw [e6, Implicit.bind_ok]
    dsimp only
    rw [e7, Implicit.bind_ok]
    have fr3 : ∀ x, (x + 8 ≤ b1 ∨ b1 + 16 ≤ x) → (x ≤ prv ∨ prv + 16 ≤ x) →
        read64 m3 x = read64 s.mem x := by
      intro x hx hxp
      show read64 (write64 m2 (prv + 8) b1) x = _
      rw [read64_write64_other _ _ _ _ (by omega)]
      exact fr2 x hx
    by_cases hn0 : nxt = 0
    · rw [if_neg (by simpa using hn0), Implicit.pure_ok]
      refine ⟨_, rfl, rfl, rfl, ?_⟩
      intro x hx hxp _
      exact fr3 x hx (by omega)
    · rw [if_pos hn0]
      have hnn : b2 + 16 ≤ nxt ∧ nxt + 8 ≤ s.g_heap_start + s.g_heap_size := by
        rcases hnxt with h | h
        · exact absurd h hn0
        · exact h
      rw [setPrev, explicit_store_ok _ nxt b1 (by omega) (by show s.g_heap_start ≤ _; omega)
        (by show _ ≤ s.g_heap_start + s.g_heap_size; omega)]
      refine ⟨_, rfl, rfl, rfl, ?_⟩
      intro x hx hxp hxn
      show read64 (write64 m3 nxt b1) x = _
      rw [read64_write64_other _ _ _ _ (by omega)]
      exact fr3 x hx (by omega)


theorem explicit_realloc_same_size_witness :
    myrealloc afterMalloc32 4104 32 = .ok (4104, afterMalloc32) :=
  explicit_realloc_same_size afterMalloc32 4104 32 (by decide) (by decide) (by decide)
    (by decide) (by rfl) (by decide) (by decide)

/-- C8 (amended). Explicit variant: `myfree` merges a freed block with a free right
neighbour. When `myfree p` is called on a used block of size `sz` whose right neighbour is
a free block of size `t` (at least 16) whose list neighbours, if any, are a free block
below `p` and a block above the neighbour, the call returns, the header at `p - 8` is
free with size `sz + 8 + t`, and the header that followed the neighbour keeps its value:
the freed block and its right neighbour are one free block afterwards. A free left
neighbour is not merged. -/
theorem explicit_free_merges_right (s : State) (p sz t : Nat)
    (hs : s.g_heap_start ≠ 0) (hfit : s.g_heap_start + s.g_heap_size ≤ WORD)
    (hlo : s.g_heap_start + 8 ≤ p) (hsz : sz % 8 = 0) (hpos : 0 < sz)
    (ht : t % 8 = 0) (ht16 : 16 ≤ t)
    (hhi : p + sz + 8 + t + 8 ≤ s.g_heap_start + s.g_heap_size)
    (hused : read64 s.mem (p - 8) = sz + 1)
    (hfree : read64 s.mem (p + sz) = t)
    (hprv : read64 s.mem (p + sz + 8) = 0 ∨
      (s.g_heap_start + 8 ≤ read64 s.mem (p + sz + 8) ∧
        read64 s.mem (p + sz + 8) + 16 ≤ p - 8))
    (hnxt : read64 s.mem (p + sz + 16) = 0 ∨
      (p + sz + 8 + t + 16 ≤ read64 s.mem (p + sz + 16) ∧
        read64 s.mem (p + sz + 16) + 16 ≤ s.g_heap_start + s.g_heap_size)) :
    ∃ s', myfree s p = .ok s' ∧ is_used s' (p - 8) = .ok false ∧
      header_num s' (p - 8) = .ok (sz + 8 + t) ∧
      read64 s'.mem (p + sz + 8 + t) = read64 s.mem (p + sz + 8 + t) := by
  have hp0 : ¬ (p = 0) := by omega
  have hh : sub64 p HEADER_SIZE = p - 8 := by
    unfold sub64 HEADER_SIZE ALIGNMENT WORD at *; omega
  have hu := explicit_is_used_ok s (p - 8) sz 1 (by omega) (by omega) (by omega) hused (by omega)
    (by omega)
  have hn := explicit_header_num_ok s (p - 8) sz 1 (by omega) (by omega) (by omega) hused (by omega)
    (by omega)
  have hnh : add64 p sz = p + sz := by unfold add64 WORD at *; omega
  have hu2 := explicit_is_used_ok s (p + sz) t 0 (by omega) (by omega) (by omega) hfree (by omega)
    (by omega)
  have hn2 := explicit_header_num_ok s (p + sz) t 0 (by omega) (by omega) (by omega) hfree (by omega)
    (by omega)
  have hnb : add64 (p + sz) HEADER_SIZE = p + sz + 8 := by
    unfold add64 HEADER_SIZE ALIGNMENT WORD at *; omega
  have hv : add64 (add64 (add64 HEADER_SIZE sz) t) FREE = sz + 8 + t := by
    unfold add64 HEADER_SIZE ALIGNMENT FREE WORD at *; omega
  have hst : create_header (add64 (add64 HEADER_SIZE sz) t) (p - 8) FREE s =
      .ok { s with mem := write64 s.mem (p - 8) (sz + 8 + t) } := by
    rw [create_header, hv, explicit_store_ok s (p - 8) _ (by omega) (by omega) (by omega)]
  have e16 : p + sz + 8 + 8 = p + sz + 16 := by omega
  have rp : read64 (write64 s.mem (p - 8) (sz + 8 + t)) (p + sz + 8) =
      read64 s.mem (p + sz + 8) := read64_write64_other _ _ _ _ (by omega)
  have rn : read64 (write64 s.mem (p - 8) (sz + 8 + t)) (p + sz + 8 + 8) =
      read64 s.mem (p + sz + 16) := by
    rw [e16]; exact read64_write64_other _ _ _ _ (by omega)
  obtain ⟨s', hrun, g1, g2, hframe⟩ := coalesce_frame
    { s with mem := write64 s.mem (p - 8) (sz + 8 + t) } p (p + sz + 8) hs hfit
    (by show s.g_heap_start ≤ p; omega) (by omega)
    (by show _ ≤ s.g_heap_start + s.g_heap_size; omega)
    (by
      show read64 (write64 s.mem (p - 8) (sz + 8 + t)) (p + sz + 8) = 0 ∨
        (s.g_heap_start ≤ read64 (write64 s.mem (p - 8) (sz + 8 + t)) (p + sz + 8) + 8 ∧
          read64 (write64 s.mem (p - 8) (sz + 8 + t)) (p + sz + 8) + 16 ≤ p)
      rw [rp]; omega)
    (by
      show read64 (write64 s.mem (p - 8) (sz + 8 + t)) (p + sz + 8 + 8) = 0 ∨
        (p + sz + 8 + 16 ≤ read64 (write64 s.mem (p - 8) (sz + 8 + t)) (p + sz + 8 + 8) ∧
          read64 (write64 s.mem (p - 8) (sz + 8 + t)) (p + sz + 8 + 8) + 8 ≤
            s.g_heap_start + s.g_heap_size)
      rw [rn]; omega)
  have hframe2 : ∀ x, (x + 8 ≤ p ∨ p + 16 ≤ x) →
      (read64 s.mem (p + sz + 8) = 0 ∨ x ≤ read64 s.mem (p + sz + 8) ∨
        read64 s.mem (p + sz + 8) + 16 ≤ x) →
      (read64 s.mem (p + sz + 16) = 0 ∨ x + 8 ≤ read64 s.mem (p + sz + 16) ∨
        read64 s.mem (p + sz + 16) + 8 ≤ x) →
      read64 s'.mem x = read64 (write64 s.mem (p - 8) (sz + 8 + t)) x := by
    intro x h1 h2 h3
    apply hframe x h1
    · show read64 (write64 s.mem (p - 8) (sz + 8 + t)) (p + sz + 8) = 0 ∨ _
      rw [rp]; exact h2
    · show read64 (write64 s.mem (p - 8) (sz + 8 + t)) (p + sz + 8 + 8) = 0 ∨ _
      rw [rn]; exact h3
  have hw : read64 s'.mem (p - 8) = sz + 8 + t + 0 := by
    rw [hframe2 (p - 8) (by omega) (by omega) (by omega), read64_write64_same,
      Nat.mod_eq_of_lt (by unfold WORD at *; omega)]
    rfl
  refine ⟨s', ?_, ?_, ?_, ?_⟩
  · unfold myfree
    rw [if_neg hp0]
    dsimp only
    rw [hh, hu, Implicit.bind_ok, if_neg (by simp), hn, Implicit.bind_ok, hnh, hn2,
      Implicit.bind_ok, hu2, Implicit.bind_ok, if_pos (by simp)]
    unfold coalesceFree
    dsimp only
    rw [hst, Implicit.bind_ok, hnb]
    exact hrun
  · have := explicit_is_used_ok s' (p - 8) (sz + 8 + t) 0 (by omega) (by rw [g1]; show s.g_heap_start ≤ _; omega)
      (by rw [g1, g2]; show _ ≤ s.g_heap_start + s.g_heap_size; omega) hw (by omega) (by omega)
    simpa using this
  · exact explicit_header_num_ok s' (p - 8) (sz + 8 + t) 0 (by omega)
      (by rw [g1]; show s.g_heap_start ≤ _; omega)
      (by rw [g1, g2]; show _ ≤ s.g_heap_start + s.g_heap_size; omega) hw (by omega) (by omega)
  · rw [hframe2 (p + sz + 8 + t) (by omega) (by omega) (by omega)]
    exact read64_write64_other _ _ _ _ (by omega)

theorem explicit_free_merges_right_witness :
    ∃ s', myfree afterMalloc32 4104 = .ok s' ∧ is_used s' (4104 - 8) = .ok false ∧
      header_num s' (4104 - 8) = .ok (32 + 8 + 40) ∧
      read64 s'.mem (4104 + 32 + 8 + 40) = read64 afterMalloc32.mem (4104 + 32 + 8 + 40) :=
  explicit_free_merges_right afterMalloc32 4104 32 40 (by decide) (by decide) (by decide)
    (by decide) (by decide) (by decide) (by decide) (by decide) (by rfl) (by rfl)
    (Or.inl (by rfl)) (Or.inl (by rfl))

/-- C8 (counterexample). On a 96-byte region, after `a = mymalloc(16); b = mymalloc(16);
myfree(a); myfree(b)` the header walk shows a free block of size 16 directly followed by
a free block of size 56. -/
theorem explicit_adjacent_free_blocks :
    freeBothRun = .ok [(4104, 16, false), (4128, 56, false)] ∧
      adjacentFree [(4104, 16, false), (4128, 56, false)] = true :=
  ⟨by rfl, by rfl⟩

/-- C5 (failing input). On a 96-byte region `p = mymalloc(64)` takes the whole initial
free block; after `myfree(p)` the second `mymalloc(64)` returns null. -/
theorem explicit_round_trip_fails : roundTrip64 = .ok (4104, 0) := by rfl

/-- C7 (failing input). On a 96-byte region, after `p = mymalloc(16); q = myrealloc(p, 32)`
the call returns `q = 4128`, the free-list head is `4104`, its `prev` field is `4104`
rather than null, and the header of the head is marked used. -/
theorem explicit_grow_breaks_list : growRun = .ok (4104, 4128, 4104, 4104, true) := by rfl

/-- C2 (failing input). Explicit variant, 128-byte region at address 4096: after
`a = mymalloc(16); b = mymalloc(32); c = mymalloc(16); r = myrealloc(a, 24)` the call
`mymalloc(32)` returns `4167`, which lies 71 bytes after the region base. -/
theorem explicit_unaligned_pointer :
    unalignedRun = .ok (4104, 4128, 4168, 4192, 4167) ∧ (4167 - 4096) % ALIGNMENT = 7 :=
  ⟨by rfl, by rfl⟩

theorem myinit_null (s : State) (size : Nat) : myinit s 0 size = .ok (false, s) := by
  simp [myinit, Implicit.pure_ok]

theorem explicit_myinit_small (s : State) (start size : Nat) (h : size < 24) :
    myinit s start size = .ok (false, s) := by
  have : size < MIN_HEAP_SIZE := by
    unfold MIN_HEAP_SIZE HEADER_SIZE FREE_SIZE ALIGNMENT; omega
  by_cases h0 : start = 0
  · simp [myinit, h0, Implicit.pure_ok]
  · simp [myinit, h0, this, Implicit.pure_ok]

theorem explicit_mymalloc_reject (s : State) (r : Nat) (h1 : ALIGNMENT ≤ s.g_heap_size)
    (h2 : s.g_heap_size < WORD) (hr : r = 0 ∨ s.g_heap_size - ALIGNMENT < r) :
    mymalloc s r = .ok (0, s) := by
  have hsub : sub64 s.g_heap_size HEADER_SIZE = s.g_heap_size - ALIGNMENT := by
    unfold sub64 HEADER_SIZE ALIGNMENT WORD at *; omega
  have hc : r > s.g_heap_size - ALIGNMENT ∨ r = 0 := by
    rcases hr with h | h
    · exact Or.inr h
    · exact Or.inl h
  unfold mymalloc
  rw [hsub, if_pos hc]
  rfl

end Explicit

namespace Implicit

theorem myinit_small (s : State) (start size : Nat) (h : size < 24) :
    myinit s start size = .ok (false, s) := by
  have : size ≤ MIN_HEAP_SIZE := by unfold MIN_HEAP_SIZE; omega
  simp [myinit, this, pure_ok]

theorem mymalloc_reject (s : State) (r : Nat) (h1 : ALIGNMENT ≤ s.g_heap_size)
    (h2 : s.g_heap_size < WORD) (hr : r = 0 ∨ s.g_heap_size - ALIGNMENT < r) :
    mymalloc s r = .ok (0, s) := by
  have hsub : sub64 s.g_heap_size ALIGNMENT = s.g_heap_size - ALIGNMENT := by
    unfold sub64 ALIGNMENT WORD at *; omega
  have hc : r > s.g_heap_size - ALIGNMENT ∨ r = 0 := by
    rcases hr with h | h
    · exact Or.inr h
    · exact Or.inl h
  unfold mymalloc
  rw [hsub, if_pos hc]
  rfl

/-- Every non-null pointer returned in a run of the implicit allocator lies at a
multiple of `ALIGNMENT` from the region base. -/
theorem returned_aligned (s : State) (ps : List Nat) (h : Reach s ps) (p : Nat)
    (hp : p ∈ ps) (hne : p ≠ 0) : (p - s.g_heap_start) % ALIGNMENT = 0 := by
  obtain ⟨bs, hinv, hps⟩ := reach_good s ps h
  rcases hps p hp with h0 | ⟨x, hx, rfl⟩
  · exact absurd h0 hne
  · have := hdrs_bound _ _ _ _ _ hinv.chain hx
    unfold ALIGNMENT
    omega

/-- C10 (failing input). Implicit variant: `myinit(NULL, 32)` passes the size test and
stores the first header through the null pointer; it does not return false. -/
theorem implicit_myinit_null_faults : myinit blank 0 32 = .error .fault := by rfl

end Implicit

/-- C9. In both variants `mymalloc r` returns null when `r = 0` or `r` exceeds the region
size minus `ALIGNMENT`, and the allocator state (every byte of the region and every
global) is the one before the call. -/
theorem mymalloc_rejects_unchanged (si : Implicit.State) (se : Explicit.State) (r : Nat)
    (hi : ALIGNMENT ≤ si.g_heap_size ∧ si.g_heap_size < WORD)
    (he : ALIGNMENT ≤ se.g_heap_size ∧ se.g_heap_size < WORD)
    (hri : r = 0 ∨ si.g_heap_size - ALIGNMENT < r)
    (hre : r = 0 ∨ se.g_heap_size - ALIGNMENT < r) :
    Implicit.mymalloc si r = .ok (0, si) ∧ Explicit.mymalloc se r = .ok (0, se) :=
  ⟨Implicit.mymalloc_reject si r hi.1 hi.2 hri, Explicit.explicit_mymalloc_reject se r he.1 he.2 hre⟩

theorem mymalloc_rejects_unchanged_witness :
    Implicit.mymalloc Implicit.afterInit 89 = .ok (0, Implicit.afterInit) ∧
      Explicit.mymalloc Explicit.afterMalloc32 89 = .ok (0, Explicit.afterMalloc32) :=
  mymalloc_rejects_unchanged Implicit.afterInit Explicit.afterMalloc32 89
    ⟨by decide, by decide⟩ ⟨by decide, by decide⟩ (Or.inr (by decide)) (Or.inr (by decide))

theorem write64_byte (m : Mem) (a v : Nat) (h : ∀ x, m x < 256) (x : Nat) :
    write64 m a v x < 256 := by
  unfold write64
  split
  · exact Nat.mod_lt _ (by norm_num)
  · exact h x

theorem readBytes_digit (m : Mem) (n : Nat) : ∀ (a i : Nat), i < n →
    readBytes m a n / 256 ^ i % 256 = m (a + i) % 256 := by
  induction n with
  | zero => intro a i hi; omega
  | succ n ih =>
    intro a i hi
    cases i with
    | zero =>
      simp only [readBytes, pow_zero, Nat.div_one, Nat.add_zero]
      omega
    | succ j =>
      have h1 := ih (a + 1) j (by omega)
      have hX : (m a % 256 + 256 * readBytes m (a + 1) n) / 256 = readBytes m (a + 1) n := by
        omega
      have e : (m a % 256 + 256 * readBytes m (a + 1) n) / 256 ^ (j + 1) =
          readBytes m (a + 1) n / 256 ^ j := by
        rw [show 256 ^ (j + 1) = 256 * 256 ^ j from by rw [pow_succ, Nat.mul_comm],
          ← Nat.div_div_eq_div_mul, hX]
      simp only [readBytes]
      rw [e, h1, Nat.add_assoc, Nat.add_comm 1 j]

/-- Storing back the word that is already at `a` leaves a memory of bytes as it is. -/
theorem write64_read64_self (m : Mem) (a : Nat) (h : ∀ x, m x < 256) :
    write64 m a (read64 m a) = m := by
  funext x
  unfold write64
  split
  · rename_i hx
    have := readBytes_digit m 8 a (x - a) (by omega)
    have e : a + (x - a) = x := by omega
    rw [e] at this
    rw [read64, this, Nat.mod_eq_of_lt (h x)]
  · rfl

theorem write64_write64 (m : Mem) (a v w : Nat) : write64 (write64 m a v) a w = write64 m a w := by
  funext x
  unfold write64
  split <;> rfl

theorem readBytes_congr_mod (m m' : Mem) (n a : Nat)
    (h : ∀ i, i < n → m' (a + i) % 256 = m (a + i) % 256) :
    readBytes m' a n = readBytes m a n := by
  induction n generalizing a with
  | zero => rfl
  | succ n ih =>
    have h0 := h 0 (Nat.succ_pos n)
    have h1 : readBytes m' (a + 1) n = readBytes m (a + 1) n := by
      apply ih
      intro i hi
      have := h (i + 1) (by omega)
      simpa [Nat.add_assoc, Nat.add_comm 1 i] using this
    simp only [Nat.add_zero] at h0
    simp only [readBytes, h1, h0]

/-- Storing the word that is already at `a` changes no word of the memory. -/
theorem read64_write64_self (m : Mem) (a x : Nat) :
    read64 (write64 m a (read64 m a)) x = read64 m x := by
  apply readBytes_congr_mod
  intro i _
  unfold write64
  split
  · rename_i hx
    have := readBytes_digit m 8 a (x + i - a) (by omega)
    have e : a + (x + i - a) = x + i := by omega
    rw [e] at this
    rw [read64, Nat.mod_mod, this]
  · rfl

namespace Implicit

theorem myfree_free_header (s : State) (p : Nat) (hbytes : ∀ x, s.mem x < 256)
    (hp : p = 0 ∨ (s.g_heap_start ≠ 0 ∧ s.g_heap_start + 8 ≤ p ∧
      p ≤ s.g_heap_start + s.g_heap_size ∧ s.g_heap_start + s.g_heap_size ≤ WORD ∧
      read64 s.mem (p - 8) % 2 = 0)) :
    myfree s p = .ok s := by
  rcases hp with h0 | ⟨hs, hlo, hhi, hfit, heven⟩
  · simp [myfree, h0, pure_ok]
  · have hp0 : ¬ (p = 0) := by omega
    have hh : sub64 p ALIGNMENT = p - 8 := by unfold sub64 ALIGNMENT WORD at *; omega
    have hl := read64_lt s.mem (p - 8)
    unfold myfree toggle_free
    rw [if_neg hp0, hh, load_ok s _ (by omega) (by omega) (by omega), bind_ok,
      store_ok s _ _ (by omega) (by omega) (by omega), bind_ok,
      load_ok _ (p - 8) (by omega) (by show s.g_heap_start ≤ _; omega)
        (by show _ ≤ s.g_heap_start + s.g_heap_size; omega), bind_ok,
      store_ok _ (p - 8) _ (by omega) (by show s.g_heap_start ≤ _; omega)
        (by show _ ≤ s.g_heap_start + s.g_heap_size; omega)]
    have hv : (read64 (write64 s.mem (p - 8) (read64 s.mem (p - 8) >>> 1)) (p - 8) <<< 1) % WORD =
        read64 s.mem (p - 8) := by
      rw [read64_write64_same, Nat.shiftLeft_eq, Nat.shiftRight_eq_div_pow]
      unfold WORD at *
      omega
    show Except.ok { s with mem := write64 (write64 s.mem (p - 8) _) (p - 8) _ } = _
    rw [hv, write64_write64, write64_read64_self s.mem _ hbytes]

theorem chain_sizes (m : Mem) (bs : List Blk) (a e : Nat) (h : Chain m a bs e) :
    ∀ b, b ∈ bs → b.1 % 8 = 0 := by
  induction bs generalizing a with
  | nil => intro b hb; simp at hb
  | cons c cs ih =>
    simp only [Chain] at h
    intro b hb
    simp only [List.mem_cons] at hb
    rcases hb with rfl | hb
    · exact h.2.1
    · exact ih _ h.2.2.2 b hb

/-- First fit on the block list, read off the header walk: no block fits exactly when
every block of the walk is used or too small, and otherwise the first fitting block of
the walk is replaced by the allocated block and, if it was larger, a free remainder. -/
theorem fit_layout (need : Nat) (hneed : need % 8 = 0) :
    ∀ (bs : List Blk) (a : Nat), (∀ b, b ∈ bs → b.1 % 8 = 0) →
      ((∀ c, c ∈ layout a bs → c.2.2 = true ∨ c.2.1 < need) → fit need bs = none) ∧
      (∀ L1 q c L2, layout a bs = L1 ++ (q, c, false) :: L2 → need ≤ c →
        (∀ b, b ∈ L1 → b.2.2 = true ∨ b.2.1 < need) →
        ∃ off bs', fit need bs = some (off, bs') ∧ a + off + 8 = q ∧
          layout a bs' = L1 ++ (q, need, true) ::
            ((if need < c then [(q + need + 8, c - need - 8, false)] else []) ++ L2)) := by
  intro bs
  induction bs with
  | nil =>
    intro a _
    refine ⟨fun _ => rfl, ?_⟩
    intro L1 q c L2 h
    simp [layout] at h
  | cons b bs ih =>
    intro a h8
    have hb8 : b.1 % 8 = 0 := h8 b (by simp)
    have ih' := ih (a + b.1 + 8) (fun x hx => h8 x (by simp [hx]))
    constructor
    · intro hall
      have hhead := hall (a + 8, b.1, b.2) (by simp [layout])
      have hnt : ¬ (b.2 = false ∧ need ≤ b.1) := by
        rintro ⟨h1, h2⟩
        rcases hhead with h | h
        · simp only [] at h; rw [h1] at h; cases h
        · simp only [] at h; omega
      simp only [fit, hnt, if_false]
      rw [ih'.1 (fun c hc => hall c (by simp [layout, hc]))]
      rfl
    · intro L1 q c L2 hL hc hL1
      cases L1 with
      | nil =>
        simp only [layout, List.nil_append, List.cons.injEq, Prod.mk.injEq] at hL
        obtain ⟨⟨hq, hcb, hu⟩, hrest⟩ := hL
        have htake : b.2 = false ∧ need ≤ b.1 := ⟨hu, by omega⟩
        simp only [fit, htake, and_self, if_true]
        refine ⟨0, _, rfl, by omega, ?_⟩
        subst hcb
        by_cases hs : need < b.1
        · have e1 : a + need + 8 + (b.1 - need - 8) + 8 = a + b.1 + 8 := by omega
          have e2 : a + need + 8 + 8 = q + need + 8 := by omega
          simp only [hs, if_true, layout, e1, e2, hrest, List.nil_append, List.singleton_append]
          rw [← hq]
        · have e1 : a + need + 8 = a + b.1 + 8 := by omega
          simp only [hs, if_false, layout, e1, hrest, List.nil_append]
          rw [← hq]
      | cons l L1' =>
        simp only [layout, List.cons_append, List.cons.injEq] at hL
        obtain ⟨hl, hrest⟩ := hL
        have hhead := hL1 l (by simp)
        rw [← hl] at hhead
        have hnt : ¬ (b.2 = false ∧ need ≤ b.1) := by
          rintro ⟨h1, h2⟩
          rcases hhead with h | h
          · simp only [] at h; rw [h1] at h; cases h
          · simp only [] at h; omega
        obtain ⟨off, bs', hf, hq, hlay⟩ := ih'.2 L1' q c L2 hrest hc
          (fun x hx => hL1 x (by simp [hx]))
        refine ⟨b.1 + 8 + off, b :: bs', ?_, by omega, ?_⟩
        · simp only [fit, hnt, if_false, hf, Option.map_some']
        · simp only [layout, hlay, List.cons_append, hl]

/-- The header walk of the state after `myinit` on the 96-byte region. -/
theorem inv_afterInit : Inv afterInit [(80, false)] :=
  (myinit_inv blank afterInit 4096 96 (by decide) (by decide) rfl).1

/-- C16. First fit of the implicit `mymalloc` on a well-formed heap, for
`0 < r ≤ size - 8`, with `need = roundup r 8` (the least multiple of 8 that is at least
`r`) and `L` the header walk before the call: if every block of `L` is used or smaller
than `need` the call returns null and changes nothing; if `(q, c, free)` is the first
block of `L` with `c ≥ need`, the call returns its payload address `q`, and the header
walk afterwards is `L` with that block replaced by `(q, need, used)` followed, when
`c > need`, by a free block of size `c - need - 8` whose header is at `q + need`; all
other blocks of the walk are as before. -/
theorem implicit_first_fit (s : State) (bs : List Blk) (r : Nat) (hinv : Inv s bs)
    (hr0 : 0 < r) (hr1 : r ≤ s.g_heap_size - ALIGNMENT) :
    ∃ L, blocks s = .ok L ∧ r ≤ roundup r ALIGNMENT ∧ roundup r ALIGNMENT < r + ALIGNMENT ∧
      roundup r ALIGNMENT % ALIGNMENT = 0 ∧
      ((∀ b, b ∈ L → b.2.2 = true ∨ b.2.1 < roundup r ALIGNMENT) →
        mymalloc s r = .ok (0, s)) ∧
      (∀ L1 q c L2, L = L1 ++ (q, c, false) :: L2 → roundup r ALIGNMENT ≤ c →
        (∀ b, b ∈ L1 → b.2.2 = true ∨ b.2.1 < roundup r ALIGNMENT) →
        q ≠ 0 ∧ ∃ s', mymalloc s r = .ok (q, s') ∧
          blocks s' = .ok (L1 ++ (q, roundup r ALIGNMENT, true) ::
            ((if roundup r ALIGNMENT < c then
                [(q + roundup r ALIGNMENT + 8, c - roundup r ALIGNMENT - 8, false)]
              else []) ++ L2))) := by
  have hre := roundup_eq r (by
    have := hinv.fits; have := hinv.size_ge; unfold ALIGNMENT WORD at *; omega)
  have hr8 : roundup r ALIGNMENT % 8 = 0 := by rw [hre]; omega
  obtain ⟨f1, f2⟩ := fit_layout (roundup r ALIGNMENT) hr8 bs s.g_heap_start
    (chain_sizes _ _ _ _ hinv.chain)
  obtain ⟨res, hrun, hcase⟩ := mymalloc_spec s bs r hinv
  refine ⟨layout s.g_heap_start bs, blocks_inv s bs hinv, by rw [hre]; omega,
    by rw [hre]; unfold ALIGNMENT; omega, by unfold ALIGNMENT; exact hr8, ?_, ?_⟩
  · intro hall
    have hnone := f1 hall
    rcases hcase with ⟨_, hres⟩ | ⟨_, _, off, bs', hf, _⟩
    · rw [hrun, hres]
    · rw [hnone] at hf; cases hf
  · intro L1 q c L2 hL hc hL1
    obtain ⟨off, bs', hf, hq, hlay⟩ := f2 L1 q c L2 hL hc hL1
    rcases hcase with ⟨hbad, _⟩ | ⟨_, _, off2, bs2, hf2, hp, hinv', g1, g2⟩
    · exfalso
      unfold ALIGNMENT at hr1
      rcases hbad with h | h | h
      · omega
      · omega
      · rw [hf] at h; cases h
    · rw [hf] at hf2
      simp only [Option.some.injEq, Prod.mk.injEq] at hf2
      obtain ⟨rfl, rfl⟩ := hf2
      obtain ⟨p, s'⟩ := res
      simp only [] at hp hinv' g1 g2
      refine ⟨by omega, s', ?_, ?_⟩
      · rw [hrun, hp, hq]
      · rw [blocks_inv s' bs' hinv', g1, hlay]

theorem implicit_first_fit_witness :
    blocks afterMalloc = .ok [(4104, 32, true), (4144, 40, false)] ∧
    ∃ L, blocks afterInit = .ok L ∧ 32 ≤ roundup 32 ALIGNMENT ∧
      roundup 32 ALIGNMENT < 32 + ALIGNMENT ∧ roundup 32 ALIGNMENT % ALIGNMENT = 0 ∧
      ((∀ b, b ∈ L → b.2.2 = true ∨ b.2.1 < roundup 32 ALIGNMENT) →
        mymalloc afterInit 32 = .ok (0, afterInit)) ∧
      (∀ L1 q c L2, L = L1 ++ (q, c, false) :: L2 → roundup 32 ALIGNMENT ≤ c →
        (∀ b, b ∈ L1 → b.2.2 = true ∨ b.2.1 < roundup 32 ALIGNMENT) →
        q ≠ 0 ∧ ∃ s', mymalloc afterInit 32 = .ok (q, s') ∧
          blocks s' = .ok (L1 ++ (q, roundup 32 ALIGNMENT, true) ::
            ((if roundup 32 ALIGNMENT < c then
                [(q + roundup 32 ALIGNMENT + 8, c - roundup 32 ALIGNMENT - 8, false)]
              else []) ++ L2))) :=
  ⟨by rfl, implicit_first_fit afterInit [(80, false)] 32 inv_afterInit (by decide) (by decide)⟩

/-- C14 (failing input). Implicit variant, 96-byte region at address 4096 with
`p = mymalloc(16)`: `mymalloc(200)` returns null from that state, and `myrealloc(p, 200)`
does not return null but runs `memmove` with the null destination, an access outside
the region. -/
theorem implicit_realloc_failed_alloc :
    mallocFailRun = .ok (4104, 0) ∧ reallocFailRun = .error .fault :=
  ⟨by rfl, by rfl⟩

end Implicit

namespace Explicit

theorem explicit_myfree_free_header (s : State) (p : Nat)
    (hp : p = 0 ∨ (s.g_heap_start ≠ 0 ∧ s.g_heap_start + 8 ≤ p ∧
      p ≤ s.g_heap_start + s.g_heap_size ∧ s.g_heap_start + s.g_heap_size ≤ WORD ∧
      read64 s.mem (p - 8) % 2 = 0)) :
    myfree s p = .ok s := by
  rcases hp with h0 | ⟨hs, hlo, hhi, hfit, heven⟩
  · simp [myfree, h0, Implicit.pure_ok]
  · have hp0 : ¬ (p = 0) := by omega
    have hh : sub64 p HEADER_SIZE = p - 8 := by
      unfold sub64 HEADER_SIZE ALIGNMENT WORD at *; omega
    have hu := explicit_is_used_ok s (p - 8) (read64 s.mem (p - 8)) 0 (by omega) (by omega)
      (by omega) (Nat.add_zero _).symm heven (by omega)
    unfold myfree
    rw [if_neg hp0]
    dsimp only
    rw [hh, hu, Implicit.bind_ok]
    simp [Implicit.pure_ok]

theorem freeList_weaken (s : State) (ns : List (Nat × Nat)) (lo lo2 prev a : Nat)
    (h : FreeList s lo prev a ns) (hl : lo2 ≤ lo) : FreeList s lo2 prev a ns := by
  cases ns with
  | nil => exact h
  | cons b ns =>
    obtain ⟨n, c⟩ := b
    simp only [FreeList] at h ⊢
    exact ⟨h.1, by omega, h.2.2.1, h.2.2.2.1, h.2.2.2.2.1, h.2.2.2.2.2.1, h.2.2.2.2.2.2.1,
      h.2.2.2.2.2.2.2⟩

/-- A free list is determined by the words at and above `lo` and the region bounds. -/
theorem freeList_frame (s t : State) (ns : List (Nat × Nat)) :
    ∀ (lo prev a : Nat), FreeList s lo prev a ns →
      t.g_heap_start + t.g_heap_size = s.g_heap_start + s.g_heap_size →
      (∀ x, lo ≤ x → read64 t.mem x = read64 s.mem x) → FreeList t lo prev a ns := by
  induction ns with
  | nil => intro lo prev a h _ _; exact h
  | cons b ns ih =>
    intro lo prev a h hb hm
    obtain ⟨n, c⟩ := b
    simp only [FreeList] at h ⊢
    obtain ⟨h1, h2, h3, h4, h5, h6, h7, h8⟩ := h
    refine ⟨h1, h2, by rw [hb]; exact h3, h4, h5, ?_, ?_, ?_⟩
    · rw [hm _ (by omega)]; exact h6
    · rw [hm _ (by omega)]; exact h7
    · rw [hm _ (by omega)]
      exact ih _ _ _ h8 hb (fun x hx => hm x (by omega))

theorem freeList_length (s : State) (ns : List (Nat × Nat)) :
    ∀ (lo prev a : Nat), FreeList s lo prev a ns →
      lo + 24 * ns.length + 8 ≤ s.g_heap_start + s.g_heap_size ∨ ns = [] := by
  induction ns with
  | nil => intro lo prev a _; exact Or.inr rfl
  | cons b ns ih =>
    intro lo prev a h
    obtain ⟨n, c⟩ := b
    simp only [FreeList] at h
    obtain ⟨h1, h2, h3, h4, h5, h6, h7, h8⟩ := h
    left
    rcases ih _ _ _ h8 with h | h
    · simp only [List.length_cons]; omega
    · subst h; simp only [List.length_cons, List.length_nil]; omega

/-- Where the candidate sits: the part of the list from the candidate on is a free list
whose `prev` is the candidate's `prev` field; that field is the initial `prev` when no
node precedes the candidate, and otherwise the last preceding node, whose two link
fields end at or before the lower bound `lo'` of the candidate's block. -/
theorem freeList_split (s : State) (cur c : Nat) (post : List (Nat × Nat))
    (pre : List (Nat × Nat)) :
    ∀ (lo prev a : Nat), FreeList s lo prev a (pre ++ (cur, c) :: post) →
      ∃ lo', lo ≤ lo' ∧ FreeList s lo' (read64 s.mem cur) cur ((cur, c) :: post) ∧
        ((pre = [] ∧ read64 s.mem cur = prev ∧ a = cur ∧ lo' = lo) ∨
          (pre ≠ [] ∧ lo + 8 ≤ a ∧ a ≤ read64 s.mem cur ∧ read64 s.mem cur + 16 ≤ lo')) := by
  induction pre with
  | nil =>
    intro lo prev a h
    simp only [List.nil_append] at h
    have h' := h
    simp only [FreeList] at h
    obtain ⟨ha, _, _, _, _, _, hp, _⟩ := h
    subst ha
    refine ⟨lo, le_refl _, ?_, Or.inl ⟨rfl, hp, rfl, rfl⟩⟩
    rw [hp]
    exact h'
  | cons b pre ih =>
    intro lo prev a h
    obtain ⟨n, c'⟩ := b
    simp only [List.cons_append, FreeList] at h
    obtain ⟨h1, h2, h3, h4, h5, h6, h7, h8⟩ := h
    obtain ⟨lo', i3, i4, i5⟩ := ih _ _ _ h8
    refine ⟨lo', by omega, i4, Or.inr ⟨by simp, by omega, ?_, ?_⟩⟩
    · rcases i5 with ⟨_, e, _, _⟩ | ⟨_, e1, e2, _⟩ <;> omega
    · rcases i5 with ⟨_, e, _, e3⟩ | ⟨_, _, _, e3⟩ <;> omega

/-- Skipping the nodes that are too small: the loop of `mymalloc` reaches the candidate
with the heap untouched. -/
theorem mallocLoop_skip (s : State) (need pay cur c : Nat) (post : List (Nat × Nat))
    (hs : s.g_heap_start ≠ 0) (hfit : s.g_heap_start + s.g_heap_size ≤ WORD)
    (pre : List (Nat × Nat)) :
    ∀ (lo prev a fuel : Nat), s.g_heap_start ≤ lo →
      FreeList s lo prev a (pre ++ (cur, c) :: post) → (∀ b, b ∈ pre → b.2 < need) →
      mallocLoop s need pay (fuel + pre.length) a = mallocLoop s need pay fuel cur := by
  induction pre with
  | nil =>
    intro lo prev a fuel _ h _
    simp only [List.nil_append, FreeList] at h
    rw [h.1]
    rfl
  | cons b pre ih =>
    intro lo prev a fuel hlo h hsmall
    obtain ⟨n, c'⟩ := b
    simp only [List.cons_append, FreeList] at h
    obtain ⟨h1, h2, h3, h4, h5, h6, h7, h8⟩ := h
    subst h1
    have hn0 : ¬ (a = 0) := by omega
    have hh : sub64 a HEADER_SIZE = a - 8 := by
      unfold sub64 HEADER_SIZE ALIGNMENT WORD at *; omega
    have hnum := explicit_header_num_ok s (a - 8) c' 0 (by omega) (by omega) (by omega)
      (by omega) (by omega) (by omega)
    have hlt : ¬ (c' ≥ need) := by
      have := hsmall (a, c') (by simp)
      simp only [] at this
      omega
    have ha8 : add64 a 8 = a + 8 := by unfold add64 WORD at *; omega
    have hnext : getNext s a = .ok (read64 s.mem (a + 8)) := by
      rw [getNext, ha8, explicit_load_ok s _ (by omega) (by omega) (by omega)]
    have e : fuel + ((a, c') :: pre).length = (fuel + pre.length) + 1 := by
      simp only [List.length_cons]; omega
    rw [e, mallocLoop, if_neg hn0]
    dsimp only
    rw [hh, hnum, Implicit.bind_ok, if_neg hlt, hnext, Implicit.bind_ok]
    exact ih _ _ _ fuel (by omega) h8 (fun x hx => hsmall x (by simp [hx]))

/-- The two header writes of `updatedHeader` when the candidate is split. -/
theorem updatedHeader_split (s : State) (need c cur : Nat)
    (hs : s.g_heap_start ≠ 0) (hfit : s.g_heap_start + s.g_heap_size ≤ WORD)
    (hlo : s.g_heap_start + 8 ≤ cur) (hhi : cur + c + 8 ≤ s.g_heap_start + s.g_heap_size)
    (hc : need + 24 ≤ c) (hn : 0 < need) (hn8 : need % 8 = 0) :
    updatedHeader s need c cur =
      .ok (cur + max need 16 + 8,
        { s with
          mem :=
            write64 (write64 s.mem (cur - 8) (max need 16 + 1)) (cur + max need 16)
              (c - max need 16 - 8) }) := by
  have hm : (if FREE_SIZE > need then FREE_SIZE else need) = max need 16 := by
    unfold FREE_SIZE
    by_cases h : 16 > need
    · rw [if_pos h, Nat.max_eq_right (by omega)]
    · rw [if_neg h, Nat.max_eq_left (by omega)]
  have hmx : max need 16 ≤ need + 8 ∧ 16 ≤ max need 16 ∧ need ≤ max need 16 := by
    refine ⟨?_, Nat.le_max_right _ _, Nat.le_max_left _ _⟩
    apply Nat.max_le.mpr
    constructor <;> omega
  have h1 : add64 (add64 need HEADER_SIZE) FREE_SIZE = need + 24 := by
    unfold add64 HEADER_SIZE ALIGNMENT FREE_SIZE WORD at *; omega
  have hge : c ≥ need + 24 := hc
  have h2 : sub64 cur HEADER_SIZE = cur - 8 := by
    unfold sub64 HEADER_SIZE ALIGNMENT WORD at *; omega
  have h3 : add64 (max need 16) USED = max need 16 + 1 := by
    unfold add64 USED WORD at *; omega
  have h4 : add64 cur (max need 16) = cur + max need 16 := by
    unfold add64 WORD at *; omega
  have h5 : add64 (sub64 (sub64 c (max need 16)) HEADER_SIZE) FREE = c - max need 16 - 8 := by
    unfold add64 sub64 HEADER_SIZE ALIGNMENT FREE WORD at *; omega
  have h6 : add64 (cur + max need 16) HEADER_SIZE = cur + max need 16 + 8 := by
    unfold add64 HEADER_SIZE ALIGNMENT WORD at *; omega
  unfold updatedHeader
  dsimp only
  rw [h1, hm, if_pos hge, h2, create_header, h3,
    explicit_store_ok s _ _ (by omega) (by omega) (by omega), Implicit.bind_ok, if_pos hge, h4,
    create_header, h5,
    explicit_store_ok _ _ _ (by omega) (by show s.g_heap_start ≤ _; omega)
      (by show _ ≤ s.g_heap_start + s.g_heap_size; omega), Implicit.bind_ok, h6]
  rfl

/-- The header write of `updatedHeader` when the whole candidate is taken. -/
theorem updatedHeader_whole (s : State) (need c cur : Nat)
    (hs : s.g_heap_start ≠ 0) (hfit : s.g_heap_start + s.g_heap_size ≤ WORD)
    (hlo : s.g_heap_start + 8 ≤ cur) (hhi : cur + c + 8 ≤ s.g_heap_start + s.g_heap_size)
    (hc : c < need + 24) (hnc : need ≤ c) (hov : need + 24 < WORD) :
    updatedHeader s need c cur =
      .ok (0, { s with mem := write64 s.mem (cur - 8) (c + 1) }) := by
  have h1 : add64 (add64 need HEADER_SIZE) FREE_SIZE = need + 24 := by
    unfold add64 HEADER_SIZE ALIGNMENT FREE_SIZE WORD at *; omega
  have hge : ¬ (c ≥ need + 24) := by omega
  have h2 : sub64 cur HEADER_SIZE = cur - 8 := by
    unfold sub64 HEADER_SIZE ALIGNMENT WORD at *; omega
  have h3 : add64 c USED = c + 1 := by
    unfold add64 USED WORD at *; omega
  unfold updatedHeader
  dsimp only
  rw [h1, if_neg hge, h2, create_header, h3,
    explicit_store_ok s _ _ (by omega) (by omega) (by omega), Implicit.bind_ok, if_neg hge]
  rfl

/-- Effect of `rewireAdd cur nb` when `cur` is a list node with `prev` field `P` and
`next` field `N`, the new node `nb` lies above the two link fields of `cur`, `P` (if not
null) lies below `cur` and `N` (if not null) above `nb`. -/
theorem rewireAdd_spec (t : State) (cur nb : Nat) (hs : t.g_heap_start ≠ 0)
    (hfit : t.g_heap_start + t.g_heap_size ≤ WORD) (hlo : t.g_heap_start ≤ cur)
    (hnb : cur + 16 ≤ nb) (hhi : nb + 16 ≤ t.g_heap_start + t.g_heap_size)
    (hP : read64 t.mem cur = 0 ∨
      (t.g_heap_start ≤ read64 t.mem cur + 8 ∧ read64 t.mem cur + 16 ≤ cur))
    (hN : read64 t.mem (cur + 8) = 0 ∨
      (nb + 16 ≤ read64 t.mem (cur + 8) ∧
        read64 t.mem (cur + 8) + 8 ≤ t.g_heap_start + t.g_heap_size)) :
    ∃ t', rewireAdd t cur nb = .ok t' ∧ t'.g_heap_start = t.g_heap_start ∧
      t'.g_heap_size = t.g_heap_size ∧ read64 t'.mem nb = read64 t.mem cur ∧
      read64 t'.mem (nb + 8) = read64 t.mem (cur + 8) ∧
      (read64 t.mem cur = 0 → t'.first_free_block = nb) ∧
      (read64 t.mem cur ≠ 0 → t'.first_free_block = t.first_free_block ∧
        read64 t'.mem (read64 t.mem cur + 8) = nb) ∧
      (read64 t.mem (cur + 8) ≠ 0 → read64 t'.mem (read64 t.mem (cur + 8)) = nb) ∧
      ∀ x, (x + 8 ≤ nb ∨ nb + 16 ≤ x) →
        (read64 t.mem cur = 0 ∨ x ≤ read64 t.mem cur ∨ read64 t.mem cur + 16 ≤ x) →
        (read64 t.mem (cur + 8) = 0 ∨ x + 8 ≤ read64 t.mem (cur + 8) ∨
          read64 t.mem (cur + 8) + 8 ≤ x) →
        read64 t'.mem x = read64 t.mem x := by
  generalize hPv : read64 t.mem cur = P at hP ⊢
  generalize hNv : read64 t.mem (cur + 8) = N at hN ⊢
  have hPl : P < WORD := hPv ▸ read64_lt _ _
  have hNl : N < WORD := hNv ▸ read64_lt _ _
  have hnbl : nb < WORD := by omega
  have a1 : add64 cur 8 = cur + 8 := by unfold add64 WORD at *; omega
  have a2 : add64 nb 8 = nb + 8 := by unfold add64 WORD at *; omega
  have e0 : getPrev t cur = .ok P := by
    rw [getPrev, explicit_load_ok t cur (by omega) (by omega) (by omega), hPv]
  unfold rewireAdd
  rw [e0, Implicit.bind_ok]
  by_cases hp0 : P = 0
  · rw [if_pos hp0]
    dsimp only
    rw [if_pos (show nb ≠ 0 by omega)]
    let mA : Mem := write64 t.mem nb 0
    let mB : Mem := write64 mA (nb + 8) N
    have e1 : setPrev { t with first_free_block := nb } nb 0 =
        .ok { t with first_free_block := nb, mem := mA } := by
      rw [setPrev, explicit_store_ok _ nb 0 (by omega) (by show t.g_heap_start ≤ _; omega)
        (by show _ ≤ t.g_heap_start + t.g_heap_size; omega)]
    have e2 : getNext { t with first_free_block := nb, mem := mA } cur = .ok N := by
      rw [getNext, a1, explicit_load_ok _ (cur + 8) (by omega)
        (by show t.g_heap_start ≤ _; omega)
        (by show _ ≤ t.g_heap_start + t.g_heap_size; omega)]
      show Except.ok (read64 (write64 t.mem nb 0) (cur + 8)) = _
      rw [read64_write64_other _ _ _ _ (by omega), hNv]
    have e3 : setNext { t with first_free_block := nb, mem := mA } nb N =
        .ok { t with first_free_block := nb, mem := mB } := by
      rw [setNext, a2, explicit_store_ok _ (nb + 8) N (by omega)
        (by show t.g_heap_start ≤ _; omega)
        (by show _ ≤ t.g_heap_start + t.g_heap_size; omega)]
    have rB : read64 mB (nb + 8) = N := by
      show read64 (write64 mA (nb + 8) N) (nb + 8) = N
      rw [read64_write64_same, Nat.mod_eq_of_lt hNl]
    have rB0 : read64 mB nb = 0 := by
      show read64 (write64 (write64 t.mem nb 0) (nb + 8) N) nb = 0
      rw [read64_write64_other _ _ _ _ (by omega), read64_write64_same]
      rfl
    have e4 : getNext { t with first_free_block := nb, mem := mB } nb = .ok N := by
      rw [getNext, a2, explicit_load_ok _ (nb + 8) (by omega)
        (by show t.g_heap_start ≤ _; omega)
        (by show _ ≤ t.g_heap_start + t.g_heap_size; omega)]
      show Except.ok (read64 mB (nb + 8)) = _
      rw [rB]
    have frB : ∀ x, (x + 8 ≤ nb ∨ nb + 16 ≤ x) → read64 mB x = read64 t.mem x := by
      intro x hx
      show read64 (write64 (write64 t.mem nb 0) (nb + 8) N) x = _
      rw [read64_write64_other _ _ _ _ (by omega), read64_write64_other _ _ _ _ (by omega)]
    rw [e1, Implicit.bind_ok]
    dsimp only
    rw [e2, Implicit.bind_ok, e3, Implicit.bind_ok]
    dsimp only
    rw [e4, Implicit.bind_ok]
    by_cases hn0 : N = 0
    · rw [if_neg (by simpa using hn0), Implicit.pure_ok]
      refine ⟨_, rfl, rfl, rfl, ?_, rB, fun _ => rfl, fun h => absurd hp0 h,
        fun h => absurd hn0 h, fun x hx _ _ => frB x hx⟩
      rw [hp0]; exact rB0
    · rw [if_pos hn0]
      have hNN : nb + 16 ≤ N ∧ N + 8 ≤ t.g_heap_start + t.g_heap_size := by
        rcases hN with h | h
        · exact absurd h hn0
        · exact h
      rw [setPrev, explicit_store_ok _ N nb (by omega) (by show t.g_heap_start ≤ _; omega)
        (by show _ ≤ t.g_heap_start + t.g_heap_size; omega)]
      refine ⟨_, rfl, rfl, rfl, ?_, ?_, fun _ => rfl, fun h => absurd hp0 h, fun _ => ?_, ?_⟩
      · show read64 (write64 mB N nb) nb = P
        rw [read64_write64_other _ _ _ _ (by omega), hp0]; exact rB0
      · show read64 (write64 mB N nb) (nb + 8) = N
        rw [read64_write64_other _ _ _ _ (by omega)]; exact rB
      · show read64 (write64 mB N nb) N = nb
        rw [read64_write64_same, Nat.mod_eq_of_lt hnbl]
      · intro x hx _ hxn
        show read64 (write64 mB N nb) x = _
        rw [read64_write64_other _ _ _ _ (by omega)]
        exact frB x hx
  · rw [if_neg hp0]
    have hPP : t.g_heap_start ≤ P + 8 ∧ P + 16 ≤ cur := by
      rcases hP with h | h
      · exact absurd h hp0
      · exact h
    have a3 : add64 P 8 = P + 8 := by unfold add64 WORD at *; omega
    let mA : Mem := write64 t.mem (P + 8) nb
    have e1 : setNext t P nb = .ok { t with mem := mA } := by
      rw [setNext, a3, explicit_store_ok t (P + 8) nb (by omega) (by omega) (by omega)]
    have e2 : getNext { t with mem := mA } cur = .ok N := by
      rw [getNext, a1, explicit_load_ok _ (cur + 8) (by omega)
        (by show t.g_heap_start ≤ _; omega)
        (by show _ ≤ t.g_heap_start + t.g_heap_size; omega)]
      show Except.ok (read64 (write64 t.mem (P + 8) nb) (cur + 8)) = _
      rw [read64_write64_other _ _ _ _ (by omega), hNv]
    rw [e1, Implicit.bind_ok, e2, Implicit.bind_ok]
    by_cases hn0 : N = 0
    · rw [if_neg (by simpa using hn0), Implicit.pure_ok, Implicit.bind_ok]
      let mC : Mem := write64 mA nb P
      have e3 : getPrev { t with mem := mA } cur = .ok P := by
        rw [getPrev, explicit_load_ok _ cur (by omega) (by show t.g_heap_start ≤ _; omega)
          (by show _ ≤ t.g_heap_start + t.g_heap_size; omega)]
        show Except.ok (read64 (write64 t.mem (P + 8) nb) cur) = _
        rw [read64_write64_other _ _ _ _ (by omega), hPv]
      have e4 : setPrev { t with mem := mA } nb P = .ok { t with mem := mC } := by
        rw [setPrev, explicit_store_ok _ nb P (by omega) (by show t.g_heap_start ≤ _; omega)
          (by show _ ≤ t.g_heap_start + t.g_heap_size; omega)]
      have e5 : getNext { t with mem := mC } cur = .ok N := by
        rw [getNext, a1, explicit_load_ok _ (cur + 8) (by omega)
          (by show t.g_heap_start ≤ _; omega)
          (by show _ ≤ t.g_heap_start + t.g_heap_size; omega)]
        show Except.ok (read64 (write64 (write64 t.mem (P + 8) nb) nb P) (cur + 8)) = _
        rw [read64_write64_other _ _ _ _ (by omega), read64_write64_other _ _ _ _ (by omega),
          hNv]
      try dsimp only
      rw [e3, Implicit.bind_ok, e4, Implicit.bind_ok, e5, Implicit.bind_ok, setNext, a2,
        explicit_store_ok _ (nb + 8) N (by omega) (by show t.g_heap_start ≤ _; omega)
          (by show _ ≤ t.g_heap_start + t.g_heap_size; omega)]
      refine ⟨_, rfl, rfl, rfl, ?_, ?_, fun h => absurd h hp0, fun _ => ⟨rfl, ?_⟩,
        fun h => absurd hn0 h, ?_⟩
      · show read64 (write64 (write64 mA nb P) (nb + 8) N) nb = P
        rw [read64_write64_other _ _ _ _ (by omega), read64_write64_same,
          Nat.mod_eq_of_lt hPl]
      · show read64 (write64 (write64 mA nb P) (nb + 8) N) (nb + 8) = N
        rw [read64_write64_same, Nat.mod_eq_of_lt hNl]
      · show read64 (write64 (write64 (write64 t.mem (P + 8) nb) nb P) (nb + 8) N) (P + 8) = nb
        rw [read64_write64_other _ _ _ _ (by omega), read64_write64_other _ _ _ _ (by omega),
          read64_write64_same, Nat.mod_eq_of_lt hnbl]
      · intro x hx hxp _
        show read64 (write64 (write64 (write64 t.mem (P + 8) nb) nb P) (nb + 8) N) x = _
        rw [read64_write64_other _ _ _ _ (by omega), read64_write64_other _ _ _ _ (by omega),
          read64_write64_other _ _ _ _ (by omega)]
    · rw [if_pos hn0]
      have hNN : nb + 16 ≤ N ∧ N + 8 ≤ t.g_heap_start + t.g_heap_size := by
        rcases hN with h | h
        · exact absurd h hn0
        · exact h
      let mB : Mem := write64 mA N nb
      let mC : Mem := write64 mB nb P
      have e2b : setPrev { t with mem := mA } N nb = .ok { t with mem := mB } := by
        rw [setPrev, explicit_store_ok _ N nb (by omega) (by show t.g_heap_start ≤ _; omega)
          (by show _ ≤ t.g_heap_start + t.g_heap_size; omega)]
      have e3 : getPrev { t with mem := mB } cur = .ok P := by
        rw [getPrev, explicit_load_ok _ cur (by omega) (by show t.g_heap_start ≤ _; omega)
          (by show _ ≤ t.g_heap_start + t.g_heap_size; omega)]
        show Except.ok (read64 (write64 (write64 t.mem (P + 8) nb) N nb) cur) = _
        rw [read64_write64_other _ _ _ _ (by omega), read64_write64_other _ _ _ _ (by omega),
          hPv]
      have e4 : setPrev { t with mem := mB } nb P = .ok { t with mem := mC } := by
        rw [setPrev, explicit_store_ok _ nb P (by omega) (by show t.g_heap_start ≤ _; omega)
          (by show _ ≤ t.g_heap_start + t.g_heap_size; omega)]
      have e5 : getNext { t with mem := mC } cur = .ok N := by
        rw [getNext, a1, explicit_load_ok _ (cur + 8) (by omega)
          (by show t.g_heap_start ≤ _; omega)
          (by show _ ≤ t.g_heap_start + t.g_heap_size; omega)]
        show Except.ok
          (read64 (write64 (write64 (write64 t.mem (P + 8) nb) N nb) nb P) (cur + 8)) = _
        rw [read64_write64_other _ _ _ _ (by omega), read64_write64_other _ _ _ _ (by omega),
          read64_write64_other _ _ _ _ (by omega), hNv]
      rw [e2b, Implicit.bind_ok]
      try dsimp only
      rw [e3, Implicit.bind_ok, e4, Implicit.bind_ok, e5,
        Implicit.bind_ok, setNext, a2,
        explicit_store_ok _ (nb + 8) N (by omega) (by show t.g_heap_start ≤ _; omega)
          (by show _ ≤ t.g_heap_start + t.g_heap_size; omega)]
      refine ⟨_, rfl, rfl, rfl, ?_, ?_, fun h => absurd h hp0, fun _ => ⟨rfl, ?_⟩,
        fun _ => ?_, ?_⟩
      · show read64 (write64 (write64 mB nb P) (nb + 8) N) nb = P
        rw [read64_write64_other _ _ _ _ (by omega), read64_write64_same,
          Nat.mod_eq_of_lt hPl]
      · show read64 (write64 (write64 mB nb P) (nb + 8) N) (nb + 8) = N
        rw [read64_write64_same, Nat.mod_eq_of_lt hNl]
      · show read64 (write64 (write64 (write64 (write64 t.mem (P + 8) nb) N nb) nb P)
          (nb + 8) N) (P + 8) = nb
        rw [read64_write64_other _ _ _ _ (by omega), read64_write64_other _ _ _ _ (by omega),
          read64_write64_other _ _ _ _ (by omega), read64_write64_same,
          Nat.mod_eq_of_lt hnbl]
      · show read64 (write64 (write64 (write64 (write64 t.mem (P + 8) nb) N nb) nb P)
          (nb + 8) N) N = nb
        rw [read64_write64_other _ _ _ _ (by omega), read64_write64_other _ _ _ _ (by omega),
          read64_write64_same, Nat.mod_eq_of_lt hnbl]
      · intro x hx hxp hxn
        show read64 (write64 (write64 (write64 (write64 t.mem (P + 8) nb) N nb) nb P)
          (nb + 8) N) x = _
        rw [read64_write64_other _ _ _ _ (by omega), read64_write64_other _ _ _ _ (by omega),
          read64_write64_other _ _ _ _ (by omega), read64_write64_other _ _ _ _ (by omega)]

/-- Effect of `rewireNoAdd cur` when `cur` is a list node with `prev` field `P` and
`next` field `N`, `P` (if not null) lies below `cur`, `N` (if not null) above it, and the
successor `F` of `N` (if any) lies above `N` and points back to `N`. -/
theorem rewireNoAdd_spec (t : State) (cur : Nat) (hs : t.g_heap_start ≠ 0)
    (hfit : t.g_heap_start + t.g_heap_size ≤ WORD) (hlo : t.g_heap_start ≤ cur)
    (hhi : cur + 16 ≤ t.g_heap_start + t.g_heap_size)
    (hP : read64 t.mem cur = 0 ∨
      (t.g_heap_start ≤ read64 t.mem cur + 8 ∧ read64 t.mem cur + 16 ≤ cur))
    (hN : read64 t.mem (cur + 8) = 0 ∨
      (cur + 16 ≤ read64 t.mem (cur + 8) ∧
        read64 t.mem (cur + 8) + 16 ≤ t.g_heap_start + t.g_heap_size ∧
        (read64 t.mem (read64 t.mem (cur + 8) + 8) = 0 ∨
          (read64 t.mem (cur + 8) + 16 ≤ read64 t.mem (read64 t.mem (cur + 8) + 8) ∧
            read64 t.mem (read64 t.mem (cur + 8) + 8) + 8 ≤ t.g_heap_start + t.g_heap_size ∧
            read64 t.mem (read64 t.mem (read64 t.mem (cur + 8) + 8)) =
              read64 t.mem (cur + 8))))) :
    ∃ t', rewireNoAdd t cur = .ok t' ∧ t'.g_heap_start = t.g_heap_start ∧
      t'.g_heap_size = t.g_heap_size ∧
      (read64 t.mem cur = 0 → t'.first_free_block = read64 t.mem (cur + 8)) ∧
      (read64 t.mem cur ≠ 0 → t'.first_free_block = t.first_free_block ∧
        read64 t'.mem (read64 t.mem cur + 8) = read64 t.mem (cur + 8)) ∧
      (read64 t.mem (cur + 8) ≠ 0 →
        read64 t'.mem (read64 t.mem (cur + 8)) = read64 t.mem cur) ∧
      ∀ x, (read64 t.mem cur = 0 ∨ x ≤ read64 t.mem cur ∨ read64 t.mem cur + 16 ≤ x) →
        (read64 t.mem (cur + 8) = 0 ∨ x + 8 ≤ read64 t.mem (cur + 8) ∨
          read64 t.mem (cur + 8) + 8 ≤ x) →
        read64 t'.mem x = read64 t.mem x := by
  generalize hPv : read64 t.mem cur = P at hP ⊢
  generalize hNv : read64 t.mem (cur + 8) = N at hN ⊢
  generalize hFv : read64 t.mem (N + 8) = F at hN ⊢
  have hPl : P < WORD := hPv ▸ read64_lt _ _
  have hNl : N < WORD := hNv ▸ read64_lt _ _
  have a1 : add64 cur 8 = cur + 8 := by unfold add64 WORD at *; omega
  have e0 : getPrev t cur = .ok P := by
    rw [getPrev, explicit_load_ok t cur (by omega) (by omega) (by omega), hPv]
  have e1 : getNext t cur = .ok N := by
    rw [getNext, a1, explicit_load_ok t (cur + 8) (by omega) (by omega) (by omega), hNv]
  unfold rewireNoAdd
  rw [e0, Implicit.bind_ok]
  by_cases hp0 : P = 0
  · rw [if_pos hp0, e1, Implicit.bind_ok]
    dsimp only
    by_cases hn0 : N = 0
    · rw [if_neg (by simpa using hn0), Implicit.pure_ok]
      exact ⟨_, rfl, rfl, rfl, fun _ => rfl, fun h => absurd hp0 h, fun h => absurd hn0 h,
        fun x _ _ => rfl⟩
    · rw [if_pos hn0]
      have hNN : cur + 16 ≤ N ∧ N + 16 ≤ t.g_heap_start + t.g_heap_size ∧
          (F = 0 ∨ (N + 16 ≤ F ∧ F + 8 ≤ t.g_heap_start + t.g_heap_size ∧
            read64 t.mem F = N)) := by
        rcases hN with h | h
        · exact absurd h hn0
        · exact h
      have a2 : add64 N 8 = N + 8 := by unfold add64 WORD at *; omega
      let mA : Mem := write64 t.mem N 0
      have e2 : setPrev { t with first_free_block := N } N 0 =
          .ok { t with first_free_block := N, mem := mA } := by
        rw [setPrev, explicit_store_ok _ N 0 (by omega) (by show t.g_heap_start ≤ _; omega)
          (by show _ ≤ t.g_heap_start + t.g_heap_size; omega)]
      have e3 : getNext { t with first_free_block := N, mem := mA } N = .ok F := by
        rw [getNext, a2, explicit_load_ok _ (N + 8) (by omega)
          (by show t.g_heap_start ≤ _; omega)
          (by show _ ≤ t.g_heap_start + t.g_heap_size; omega)]
        show Except.ok (read64 (write64 t.mem N 0) (N + 8)) = _
        rw [read64_write64_other _ _ _ _ (by omega), hFv]
      have rA : read64 mA N = 0 := by
        show read64 (write64 t.mem N 0) N = 0
        rw [read64_write64_same]; rfl
      rw [e2, Implicit.bind_ok]
      dsimp only
      rw [e3, Implicit.bind_ok]
      by_cases hf0 : F = 0
      · rw [if_neg (by simpa using hf0), Implicit.pure_ok]
        refine ⟨_, rfl, rfl, rfl, fun _ => rfl, fun h => absurd hp0 h, fun _ => ?_, ?_⟩
        · rw [hp0]; exact rA
        · intro x _ hxn
          show read64 (write64 t.mem N 0) x = _
          rw [read64_write64_other _ _ _ _ (by omega)]
      · rw [if_pos hf0]
        have hFF : N + 16 ≤ F ∧ F + 8 ≤ t.g_heap_start + t.g_heap_size ∧
            read64 t.mem F = N := by
          rcases hNN.2.2 with h | h
          · exact absurd h hf0
          · exact h
        rw [setPrev, explicit_store_ok _ F N (by omega) (by show t.g_heap_start ≤ _; omega)
          (by show _ ≤ t.g_heap_start + t.g_heap_size; omega)]
        refine ⟨_, rfl, rfl, rfl, fun _ => rfl, fun h => absurd hp0 h, fun _ => ?_, ?_⟩
        · show read64 (write64 mA F N) N = P
          rw [read64_write64_other _ _ _ _ (by omega), hp0]; exact rA
        · intro x _ hxn
          show read64 (write64 (write64 t.mem N 0) F N) x = _
          have hxn' : x + 8 ≤ N ∨ N + 8 ≤ x := by omega
          have hAF : read64 (write64 t.mem N 0) F = N := by
            rw [read64_write64_other _ _ _ _ (by omega)]; exact hFF.2.2
          have hself := read64_write64_self (write64 t.mem N 0) F x
          rw [hAF] at hself
          rw [hself, read64_write64_other _ _ _ _ hxn']
  · rw [if_neg hp0, e1, Implicit.bind_ok]
    have hPP : t.g_heap_start ≤ P + 8 ∧ P + 16 ≤ cur := by
      rcases hP with h | h
      · exact absurd h hp0
      · exact h
    have a3 : add64 P 8 = P + 8 := by unfold add64 WORD at *; omega
    let mA : Mem := write64 t.mem (P + 8) N
    have e2 : setNext t P N = .ok { t with mem := mA } := by
      rw [setNext, a3, explicit_store_ok t (P + 8) N (by omega) (by omega) (by omega)]
    have e3 : getNext { t with mem := mA } cur = .ok N := by
      rw [getNext, a1, explicit_load_ok _ (cur + 8) (by omega)
        (by show t.g_heap_start ≤ _; omega)
        (by show _ ≤ t.g_heap_start + t.g_heap_size; omega)]
      show Except.ok (read64 (write64 t.mem (P + 8) N) (cur + 8)) = _
      rw [read64_write64_other _ _ _ _ (by omega), hNv]
    have rA : read64 mA (P + 8) = N := by
      show read64 (write64 t.mem (P + 8) N) (P + 8) = N
      rw [read64_write64_same, Nat.mod_eq_of_lt hNl]
    rw [e2, Implicit.bind_ok, e3, Implicit.bind_ok]
    by_cases hn0 : N = 0
    · rw [if_neg (by simpa using hn0), Implicit.pure_ok]
      refine ⟨_, rfl, rfl, rfl, fun h => absurd h hp0, fun _ => ⟨rfl, rA⟩,
        fun h => absurd hn0 h, ?_⟩
      intro x hxp _
      show read64 (write64 t.mem (P + 8) N) x = _
      rw [read64_write64_other _ _ _ _ (by omega)]
    · rw [if_pos hn0]
      have hNN : cur + 16 ≤ N ∧ N + 16 ≤ t.g_heap_start + t.g_heap_size := by
        rcases hN with h | h
        · exact absurd h hn0
        · exact ⟨h.1, h.2.1⟩
      have e4 : getPrev { t with mem := mA } cur = .ok P := by
        rw [getPrev, explicit_load_ok _ cur (by omega) (by show t.g_heap_start ≤ _; omega)
          (by show _ ≤ t.g_heap_start + t.g_heap_size; omega)]
        show Except.ok (read64 (write64 t.mem (P + 8) N) cur) = _
        rw [read64_write64_other _ _ _ _ (by omega), hPv]
      rw [e4, Implicit.bind_ok, setPrev,
        explicit_store_ok _ N P (by omega) (by show t.g_heap_start ≤ _; omega)
          (by show _ ≤ t.g_heap_start + t.g_heap_size; omega)]
      refine ⟨_, rfl, rfl, rfl, fun h => absurd h hp0, fun _ => ⟨rfl, ?_⟩, fun _ => ?_, ?_⟩
      · show read64 (write64 mA N P) (P + 8) = N
        rw [read64_write64_other _ _ _ _ (by omega)]; exact rA
      · show read64 (write64 mA N P) N = P
        rw [read64_write64_same, Nat.mod_eq_of_lt hPl]
      · intro x hxp hxn
        show read64 (write64 (write64 t.mem (P + 8) N) N P) x = _
        rw [read64_write64_other _ _ _ _ (by omega), read64_write64_other _ _ _ _ (by omega)]

/-- The scan of `mymalloc` reaches the first fitting node `cur` with fuel left. -/
theorem mymalloc_candidate (s : State) (r cur c : Nat) (pre post : List (Nat × Nat))
    (hs : s.g_heap_start ≠ 0) (hfit : s.g_heap_start + s.g_heap_size ≤ WORD)
    (hr0 : 0 < r) (hr1 : r ≤ s.g_heap_size - ALIGNMENT)
    (hlist : FreeList s s.g_heap_start 0 s.first_free_block (pre ++ (cur, c) :: post))
    (hpre : ∀ b, b ∈ pre → b.2 < roundup r ALIGNMENT)
    (hov : roundup r ALIGNMENT + 24 < WORD) :
    ∃ f lo', mymalloc s r =
        mallocLoop s (roundup r ALIGNMENT) (roundup r ALIGNMENT + 24) (f + 1) cur ∧
      s.g_heap_start ≤ lo' ∧
      FreeList s lo' (read64 s.mem cur) cur ((cur, c) :: post) ∧
      ((pre = [] ∧ read64 s.mem cur = 0 ∧ s.first_free_block = cur) ∨
        (pre ≠ [] ∧ s.g_heap_start + 8 ≤ read64 s.mem cur ∧ read64 s.mem cur + 16 ≤ lo')) ∧
      roundup r ALIGNMENT % 8 = 0 ∧ r ≤ roundup r ALIGNMENT := by
  have hlen := freeList_length s _ _ _ _ hlist
  have hlen2 : pre.length + 1 ≤ s.g_heap_size := by
    rcases hlen with h | h
    · simp only [List.length_append, List.length_cons] at h; omega
    · simp at h
  obtain ⟨lo', l1, l2, l3⟩ := freeList_split s cur c post pre _ _ _ hlist
  have hsz : 32 ≤ s.g_heap_size := by
    have l2' := l2
    simp only [FreeList] at l2'
    omega
  have hru := explicit_roundup_eq r (by unfold ALIGNMENT WORD at *; omega)
  have hsub : sub64 s.g_heap_size HEADER_SIZE = s.g_heap_size - 8 := by
    unfold sub64 HEADER_SIZE ALIGNMENT WORD at *; omega
  have hcond : ¬ (r > sub64 s.g_heap_size HEADER_SIZE ∨ r = 0) := by
    rw [hsub]; unfold ALIGNMENT at hr1; omega
  have hpay : add64 (roundup r ALIGNMENT) (3 * HEADER_SIZE) = roundup r ALIGNMENT + 24 := by
    unfold add64 HEADER_SIZE ALIGNMENT WORD at *; omega
  have hfuel : s.g_heap_size = (s.g_heap_size - pre.length - 1 + 1) + pre.length := by omega
  refine ⟨s.g_heap_size - pre.length - 1, lo', ?_, l1, l2, ?_, by omega, by omega⟩
  · unfold mymalloc
    rw [if_neg hcond]
    dsimp only
    rw [hpay]
    nth_rewrite 1 [hfuel]
    exact mallocLoop_skip s _ _ cur c post hs hfit pre _ _ _ _ (le_refl _) hlist hpre
  · rcases l3 with ⟨a, b, c1, _⟩ | ⟨a, b, c1, d⟩
    · exact Or.inl ⟨a, b, c1.symm ▸ rfl⟩
    · exact Or.inr ⟨a, by omega, d⟩

/-- One iteration of the scan at a fitting node that is split. -/
theorem mallocLoop_take_split (s : State) (need cur c f lo : Nat) (post : List (Nat × Nat))
    (hs : s.g_heap_start ≠ 0) (hfit : s.g_heap_start + s.g_heap_size ≤ WORD)
    (hlo : s.g_heap_start ≤ lo)
    (hfl : FreeList s lo (read64 s.mem cur) cur ((cur, c) :: post))
    (hP : read64 s.mem cur = 0 ∨
      (s.g_heap_start + 8 ≤ read64 s.mem cur ∧ read64 s.mem cur + 16 ≤ lo))
    (hn : 0 < need) (hn8 : need % 8 = 0) (hc : need + 24 ≤ c) :
    ∃ s', mallocLoop s need (need + 24) (f + 1) cur = .ok (cur, s') ∧
      s'.g_heap_start = s.g_heap_start ∧ s'.g_heap_size = s.g_heap_size ∧
      read64 s'.mem (cur - 8) = max need 16 + 1 ∧
      read64 s'.mem (cur + max need 16) = c - max need 16 - 8 ∧
      read64 s'.mem (cur + max need 16 + 8) = read64 s.mem cur ∧
      read64 s'.mem (cur + max need 16 + 8 + 8) = read64 s.mem (cur + 8) ∧
      (read64 s.mem cur = 0 → s'.first_free_block = cur + max need 16 + 8) ∧
      (read64 s.mem cur ≠ 0 → s'.first_free_block = s.first_free_block ∧
        read64 s'.mem (read64 s.mem cur + 8) = cur + max need 16 + 8) ∧
      (read64 s.mem (cur + 8) ≠ 0 →
        read64 s'.mem (read64 s.mem (cur + 8)) = cur + max need 16 + 8) ∧
      ∀ x, (x + 8 ≤ cur - 8 ∨ (cur ≤ x ∧ x + 8 ≤ cur + max need 16) ∨
          cur + max need 16 + 8 + 16 ≤ x) →
        (read64 s.mem cur = 0 ∨ x ≤ read64 s.mem cur ∨ read64 s.mem cur + 16 ≤ x) →
        (read64 s.mem (cur + 8) = 0 ∨ x + 8 ≤ read64 s.mem (cur + 8) ∨
          read64 s.mem (cur + 8) + 8 ≤ x) →
        read64 s'.mem x = read64 s.mem x := by
  simp only [FreeList] at hfl
  obtain ⟨_, h2, h3, h4, h5, h6, _, h8⟩ := hfl
  have hN : read64 s.mem (cur + 8) = 0 ∨ (cur + c + 8 ≤ read64 s.mem (cur + 8) ∧
      read64 s.mem (cur + 8) + 8 ≤ s.g_heap_start + s.g_heap_size) := by
    cases post with
    | nil => simp only [FreeList] at h8; exact Or.inl h8
    | cons b post =>
      obtain ⟨n, cn⟩ := b
      simp only [FreeList] at h8
      right; omega
  generalize hPv : read64 s.mem cur = P at hP ⊢
  generalize hNv : read64 s.mem (cur + 8) = N at hN ⊢
  generalize hsp : max need 16 = space
  have hs1 : 16 ≤ space := by omega
  have hs2 : space ≤ need + 8 := by omega
  have hn0 : ¬ (cur = 0) := by omega
  have hh : sub64 cur HEADER_SIZE = cur - 8 := by
    unfold sub64 HEADER_SIZE ALIGNMENT WORD at *; omega
  have hnum := explicit_header_num_ok s (cur - 8) c 0 (by omega) (by omega) (by omega)
    (by omega) (by omega) (by omega)
  have hge : c ≥ need := by omega
  have hge2 : c ≥ need + 24 := hc
  have hup := updatedHeader_split s need c cur hs hfit (by omega) h3 hc hn hn8
  rw [hsp] at hup
  obtain ⟨t, htd⟩ : ∃ t : State, t = { s with
      mem :=
        write64 (write64 s.mem (cur - 8) (space + 1)) (cur + space) (c - space - 8) } :=
    ⟨_, rfl⟩
  rw [← htd] at hup
  have tb1 : t.g_heap_start = s.g_heap_start := by rw [htd]
  have tb2 : t.g_heap_size = s.g_heap_size := by rw [htd]
  have tb3 : t.first_free_block = s.first_free_block := by rw [htd]
  have hcl : c < WORD := h6 ▸ read64_lt _ _
  have rt : ∀ x, (x + 8 ≤ cur - 8 ∨ (cur ≤ x ∧ x + 8 ≤ cur + space) ∨ cur + space + 8 ≤ x) →
      read64 t.mem x = read64 s.mem x := by
    intro x hx
    rw [htd]
    show read64 (write64 (write64 s.mem (cur - 8) (space + 1)) (cur + space) _) x = _
    rw [read64_write64_other _ _ _ _ (by omega), read64_write64_other _ _ _ _ (by omega)]
  have th1 : read64 t.mem (cur - 8) = space + 1 := by
    rw [htd]
    show read64 (write64 (write64 s.mem (cur - 8) (space + 1)) (cur + space) _) _ = _
    rw [read64_write64_other _ _ _ _ (by omega), read64_write64_same,
      Nat.mod_eq_of_lt (by omega)]
  have th2 : read64 t.mem (cur + space) = c - space - 8 := by
    rw [htd]
    show read64 (write64 (write64 s.mem (cur - 8) (space + 1)) (cur + space) _) _ = _
    rw [read64_write64_same, Nat.mod_eq_of_lt (by omega)]
  have eP : read64 t.mem cur = P := by rw [rt cur (by omega)]; exact hPv
  have eN : read64 t.mem (cur + 8) = N := by rw [rt (cur + 8) (by omega)]; exact hNv
  obtain ⟨t', ht, b1, b2, r1, r2, r3, r4, r5, r6⟩ :=
    rewireAdd_spec t cur (cur + space + 8) (by rw [tb1]; exact hs) (by rw [tb1, tb2]; exact hfit)
      (by rw [tb1]; omega) (by omega) (by rw [tb1, tb2]; omega)
      (by rw [eP, tb1]; omega) (by rw [eN, tb1, tb2]; omega)
  rw [eP] at r1 r3 r4 r6
  rw [eN] at r2 r5 r6
  refine ⟨t', ?_, by rw [b1, tb1], by rw [b2, tb2], ?_, ?_, r1, r2, r3, ?_, r5, ?_⟩
  · rw [mallocLoop, if_neg hn0]
    dsimp only
    rw [hh, hnum, Implicit.bind_ok, if_pos hge, hup, Implicit.bind_ok]
    dsimp only
    rw [if_pos hge2, ht, Implicit.bind_ok]
    rfl
  · rw [r6 _ (by clear hP hN r3 r4 r5; omega) (by clear hN r3 r4 r5; omega)
      (by clear hP r3 r4 r5; omega), th1]
  · rw [r6 _ (by clear hP hN r3 r4 r5; omega) (by clear hN r3 r4 r5; omega)
      (by clear hP r3 r4 r5; omega), th2]
  · intro hp
    rw [(r4 hp).1, tb3]
    exact ⟨rfl, (r4 hp).2⟩
  · intro x hx hxp hxn
    rw [r6 x (by clear hP hN hxp hxn r3 r4 r5; omega) hxp hxn,
      rt x (by clear hP hN hxp hxn r3 r4 r5; omega)]

/-- C17. Explicit variant, split (A = 8, `need = roundup r A`). On a heap whose free
list is well formed (`FreeList`), with `cur` the first list node whose size `c` is at
least `need` and `c ≥ need + 3 * A`: `mymalloc r` returns `cur`; the header word at
`cur - A` becomes `max need (2 * A)` with the used bit; the word at
`cur + max need (2 * A)` becomes the free header of size `c - max need (2 * A) - A`;
the new block `nb` behind that header carries the `prev` and `next` fields the candidate
had; the head (when the candidate had no predecessor) or the `next` field of the
predecessor, and the `prev` field of the successor, point to `nb`; every other word that
overlaps none of the written ones is unchanged. -/
theorem explicit_malloc_split (s : State) (r cur c : Nat) (pre post : List (Nat × Nat))
    (hs : s.g_heap_start ≠ 0) (hfit : s.g_heap_start + s.g_heap_size ≤ WORD)
    (hr0 : 0 < r) (hr1 : r ≤ s.g_heap_size - ALIGNMENT)
    (hlist : FreeList s s.g_heap_start 0 s.first_free_block (pre ++ (cur, c) :: post))
    (hpre : ∀ b, b ∈ pre → b.2 < roundup r ALIGNMENT)
    (hc : roundup r ALIGNMENT + 24 ≤ c) :
    ∃ s', mymalloc s r = .ok (cur, s') ∧
      s'.g_heap_start = s.g_heap_start ∧ s'.g_heap_size = s.g_heap_size ∧
      read64 s'.mem (cur - 8) = max (roundup r ALIGNMENT) 16 + 1 ∧
      read64 s'.mem (cur + max (roundup r ALIGNMENT) 16) =
        c - max (roundup r ALIGNMENT) 16 - 8 ∧
      read64 s'.mem (cur + max (roundup r ALIGNMENT) 16 + 8) = read64 s.mem cur ∧
      read64 s'.mem (cur + max (roundup r ALIGNMENT) 16 + 8 + 8) = read64 s.mem (cur + 8) ∧
      (read64 s.mem cur = 0 → s'.first_free_block = cur + max (roundup r ALIGNMENT) 16 + 8) ∧
      (read64 s.mem cur ≠ 0 → s'.first_free_block = s.first_free_block ∧
        read64 s'.mem (read64 s.mem cur + 8) = cur + max (roundup r ALIGNMENT) 16 + 8) ∧
      (read64 s.mem (cur + 8) ≠ 0 →
        read64 s'.mem (read64 s.mem (cur + 8)) = cur + max (roundup r ALIGNMENT) 16 + 8) ∧
      ∀ x, (x + 8 ≤ cur - 8 ∨ (cur ≤ x ∧ x + 8 ≤ cur + max (roundup r ALIGNMENT) 16) ∨
          cur + max (roundup r ALIGNMENT) 16 + 8 + 16 ≤ x) →
        (read64 s.mem cur = 0 ∨ x ≤ read64 s.mem cur ∨ read64 s.mem cur + 16 ≤ x) →
        (read64 s.mem (cur + 8) = 0 ∨ x + 8 ≤ read64 s.mem (cur + 8) ∨
          read64 s.mem (cur + 8) + 8 ≤ x) →
        read64 s'.mem x = read64 s.mem x := by
  have hcl : c < WORD := by
    obtain ⟨lo', _, l2, _⟩ := freeList_split s cur c post pre _ _ _ hlist
    simp only [FreeList] at l2
    have := read64_lt s.mem (cur - 8)
    omega
  obtain ⟨f, lo, hm, hlo, hfl, hP, hn8, hrn⟩ :=
    mymalloc_candidate s r cur c pre post hs hfit hr0 hr1 hlist hpre (by omega)
  rw [hm]
  refine mallocLoop_take_split s _ cur c f lo post hs hfit hlo hfl ?_ (by omega) hn8 hc
  rcases hP with ⟨_, h, _⟩ | ⟨_, h⟩
  · exact Or.inl h
  · exact Or.inr h

theorem explicit_malloc_split_witness :
    (∃ s', mymalloc afterInit 32 = .ok (4104, s') ∧
      s'.g_heap_start = afterInit.g_heap_start ∧ s'.g_heap_size = afterInit.g_heap_size ∧
      read64 s'.mem (4104 - 8) = max (roundup 32 ALIGNMENT) 16 + 1 ∧
      read64 s'.mem (4104 + max (roundup 32 ALIGNMENT) 16) =
        80 - max (roundup 32 ALIGNMENT) 16 - 8 ∧
      read64 s'.mem (4104 + max (roundup 32 ALIGNMENT) 16 + 8) = read64 afterInit.mem 4104 ∧
      read64 s'.mem (4104 + max (roundup 32 ALIGNMENT) 16 + 8 + 8) =
        read64 afterInit.mem (4104 + 8) ∧
      (read64 afterInit.mem 4104 = 0 →
        s'.first_free_block = 4104 + max (roundup 32 ALIGNMENT) 16 + 8) ∧
      (read64 afterInit.mem 4104 ≠ 0 → s'.first_free_block = afterInit.first_free_block ∧
        read64 s'.mem (read64 afterInit.mem 4104 + 8) =
          4104 + max (roundup 32 ALIGNMENT) 16 + 8) ∧
      (read64 afterInit.mem (4104 + 8) ≠ 0 →
        read64 s'.mem (read64 afterInit.mem (4104 + 8)) =
          4104 + max (roundup 32 ALIGNMENT) 16 + 8) ∧
      ∀ x, (x + 8 ≤ 4104 - 8 ∨ (4104 ≤ x ∧ x + 8 ≤ 4104 + max (roundup 32 ALIGNMENT) 16) ∨
          4104 + max (roundup 32 ALIGNMENT) 16 + 8 + 16 ≤ x) →
        (read64 afterInit.mem 4104 = 0 ∨ x ≤ read64 afterInit.mem 4104 ∨
          read64 afterInit.mem 4104 + 16 ≤ x) →
        (read64 afterInit.mem (4104 + 8) = 0 ∨ x + 8 ≤ read64 afterInit.mem (4104 + 8) ∨
          read64 afterInit.mem (4104 + 8) + 8 ≤ x) →
        read64 s'.mem x = read64 afterInit.mem x) ∧
      blocks afterMalloc32 = .ok [(4104, 32, true), (4144, 40, false)] ∧
      afterMalloc32.first_free_block = 4144 ∧
      getPrev afterMalloc32 4144 = .ok 0 ∧ getNext afterMalloc32 4144 = .ok 0 :=
  ⟨explicit_malloc_split afterInit 32 4104 80 [] [] (by decide) (by decide) (by decide)
    (by decide) ⟨by rfl, by decide, by decide, by decide, by decide, by rfl, by rfl, by rfl⟩
    (fun _ h => nomatch h) (by decide), by rfl, by rfl, by rfl, by rfl⟩

/-- Unlinking: if `t` agrees with `s` below the candidate's header except for the `next`
field of the candidate's predecessor, which now holds `N`, and the part of the list
behind the candidate is a free list of `t` from `N` whose `prev` is the candidate's
predecessor, then the list of `t` is the list of `s` without the candidate. -/
theorem freeList_unlink (s t : State) (cur c N : Nat) (post : List (Nat × Nat))
    (hb : t.g_heap_start + t.g_heap_size = s.g_heap_start + s.g_heap_size)
    (hlow : ∀ x, x + 8 ≤ cur - 8 →
      (read64 s.mem cur = 0 ∨ x ≤ read64 s.mem cur ∨ read64 s.mem cur + 16 ≤ x) →
      read64 t.mem x = read64 s.mem x)
    (hP : read64 s.mem cur ≠ 0 → read64 t.mem (read64 s.mem cur + 8) = N)
    (hpost : FreeList t (cur + c) (read64 s.mem cur) N post) (pre : List (Nat × Nat)) :
    ∀ (lo prev a : Nat), FreeList s lo prev a (pre ++ (cur, c) :: post) →
      FreeList t lo prev (if pre = [] then N else a) (pre ++ post) := by
  induction pre with
  | nil =>
    intro lo prev a h
    simp only [List.nil_append, FreeList] at h
    obtain ⟨_, h2, _, _, _, _, h7, _⟩ := h
    simp only [List.nil_append, if_true]
    rw [h7] at hpost
    exact freeList_weaken t post _ lo _ _ hpost (by omega)
  | cons b pre ih =>
    intro lo prev a h
    obtain ⟨n, c'⟩ := b
    have ih' := ih
    simp only [List.cons_append, FreeList] at h
    obtain ⟨h1, h2, h3, h4, h5, h6, h7, h8⟩ := h
    obtain ⟨lo', i1, i2, i3⟩ := freeList_split s cur c post pre _ _ _ h8
    have i2' := i2
    simp only [FreeList] at i2'
    have hcur : n + c' + 8 ≤ cur := by omega
    have hPn : n ≤ read64 s.mem cur := by
      rcases i3 with ⟨_, e, _, _⟩ | ⟨_, e1, e2, _⟩ <;> omega
    have hih := ih _ _ _ h8
    simp only [List.cons_append, FreeList, if_neg (List.cons_ne_nil _ _)]
    refine ⟨h1, h2, by omega, h4, h5, ?_, ?_, ?_⟩
    · rw [hlow _ (by omega) (by omega)]; exact h6
    · rw [hlow _ (by omega) (by omega)]; exact h7
    · rcases i3 with ⟨e0, e, e2, _⟩ | ⟨e0, e1, e2, _⟩
      · rw [if_pos e0] at hih
        have : read64 t.mem (n + 8) = N := by
          have := hP (by omega)
          rw [e] at this
          exact this
        rw [this]
        exact hih
      · rw [if_neg e0] at hih
        rw [hlow _ (by omega) (by omega)]
        exact hih

/-- One iteration of the scan at a fitting node that is taken whole. -/
theorem mallocLoop_take_whole (s : State) (need cur c f lo : Nat) (post : List (Nat × Nat))
    (hs : s.g_heap_start ≠ 0) (hfit : s.g_heap_start + s.g_heap_size ≤ WORD)
    (hlo : s.g_heap_start ≤ lo)
    (hfl : FreeList s lo (read64 s.mem cur) cur ((cur, c) :: post))
    (hP : read64 s.mem cur = 0 ∨
      (s.g_heap_start + 8 ≤ read64 s.mem cur ∧ read64 s.mem cur + 16 ≤ lo))
    (hnc : need ≤ c) (hc : c < need + 24) (hov : need + 24 < WORD) :
    ∃ s', mallocLoop s need (need + 24) (f + 1) cur = .ok (cur, s') ∧
      s'.g_heap_start = s.g_heap_start ∧ s'.g_heap_size = s.g_heap_size ∧
      read64 s'.mem (cur - 8) = c + 1 ∧
      (read64 s.mem cur = 0 → s'.first_free_block = read64 s.mem (cur + 8)) ∧
      (read64 s.mem cur ≠ 0 → s'.first_free_block = s.first_free_block ∧
        read64 s'.mem (read64 s.mem cur + 8) = read64 s.mem (cur + 8)) ∧
      FreeList s' (cur + c) (read64 s.mem cur) (read64 s.mem (cur + 8)) post ∧
      ∀ x, (x + 8 ≤ cur - 8 ∨ cur ≤ x) →
        (read64 s.mem cur = 0 ∨ x ≤ read64 s.mem cur ∨ read64 s.mem cur + 16 ≤ x) →
        (read64 s.mem (cur + 8) = 0 ∨ x + 8 ≤ read64 s.mem (cur + 8) ∨
          read64 s.mem (cur + 8) + 8 ≤ x) →
        read64 s'.mem x = read64 s.mem x := by
  simp only [FreeList] at hfl
  obtain ⟨_, h2, h3, h4, h5, h6, _, h8⟩ := hfl
  obtain ⟨t, htd⟩ : ∃ t : State, t = { s with mem := write64 s.mem (cur - 8) (c + 1) } :=
    ⟨_, rfl⟩
  have tb1 : t.g_heap_start = s.g_heap_start := by rw [htd]
  have tb2 : t.g_heap_size = s.g_heap_size := by rw [htd]
  have tb3 : t.first_free_block = s.first_free_block := by rw [htd]
  have hcl : c < WORD := h6 ▸ read64_lt _ _
  have hNl : read64 s.mem (cur + 8) < WORD := read64_lt _ _
  have rt : ∀ x, (x + 8 ≤ cur - 8 ∨ cur ≤ x) → read64 t.mem x = read64 s.mem x := by
    intro x hx
    rw [htd]
    show read64 (write64 s.mem (cur - 8) (c + 1)) x = _
    rw [read64_write64_other _ _ _ _ (by omega)]
  have th1 : read64 t.mem (cur - 8) = c + 1 := by
    rw [htd]
    show read64 (write64 s.mem (cur - 8) (c + 1)) _ = _
    rw [read64_write64_same, Nat.mod_eq_of_lt (by omega)]
  have eP : read64 t.mem cur = read64 s.mem cur := rt cur (by omega)
  have eN : read64 t.mem (cur + 8) = read64 s.mem (cur + 8) := rt (cur + 8) (by omega)
  have hN : read64 t.mem (cur + 8) = 0 ∨
      (cur + 16 ≤ read64 t.mem (cur + 8) ∧
        read64 t.mem (cur + 8) + 16 ≤ t.g_heap_start + t.g_heap_size ∧
        (read64 t.mem (read64 t.mem (cur + 8) + 8) = 0 ∨
          (read64 t.mem (cur + 8) + 16 ≤ read64 t.mem (read64 t.mem (cur + 8) + 8) ∧
            read64 t.mem (read64 t.mem (cur + 8) + 8) + 8 ≤ t.g_heap_start + t.g_heap_size ∧
            read64 t.mem (read64 t.mem (read64 t.mem (cur + 8) + 8)) =
              read64 t.mem (cur + 8)))) := by
    rw [eN, tb1, tb2]
    cases post with
    | nil => simp only [FreeList] at h8; exact Or.inl h8
    | cons b post =>
      obtain ⟨n, cn⟩ := b
      simp only [FreeList] at h8
      obtain ⟨g1, g2, g3, g4, g5, g6, g7, g8⟩ := h8
      right
      rw [g1]
      rw [rt (n + 8) (by omega)]
      refine ⟨by omega, by omega, ?_⟩
      cases post with
      | nil => simp only [FreeList] at g8; exact Or.inl g8
      | cons b2 post =>
        obtain ⟨n2, c2⟩ := b2
        simp only [FreeList] at g8
        obtain ⟨k1, k2, k3, k4, k5, k6, k7, k8⟩ := g8
        right
        rw [k1, rt n2 (by omega)]
        exact ⟨by omega, by omega, k7⟩
  have hNs : read64 s.mem (cur + 8) = 0 ∨ cur + c + 8 ≤ read64 s.mem (cur + 8) := by
    cases post with
    | nil => simp only [FreeList] at h8; exact Or.inl h8
    | cons b post =>
      obtain ⟨n, cn⟩ := b
      simp only [FreeList] at h8
      right; omega
  have hn0 : ¬ (cur = 0) := by omega
  have hh : sub64 cur HEADER_SIZE = cur - 8 := by
    unfold sub64 HEADER_SIZE ALIGNMENT WORD at *; omega
  have hnum := explicit_header_num_ok s (cur - 8) c 0 (by omega) (by omega) (by omega)
    (by omega) (by omega) (by omega)
  have hge : c ≥ need := hnc
  have hge2 : ¬ (c ≥ need + 24) := by omega
  have hup := updatedHeader_whole s need c cur hs hfit (by omega) h3 hc hnc hov
  rw [← htd] at hup
  obtain ⟨t', ht, b1, b2, r3, r4, r5, r6⟩ :=
    rewireNoAdd_spec t cur (by rw [tb1]; exact hs) (by rw [tb1, tb2]; exact hfit)
      (by rw [tb1]; omega) (by rw [tb1, tb2]; omega)
      (by rw [eP, tb1]; omega) hN
  rw [eP] at r3 r4 r5 r6
  rw [eN] at r3 r4 r5 r6
  refine ⟨t', ?_, by rw [b1, tb1], by rw [b2, tb2], ?_, r3, ?_, ?_, ?_⟩
  · rw [mallocLoop, if_neg hn0]
    dsimp only
    rw [hh, hnum, Implicit.bind_ok, if_pos hge, hup, Implicit.bind_ok]
    dsimp only
    rw [if_neg hge2, ht, Implicit.bind_ok]
    rfl
  · rw [r6 _ (by clear hN r3 r4 r5; omega) (by clear hN r3 r4 r5; omega), th1]
  · intro hp
    rw [(r4 hp).1, tb3]
    exact ⟨rfl, (r4 hp).2⟩
  · cases post with
    | nil => simp only [FreeList] at h8 ⊢; exact h8
    | cons b post =>
      obtain ⟨n, cn⟩ := b
      simp only [FreeList] at h8 ⊢
      obtain ⟨g1, g2, g3, g4, g5, g6, g7, g8⟩ := h8
      rw [g1] at r5 r6
      have q1 : read64 t'.mem (n - 8) = cn := by
        rw [r6 _ (by clear hN r3 r4 r5; omega) (by clear hN r3 r4 r5; omega), rt _ (by clear hN r3 r4 r5; omega)]; exact g6
      have q2 : read64 t'.mem (n + 8) = read64 s.mem (n + 8) := by
        rw [r6 _ (by clear hN r3 r4 r5; omega) (by clear hN r3 r4 r5; omega), rt _ (by clear hN r3 r4 r5; omega)]
      refine ⟨g1, g2, by rw [b1, b2, tb1, tb2]; exact g3, g4, g5, q1, r5 (by clear hN r3 r4 r5; omega), ?_⟩
      rw [q2]
      refine freeList_frame s t' post _ _ _ g8 (by rw [b1, b2, tb1, tb2]) ?_
      intro x hx
      rw [r6 _ (by clear hN r3 r4 r5; omega) (by clear hN r3 r4 r5; omega), rt _ (by clear hN r3 r4 r5; omega)]
  · intro x hx hxp hxn
    rw [r6 x hxp hxn, rt x hx]

/-- C18. Explicit variant, no split (A = 8, `need = roundup r A`). On a heap whose free
list is well formed (`FreeList`) with nodes `pre ++ (cur, c) :: post`, where `cur` is the
first node whose size `c` is at least `need` and `c < need + 3 * A`: `mymalloc r` returns
`cur`, the header word at `cur - A` becomes `c` with the used bit, no word from `cur` up
to and including the header that follows the block changes, and the free list of the new
state, followed from its head, is well formed with exactly the nodes `pre ++ post`. -/
theorem explicit_malloc_whole (s : State) (r cur c : Nat) (pre post : List (Nat × Nat))
    (hs : 16 ≤ s.g_heap_start) (hfit : s.g_heap_start + s.g_heap_size ≤ WORD)
    (hr0 : 0 < r) (hr1 : r ≤ s.g_heap_size - ALIGNMENT)
    (hlist : FreeList s s.g_heap_start 0 s.first_free_block (pre ++ (cur, c) :: post))
    (hpre : ∀ b, b ∈ pre → b.2 < roundup r ALIGNMENT)
    (hc1 : roundup r ALIGNMENT ≤ c) (hc2 : c < roundup r ALIGNMENT + 24) :
    ∃ s', mymalloc s r = .ok (cur, s') ∧
      s'.g_heap_start = s.g_heap_start ∧ s'.g_heap_size = s.g_heap_size ∧
      read64 s'.mem (cur - 8) = c + 1 ∧
      (∀ x, cur ≤ x → x ≤ cur + c → read64 s'.mem x = read64 s.mem x) ∧
      FreeList s' s.g_heap_start 0 s'.first_free_block (pre ++ post) := by
  obtain ⟨lo0, l0, l2, l3⟩ := freeList_split s cur c post pre _ _ _ hlist
  have l2' := l2
  simp only [FreeList] at l2'
  obtain ⟨_, k2, k3, k4, k5, k6, _, k8⟩ := l2'
  have hov : roundup r ALIGNMENT + 24 < WORD := by omega
  obtain ⟨f, lo, hm, hlo, hfl, hP, hn8, hrn⟩ :=
    mymalloc_candidate s r cur c pre post (by omega) hfit hr0 hr1 hlist hpre hov
  have hP' : read64 s.mem cur = 0 ∨
      (s.g_heap_start + 8 ≤ read64 s.mem cur ∧ read64 s.mem cur + 16 ≤ lo) := by
    rcases hP with ⟨_, h, _⟩ | ⟨_, h⟩
    · exact Or.inl h
    · exact Or.inr h
  have hfl' := hfl
  simp only [FreeList] at hfl'
  have hNs : read64 s.mem (cur + 8) = 0 ∨ cur + c + 8 ≤ read64 s.mem (cur + 8) := by
    cases post with
    | nil => simp only [FreeList] at k8; exact Or.inl k8
    | cons b post =>
      obtain ⟨n, cn⟩ := b
      simp only [FreeList] at k8
      right; omega
  obtain ⟨s', e, b1, b2, w1, w3, w4, w5, w6⟩ :=
    mallocLoop_take_whole s _ cur c f lo post (by omega) hfit hlo hfl hP' hc1 hc2 hov
  rw [hm]
  refine ⟨s', e, b1, b2, w1, ?_, ?_⟩
  · intro x hx1 hx2
    exact w6 x (by omega) (by omega) (by omega)
  · have hu := freeList_unlink s s' cur c (read64 s.mem (cur + 8)) post (by rw [b1, b2])
      (fun x hx hxp => w6 x (by omega) hxp (by omega)) (fun hp => (w4 hp).2) w5 pre _ _ _ hlist
    rcases hP with ⟨e0, h, _⟩ | ⟨e0, h⟩
    · rw [if_pos e0] at hu
      rw [w3 h]
      exact hu
    · rw [if_neg e0] at hu
      rw [(w4 (by omega)).1]
      exact hu

theorem explicit_malloc_whole_witness :
    (∃ s', mymalloc afterInit 64 = .ok (4104, s') ∧
      s'.g_heap_start = afterInit.g_heap_start ∧ s'.g_heap_size = afterInit.g_heap_size ∧
      read64 s'.mem (4104 - 8) = 80 + 1 ∧
      (∀ x, 4104 ≤ x → x ≤ 4104 + 80 → read64 s'.mem x = read64 afterInit.mem x) ∧
      FreeList s' afterInit.g_heap_start 0 s'.first_free_block ([] ++ [])) ∧
      roundup 64 ALIGNMENT = 64 :=
  ⟨explicit_malloc_whole afterInit 64 4104 80 [] [] (by decide) (by decide) (by decide)
    (by decide) ⟨by rfl, by decide, by decide, by decide, by decide, by rfl, by rfl, by rfl⟩
    (fun _ h => nomatch h) (by decide) (by decide), by rfl⟩

/-- C15 (failing input). Explicit variant, 120-byte region at address 4096: after
`a = mymalloc(32); b = mymalloc(16); c = mymalloc(16); myfree(a); myfree(b);
x = mymalloc(8)` the call `y = mymalloc(16)` returns `y = 4144`, and the header word at
`y - 8` is `4168`: its used bit is 0 and its size field is not the size of a block. -/
theorem explicit_malloc_header_clobbered :
    clobberedHeaderRun = .ok (4144, 4168, false) := by rfl

/-- C19 (failing input). Explicit variant, 48-byte region at address 4096: after
`mymalloc(8)` the free-list head is `4128` and its header is free with size 8, so its
`next` field occupies the last 8 bytes of the region, where the end header is. -/
theorem explicit_small_free_block :
    smallRemainderRun = .ok (4104, 4128, 8, false) ∧ 4128 + 8 + 8 = 4096 + 48 :=
  ⟨by rfl, by rfl⟩

/-- C20 (failing input). Explicit variant, 48-byte region at address 4096: the word in
the last 8 bytes of the region is 1 (size 0, used) after `myinit` and 0 after
`mymalloc(8)`. -/
theorem explicit_end_header_overwritten : endHeaderRun = .ok (1, 0) := by rfl

end Explicit

namespace Implicit

/-- A second `myfree` of the same pointer changes nothing. -/
theorem myfree_idem (s : State) (p : Nat) (hbytes : ∀ x, s.mem x < 256)
    (hp : p = 0 ∨ (s.g_heap_start ≠ 0 ∧ s.g_heap_start + 8 ≤ p ∧
      p ≤ s.g_heap_start + s.g_heap_size ∧ s.g_heap_start + s.g_heap_size ≤ WORD)) :
    ∃ s1, myfree s p = .ok s1 ∧ myfree s1 p = .ok s1 := by
  rcases hp with h0 | ⟨hs, hlo, hhi, hfit⟩
  · exact ⟨s, by simp [myfree, h0, pure_ok], by simp [myfree, h0, pure_ok]⟩
  · have hp0 : ¬ (p = 0) := by omega
    have hh : sub64 p ALIGNMENT = p - 8 := by unfold sub64 ALIGNMENT WORD at *; omega
    obtain ⟨s1, hs1⟩ : ∃ s1 : State, s1 = { s with
        mem :=
          write64 (write64 s.mem (p - 8) (read64 s.mem (p - 8) >>> 1)) (p - 8)
            ((read64 (write64 s.mem (p - 8) (read64 s.mem (p - 8) >>> 1)) (p - 8) <<< 1) %
              WORD) } := ⟨_, rfl⟩
    have e1 : myfree s p = .ok s1 := by
      unfold myfree toggle_free
      rw [if_neg hp0, hh, load_ok s _ (by omega) (by omega) (by omega), bind_ok,
        store_ok s _ _ (by omega) (by omega) (by omega), bind_ok,
        load_ok _ (p - 8) (by omega) (by show s.g_heap_start ≤ _; omega)
          (by show _ ≤ s.g_heap_start + s.g_heap_size; omega), bind_ok,
        store_ok _ (p - 8) _ (by omega) (by show s.g_heap_start ≤ _; omega)
          (by show _ ≤ s.g_heap_start + s.g_heap_size; omega), hs1]
    refine ⟨s1, e1, myfree_free_header s1 p ?_ (Or.inr ⟨?_, ?_, ?_, ?_, ?_⟩)⟩
    · intro x
      rw [hs1]
      exact write64_byte _ _ _ (fun y => write64_byte _ _ _ hbytes y) x
    · rw [hs1]; exact hs
    · rw [hs1]; exact hlo
    · rw [hs1]; exact hhi
    · rw [hs1]; exact hfit
    · rw [hs1]
      show read64 (write64 _ (p - 8) _) (p - 8) % 2 = 0
      rw [read64_write64_same, Nat.mod_mod, Nat.shiftLeft_eq]
      unfold WORD
      omega

end Implicit

/-- C11. In both variants `myfree` of the null pointer, and of a pointer whose header
(inside the region) has used bit 0, returns with the allocator state it was given:
every byte of the region, the bounds and the free-list head are unchanged. In the
implicit variant a second `myfree` of any pointer `p2` with its header inside the region
returns the state left by the first. Memory cells hold bytes (values below 256). -/
theorem myfree_noop (si : Implicit.State) (se : Explicit.State) (p q p2 : Nat)
    (hbytes : ∀ x, si.mem x < 256)
    (hp : p = 0 ∨ (si.g_heap_start ≠ 0 ∧ si.g_heap_start + 8 ≤ p ∧
      p ≤ si.g_heap_start + si.g_heap_size ∧ si.g_heap_start + si.g_heap_size ≤ WORD ∧
      read64 si.mem (p - 8) % 2 = 0))
    (hq : q = 0 ∨ (se.g_heap_start ≠ 0 ∧ se.g_heap_start + 8 ≤ q ∧
      q ≤ se.g_heap_start + se.g_heap_size ∧ se.g_heap_start + se.g_heap_size ≤ WORD ∧
      read64 se.mem (q - 8) % 2 = 0))
    (hp2 : p2 = 0 ∨ (si.g_heap_start ≠ 0 ∧ si.g_heap_start + 8 ≤ p2 ∧
      p2 ≤ si.g_heap_start + si.g_heap_size ∧ si.g_heap_start + si.g_heap_size ≤ WORD)) :
    Implicit.myfree si p = .ok si ∧ Explicit.myfree se q = .ok se ∧
      ∃ s1, Implicit.myfree si p2 = .ok s1 ∧ Implicit.myfree s1 p2 = .ok s1 :=
  ⟨Implicit.myfree_free_header si p hbytes hp, Explicit.explicit_myfree_free_header se q hq,
    Implicit.myfree_idem si p2 hbytes hp2⟩

theorem myfree_noop_witness :
    (Implicit.myfree Implicit.afterMalloc 4144 = .ok Implicit.afterMalloc ∧
      Explicit.myfree Explicit.afterMalloc32 4144 = .ok Explicit.afterMalloc32 ∧
      ∃ s1, Implicit.myfree Implicit.afterMalloc 4104 = .ok s1 ∧
        Implicit.myfree s1 4104 = .ok s1) ∧
      (Explicit.myfree Explicit.afterMalloc32 4104).toBool = true ∧
      (Explicit.myfree Explicit.afterMalloc32 4104 >>= fun s1 => Explicit.myfree s1 4104) =
        Explicit.myfree Explicit.afterMalloc32 4104 :=
  ⟨myfree_noop Implicit.afterMalloc Explicit.afterMalloc32 4144 4144 4104
    (fun x => write64_byte _ _ _ (fun y => write64_byte _ _ _ (fun z =>
      write64_byte _ _ _ (fun u => write64_byte _ _ _ (fun _ => by decide) u) z) y) x)
    (Or.inr ⟨by decide, by decide, by decide, by decide, by rfl⟩)
    (Or.inr ⟨by decide, by decide, by decide, by decide, by rfl⟩)
    (Or.inr ⟨by decide, by decide, by decide, by decide⟩), by rfl, by rfl⟩

/-- C12. In both variants `myrealloc(NULL, n)` is `mymalloc(n)`: same returned pointer,
same resulting state, for every state and every `n`. -/
theorem realloc_null_is_malloc (si : Implicit.State) (se : Explicit.State) (n : Nat) :
    Implicit.myrealloc si 0 n = Implicit.mymalloc si n ∧
      Explicit.myrealloc se 0 n = Explicit.mymalloc se n := by
  constructor
  · unfold Implicit.myrealloc
    rw [if_pos rfl]
    cases h : Implicit.mymalloc si n with
    | error e => rfl
    | ok r =>
      obtain ⟨p, s1⟩ := r
      show Except.ok (if p ≠ 0 then p else 0, s1) = _
      by_cases hp : p = 0 <;> simp [hp]
  · unfold Explicit.myrealloc
    rw [if_pos rfl]
    cases h : Explicit.mymalloc se n with
    | error e => rfl
    | ok r =>
      obtain ⟨p, s1⟩ := r
      show Except.ok (if p ≠ 0 then p else 0, s1) = _
      by_cases hp : p = 0 <;> simp [hp]

/-- C13. In both variants `myrealloc(p, 0)` with `p` non-null returns null and the
allocator state is the one before the call. -/
theorem realloc_zero_size (si : Implicit.State) (se : Explicit.State) (p : Nat) (hp : p ≠ 0) :
    Implicit.myrealloc si p 0 = .ok (0, si) ∧ Explicit.myrealloc se p 0 = .ok (0, se) := by
  constructor
  · unfold Implicit.myrealloc
    rw [if_neg hp, if_pos rfl]
    rfl
  · unfold Explicit.myrealloc
    rw [if_neg hp, if_pos rfl]
    rfl

theorem realloc_zero_size_witness :
    Implicit.myrealloc Implicit.afterMalloc 4104 0 = .ok (0, Implicit.afterMalloc) ∧
      Explicit.myrealloc Explicit.afterMalloc32 4104 0 = .ok (0, Explicit.afterMalloc32) :=
  realloc_zero_size Implicit.afterMalloc Explicit.afterMalloc32 4104 (by decide)

theorem land_mask1 (x : Nat) (hx : x < WORD) : x &&& (WORD - 2) = x / 2 * 2 := by
  apply Nat.eq_of_testBit_eq
  intro i
  have e1 : WORD - 2 = 2 ^ 1 * (2 ^ 63 - 1) := by norm_num [WORD]
  have e2 : x / 2 * 2 = 2 ^ 1 * (x >>> 1) := by
    rw [Nat.shiftRight_eq_div_pow]; norm_num [Nat.mul_comm]
  rw [Nat.testBit_and, e1, e2, Nat.testBit_mul_pow_two, Nat.testBit_mul_pow_two,
    Nat.testBit_two_pow_sub_one, Nat.testBit_shiftRight]
  by_cases h1 : i ≥ 1
  · by_cases h64 : i < 64
    · have : i - 1 < 63 := by omega
      have e : 1 + (i - 1) = i := by omega
      simp [h1, this, e]
    · have hlt : x < 2 ^ i := by
        have : 2 ^ 64 ≤ 2 ^ i := Nat.pow_le_pow_right (by norm_num) (by omega)
        have hw : WORD = 2 ^ 64 := by norm_num [WORD]
        omega
      have e : 1 + (i - 1) = i := by omega
      simp [Nat.testBit_lt_two_pow hlt, e]
  · simp [h1]

theorem shift_clear_low (x : Nat) : (x >>> 1) <<< 1 = x / 2 * 2 := by
  rw [Nat.shiftLeft_eq, Nat.shiftRight_eq_div_pow]

theorem lor_status (size status : Nat) (h2 : size % 2 = 0) (hst : status ≤ 1) :
    size ||| status = size + status := by
  have e : size = 2 ^ 1 * (size / 2) := by omega
  have := Nat.mul_add_lt_is_or (show status < 2 ^ 1 by omega) (size / 2)
  rw [← e] at this
  exact this.symm

theorem decode_word (W : Nat) (hW : W < WORD) :
    (W &&& 1 != 0) = decide (W &&& 1 = 1) ∧
      (if (decide (W &&& 1 = 1)) = true then sub64 W 1 else W) = W &&& (WORD - 2) := by
  rw [land_mask1 W hW, Nat.and_one_is_mod]
  have h : W % 2 = 0 ∨ W % 2 = 1 := by omega
  rcases h with h | h
  · simp [h]; omega
  · simp [h]; unfold sub64 WORD at *; omega

theorem encode_decode (size status : Nat) (h8 : size % 8 = 0) (hst : status ≤ 1)
    (hlt : size + status < WORD) :
    decide ((size + status) &&& 1 = 1) = decide (status = 1) ∧
      (size + status) &&& (WORD - 2) = size := by
  rw [land_mask1 _ hlt, Nat.and_one_is_mod]
  have h : status = 0 ∨ status = 1 := by omega
  rcases h with h | h
  · subst h
    have : ¬ (size % 2 = 1) := by omega
    simp [this]; omega
  · subst h
    have : (size + 1) % 2 = 1 := by omega
    simp [this]; omega

namespace Implicit

theorem is_used_word (s : State) (a : Nat) (h0 : a ≠ 0) (h1 : s.g_heap_start ≤ a)
    (h2 : a + 8 ≤ s.g_heap_start + s.g_heap_size) :
    is_used s a = .ok (decide (read64 s.mem a &&& 1 = 1)) := by
  simp only [is_used, load_ok s a h0 h1 h2, Implicit.bind_ok, Implicit.pure_ok,
    (decode_word _ (read64_lt s.mem a)).1]

theorem header_num_word (s : State) (a : Nat) (h0 : a ≠ 0) (h1 : s.g_heap_start ≤ a)
    (h2 : a + 8 ≤ s.g_heap_start + s.g_heap_size) :
    header_num s a = .ok (read64 s.mem a &&& (WORD - 2)) := by
  have hd := decode_word _ (read64_lt s.mem a)
  simp only [header_num, is_used, load_ok s a h0 h1 h2, Implicit.bind_ok, Implicit.pure_ok]
  rw [hd.1, hd.2]

theorem create_header_decode (s : State) (a size status : Nat) (h0 : a ≠ 0)
    (h1 : s.g_heap_start ≤ a) (h2 : a + 8 ≤ s.g_heap_start + s.g_heap_size)
    (h8 : size % 8 = 0) (hst : status ≤ 1) (hlt : size + status < WORD) :
    ∃ s', create_header size a status s = .ok s' ∧
      is_used s' a = .ok (decide (status = 1)) ∧ header_num s' a = .ok size := by
  have hw : read64 (write64 s.mem a (size + status)) a = size + status := by
    rw [read64_write64_same, Nat.mod_eq_of_lt hlt]
  have hd := encode_decode size status h8 hst hlt
  refine ⟨{ s with mem := write64 s.mem a (size + status) }, ?_, ?_, ?_⟩
  · rw [create_header, add64_eq _ _ hlt, store_ok s a _ h0 h1 h2]
  · rw [is_used_word { s with mem := write64 s.mem a (size + status) } a h0 h1 h2]
    show Except.ok (decide (read64 (write64 s.mem a (size + status)) a &&& 1 = 1)) = _
    rw [hw, hd.1]
  · rw [header_num_word { s with mem := write64 s.mem a (size + status) } a h0 h1 h2]
    show Except.ok (read64 (write64 s.mem a (size + status)) a &&& (WORD - 2)) = _
    rw [hw, hd.2]

theorem toggle_free_eq (s : State) (a : Nat) (h0 : a ≠ 0) (h1 : s.g_heap_start ≤ a)
    (h2 : a + 8 ≤ s.g_heap_start + s.g_heap_size) :
    toggle_free s a =
      .ok { s with mem := write64 s.mem a ((read64 s.mem a >>> 1) <<< 1) } := by
  have hl := read64_lt s.mem a
  have hv : (read64 (write64 s.mem a (read64 s.mem a >>> 1)) a <<< 1) % WORD =
      (read64 s.mem a >>> 1) <<< 1 := by
    rw [read64_write64_same, Nat.shiftLeft_eq, Nat.shiftLeft_eq, Nat.shiftRight_eq_div_pow]
    unfold WORD at *
    omega
  unfold toggle_free
  rw [load_ok s a h0 h1 h2, Implicit.bind_ok, store_ok s a _ h0 h1 h2, Implicit.bind_ok,
    load_ok _ a h0 (by exact h1) (by exact h2), Implicit.bind_ok,
    store_ok _ a _ h0 (by exact h1) (by exact h2)]
  show Except.ok { s with mem := write64 (write64 s.mem a _) a _ } = _
  rw [hv, write64_write64]

theorem toggle_free_word (s : State) (a : Nat) (h0 : a ≠ 0) (h1 : s.g_heap_start ≤ a)
    (h2 : a + 8 ≤ s.g_heap_start + s.g_heap_size) :
    ∃ s', toggle_free s a = .ok s' ∧
      s' = { s with mem := write64 s.mem a ((read64 s.mem a >>> 1) <<< 1) } ∧
      read64 s'.mem a = read64 s.mem a &&& (WORD - 2) ∧
      is_used s' a = .ok false ∧ header_num s' a = header_num s a ∧
      toggle_free s' a = .ok s' := by
  have hl := read64_lt s.mem a
  have hm := land_mask1 _ hl
  have hsc := shift_clear_low (read64 s.mem a)
  obtain ⟨s', hs'⟩ : ∃ s' : State,
      s' = { s with mem := write64 s.mem a ((read64 s.mem a >>> 1) <<< 1) } := ⟨_, rfl⟩
  have b1 : s.g_heap_start = s'.g_heap_start := by rw [hs']
  have b2 : s.g_heap_size = s'.g_heap_size := by rw [hs']
  have hw : read64 s'.mem a = read64 s.mem a &&& (WORD - 2) := by
    rw [hs']
    show read64 (write64 s.mem a _) a = _
    rw [read64_write64_same, hsc, hm, Nat.mod_eq_of_lt (by omega)]
  have hrun := toggle_free_eq s a h0 h1 h2
  rw [← hs'] at hrun
  refine ⟨s', hrun, hs', hw, ?_, ?_, ?_⟩
  · rw [is_used_word s' a h0 (b1 ▸ h1) (b1 ▸ b2 ▸ h2), hw, hm, Nat.and_one_is_mod]
    have : ¬ (read64 s.mem a / 2 * 2 % 2 = 1) := by omega
    simp [this]
  · rw [header_num_word s' a h0 (b1 ▸ h1) (b1 ▸ b2 ▸ h2),
      header_num_word s a h0 h1 h2, hw, hm, land_mask1 _ (by omega)]
    have e : read64 s.mem a / 2 * 2 / 2 * 2 = read64 s.mem a / 2 * 2 := by omega
    rw [e]
  · rw [toggle_free_eq s' a h0 (b1 ▸ h1) (b1 ▸ b2 ▸ h2), hw, hm, shift_clear_low]
    have e : read64 s.mem a / 2 * 2 / 2 * 2 = read64 s.mem a / 2 * 2 := by omega
    rw [e, hsc] at *
    rw [hs']
    show Except.ok ({ s with
      mem := write64 (write64 s.mem a (read64 s.mem a / 2 * 2)) a (read64 s.mem a / 2 * 2) } :
        State) = _
    rw [write64_write64]

/-- C26 (failing input). Implicit variant, 96-byte region at address 4096. After
`a = mymalloc(56); p = mymalloc(16); myfree(a)` the block of `p` is the last one
(`p = 4168`, 16 bytes) and `mymalloc(32)` would return `4104`; `myrealloc(p, 32)` passes
32 bytes, not `min(16, 32)`, to `memmove`, which reads up to address `4200`, past the end
of the region at `4192`. After `p = mymalloc(8); q = myrealloc(p, 24)` the second word of
the payload of `q` equals the word at `p + 8`, which is the header of the block of `q`:
bytes behind the 8-byte payload of `p` were copied. -/
theorem implicit_realloc_overread :
    overreadSetupRun = .ok (4104, 4168, 4104) ∧ overreadRun = .error .fault ∧
      copiedHeaderRun = .ok (4104, 4120, 25, 25) :=
  ⟨by rfl, by rfl, by rfl⟩

end Implicit

namespace Explicit

theorem explicit_is_used_word (s : State) (a : Nat) (h0 : a ≠ 0) (h1 : s.g_heap_start ≤ a)
    (h2 : a + 8 ≤ s.g_heap_start + s.g_heap_size) :
    is_used s a = .ok (decide (read64 s.mem a &&& 1 = 1)) := by
  simp only [is_used, explicit_load_ok s a h0 h1 h2, Implicit.bind_ok, Implicit.pure_ok,
    (decode_word _ (read64_lt s.mem a)).1]

theorem explicit_header_num_word (s : State) (a : Nat) (h0 : a ≠ 0) (h1 : s.g_heap_start ≤ a)
    (h2 : a + 8 ≤ s.g_heap_start + s.g_heap_size) :
    header_num s a = .ok (read64 s.mem a &&& (WORD - 2)) := by
  have hd := decode_word _ (read64_lt s.mem a)
  simp only [header_num, is_used, explicit_load_ok s a h0 h1 h2, Implicit.bind_ok, Implicit.pure_ok]
  rw [hd.1, hd.2]

theorem explicit_create_header_decode (s : State) (a size status : Nat) (h0 : a ≠ 0)
    (h1 : s.g_heap_start ≤ a) (h2 : a + 8 ≤ s.g_heap_start + s.g_heap_size)
    (h8 : size % 8 = 0) (hst : status ≤ 1) (hlt : size + status < WORD) :
    ∃ s', create_header size a status s = .ok s' ∧
      is_used s' a = .ok (decide (status = 1)) ∧ header_num s' a = .ok size := by
  have hw : read64 (write64 s.mem a (size + status)) a = size + status := by
    rw [read64_write64_same, Nat.mod_eq_of_lt hlt]
  have hd := encode_decode size status h8 hst hlt
  refine ⟨{ s with mem := write64 s.mem a (size + status) }, ?_, ?_, ?_⟩
  · rw [create_header, add64_eq _ _ hlt, explicit_store_ok s a _ h0 h1 h2]
  · rw [explicit_is_used_word { s with mem := write64 s.mem a (size + status) } a h0 h1 h2]
    show Except.ok (decide (read64 (write64 s.mem a (size + status)) a &&& 1 = 1)) = _
    rw [hw, hd.1]
  · rw [explicit_header_num_word { s with mem := write64 s.mem a (size + status) } a h0 h1 h2]
    show Except.ok (read64 (write64 s.mem a (size + status)) a &&& (WORD - 2)) = _
    rw [hw, hd.2]

theorem explicit_toggle_free_eq (s : State) (a : Nat) (h0 : a ≠ 0) (h1 : s.g_heap_start ≤ a)
    (h2 : a + 8 ≤ s.g_heap_start + s.g_heap_size) :
    toggle_free s a =
      .ok { s with mem := write64 s.mem a ((read64 s.mem a >>> 1) <<< 1) } := by
  have hl := read64_lt s.mem a
  have hv : (read64 (write64 s.mem a (read64 s.mem a >>> 1)) a <<< 1) % WORD =
      (read64 s.mem a >>> 1) <<< 1 := by
    rw [read64_write64_same, Nat.shiftLeft_eq, Nat.shiftLeft_eq, Nat.shiftRight_eq_div_pow]
    unfold WORD at *
    omega
  unfold toggle_free
  rw [explicit_load_ok s a h0 h1 h2, Implicit.bind_ok, explicit_store_ok s a _ h0 h1 h2, Implicit.bind_ok,
    explicit_load_ok _ a h0 (by exact h1) (by exact h2), Implicit.bind_ok,
    explicit_store_ok _ a _ h0 (by exact h1) (by exact h2)]
  show Except.ok { s with mem := write64 (write64 s.mem a _) a _ } = _
  rw [hv, write64_write64]

theorem explicit_toggle_free_word (s : State) (a : Nat) (h0 : a ≠ 0) (h1 : s.g_heap_start ≤ a)
    (h2 : a + 8 ≤ s.g_heap_start + s.g_heap_size) :
    ∃ s', toggle_free s a = .ok s' ∧
      s' = { s with mem := write64 s.mem a ((read64 s.mem a >>> 1) <<< 1) } ∧
      read64 s'.mem a = read64 s.mem a &&& (WORD - 2) ∧
      is_used s' a = .ok false ∧ header_num s' a = header_num s a ∧
      toggle_free s' a = .ok s' := by
  have hl := read64_lt s.mem a
  have hm := land_mask1 _ hl
  have hsc := shift_clear_low (read64 s.mem a)
  obtain ⟨s', hs'⟩ : ∃ s' : State,
      s' = { s with mem := write64 s.mem a ((read64 s.mem a >>> 1) <<< 1) } := ⟨_, rfl⟩
  have b1 : s.g_heap_start = s'.g_heap_start := by rw [hs']
  have b2 : s.g_heap_size = s'.g_heap_size := by rw [hs']
  have hw : read64 s'.mem a = read64 s.mem a &&& (WORD - 2) := by
    rw [hs']
    show read64 (write64 s.mem a _) a = _
    rw [read64_write64_same, hsc, hm, Nat.mod_eq_of_lt (by omega)]
  have hrun := explicit_toggle_free_eq s a h0 h1 h2
  rw [← hs'] at hrun
  refine ⟨s', hrun, hs', hw, ?_, ?_, ?_⟩
  · rw [explicit_is_used_word s' a h0 (b1 ▸ h1) (b1 ▸ b2 ▸ h2), hw, hm, Nat.and_one_is_mod]
    have : ¬ (read64 s.mem a / 2 * 2 % 2 = 1) := by omega
    simp [this]
  · rw [explicit_header_num_word s' a h0 (b1 ▸ h1) (b1 ▸ b2 ▸ h2),
      explicit_header_num_word s a h0 h1 h2, hw, hm, land_mask1 _ (by omega)]
    have e : read64 s.mem a / 2 * 2 / 2 * 2 = read64 s.mem a / 2 * 2 := by omega
    rw [e]
  · rw [explicit_toggle_free_eq s' a h0 (b1 ▸ h1) (b1 ▸ b2 ▸ h2), hw, hm, shift_clear_low]
    have e : read64 s.mem a / 2 * 2 / 2 * 2 = read64 s.mem a / 2 * 2 := by omega
    rw [e, hsc] at *
    rw [hs']
    show Except.ok ({ s with
      mem := write64 (write64 s.mem a (read64 s.mem a / 2 * 2)) a (read64 s.mem a / 2 * 2) } :
        State) = _
    rw [write64_write64]

/-- Effect of `coalesce b1 b2` when `b2` is a list node above `b1` whose neighbours in the
list (if any) lie below `b1` and above `b2`: `b1` gets the `prev` and `next` fields of
`b2`, the head or the `next` field of the predecessor and the `prev` field of the
successor point to `b1`, and every word overlapping none of the written fields keeps its
value. -/
theorem coalesce_spec (s : State) (b1 b2 : Nat) (hs : s.g_heap_start ≠ 0)
    (hfit : s.g_heap_start + s.g_heap_size ≤ WORD)
    (h1 : s.g_heap_start ≤ b1) (h12 : b1 + 16 ≤ b2)
    (h2 : b2 + 16 ≤ s.g_heap_start + s.g_heap_size)
    (hprv : read64 s.mem b2 = 0 ∨
      (s.g_heap_start ≤ read64 s.mem b2 + 8 ∧ read64 s.mem b2 + 16 ≤ b1))
    (hnxt : read64 s.mem (b2 + 8) = 0 ∨
      (b2 + 16 ≤ read64 s.mem (b2 + 8) ∧
        read64 s.mem (b2 + 8) + 8 ≤ s.g_heap_start + s.g_heap_size)) :
    ∃ s', coalesce s b1 b2 = .ok s' ∧ s'.g_heap_start = s.g_heap_start ∧
      s'.g_heap_size = s.g_heap_size ∧
      read64 s'.mem b1 = read64 s.mem b2 ∧ read64 s'.mem (b1 + 8) = read64 s.mem (b2 + 8) ∧
      (read64 s.mem b2 = 0 → s'.first_free_block = b1) ∧
      (read64 s.mem b2 ≠ 0 → s'.first_free_block = s.first_free_block ∧
        read64 s'.mem (read64 s.mem b2 + 8) = b1) ∧
      (read64 s.mem (b2 + 8) ≠ 0 → read64 s'.mem (read64 s.mem (b2 + 8)) = b1) ∧
      ∀ x, (x + 8 ≤ b1 ∨ b1 + 16 ≤ x) →
        (read64 s.mem b2 = 0 ∨ x ≤ read64 s.mem b2 ∨ read64 s.mem b2 + 16 ≤ x) →
        (read64 s.mem (b2 + 8) = 0 ∨ x + 8 ≤ read64 s.mem (b2 + 8) ∨
          read64 s.mem (b2 + 8) + 8 ≤ x) →
        read64 s'.mem x = read64 s.mem x := by
  generalize hpv : read64 s.mem b2 = prv at hprv ⊢
  generalize hnv : read64 s.mem (b2 + 8) = nxt at hnxt ⊢
  have hpl : prv < WORD := hpv ▸ read64_lt _ _
  have hnl : nxt < WORD := hnv ▸ read64_lt _ _
  have a1 : add64 b1 8 = b1 + 8 := by unfold add64 WORD at *; omega
  have a2 : add64 b2 8 = b2 + 8 := by unfold add64 WORD at *; omega
  -- the three unconditional steps
  let m1 : Mem := write64 s.mem b1 prv
  let m2 : Mem := write64 m1 (b1 + 8) nxt
  have r1 : read64 m1 (b2 + 8) = nxt := by
    show read64 (write64 s.mem b1 prv) (b2 + 8) = nxt
    rw [read64_write64_other _ _ _ _ (by omega), hnv]
  have r2 : read64 m2 b1 = prv := by
    show read64 (write64 (write64 s.mem b1 prv) (b1 + 8) nxt) b1 = prv
    rw [read64_write64_other _ _ _ _ (by omega), read64_write64_same, Nat.mod_eq_of_lt hpl]
  have r3 : read64 m2 (b1 + 8) = nxt := by
    show read64 (write64 (write64 s.mem b1 prv) (b1 + 8) nxt) (b1 + 8) = nxt
    rw [read64_write64_same, Nat.mod_eq_of_lt hnl]
  have e1 : getPrev s b2 = .ok prv := by
    rw [getPrev, explicit_load_ok s b2 (by omega) (by omega) (by omega), hpv]
  have e2 : setPrev s b1 prv = .ok { s with mem := m1 } := by
    rw [setPrev, explicit_store_ok s b1 prv (by omega) h1 (by omega)]
  have e3 : getNext { s with mem := m1 } b2 = .ok nxt := by
    rw [getNext, a2, explicit_load_ok _ (b2 + 8) (by omega) (by show s.g_heap_start ≤ _; omega)
      (by show _ ≤ s.g_heap_start + s.g_heap_size; omega)]
    show Except.ok (read64 m1 (b2 + 8)) = _
    rw [r1]
  have e4 : setNext { s with mem := m1 } b1 nxt = .ok { s with mem := m2 } := by
    rw [setNext, a1, explicit_store_ok _ (b1 + 8) nxt (by omega) (by show s.g_heap_start ≤ _; omega)
      (by show _ ≤ s.g_heap_start + s.g_heap_size; omega)]
  have e5 : getPrev { s with mem := m2 } b1 = .ok prv := by
    rw [getPrev, explicit_load_ok _ b1 (by omega) (by show s.g_heap_start ≤ _; omega)
      (by show _ ≤ s.g_heap_start + s.g_heap_size; omega)]
    show Except.ok (read64 m2 b1) = _
    rw [r2]
  have fr2 : ∀ x, (x + 8 ≤ b1 ∨ b1 + 16 ≤ x) → read64 m2 x = read64 s.mem x := by
    intro x hx
    show read64 (write64 (write64 s.mem b1 prv) (b1 + 8) nxt) x = _
    rw [read64_write64_other _ _ _ _ (by omega), read64_write64_other _ _ _ _ (by omega)]
  unfold coalesce
  rw [e1, Implicit.bind_ok, e2, Implicit.bind_ok, e3, Implicit.bind_ok, e4, Implicit.bind_ok,
    e5, Implicit.bind_ok]
  by_cases hp0 : prv = 0
  · rw [if_pos hp0, Implicit.pure_ok, Implicit.bind_ok]
    have e6 : getNext { s with mem := m2, first_free_block := b1 } b1 = .ok nxt := by
      rw [getNext, a1, explicit_load_ok _ (b1 + 8) (by omega) (by show s.g_heap_start ≤ _; omega)
        (by show _ ≤ s.g_heap_start + s.g_heap_size; omega)]
      show Except.ok (read64 m2 (b1 + 8)) = _
      rw [r3]
    dsimp only
    rw [e6, Implicit.bind_ok]
    by_cases hn0 : nxt = 0
    · rw [if_neg (by simpa using hn0), Implicit.pure_ok]
      exact ⟨_, rfl, rfl, rfl, r2, r3, fun _ => rfl, fun h => absurd hp0 h,
        fun h => absurd hn0 h, fun x hx _ _ => fr2 x hx⟩
    · rw [if_pos hn0]
      have hnn : b2 + 16 ≤ nxt ∧ nxt + 8 ≤ s.g_heap_start + s.g_heap_size := by
        rcases hnxt with h | h
        · exact absurd h hn0
        · exact h
      rw [setPrev, explicit_store_ok _ nxt b1 (by omega) (by show s.g_heap_start ≤ _; omega)
        (by show _ ≤ s.g_heap_start + s.g_heap_size; omega)]
      refine ⟨_, rfl, rfl, rfl, ?_, ?_, fun _ => rfl, fun h => absurd hp0 h, ?_, ?_⟩
      · show read64 (write64 m2 nxt b1) b1 = _
        rw [read64_write64_other _ _ _ _ (by omega)]; exact r2
      · show read64 (write64 m2 nxt b1) (b1 + 8) = _
        rw [read64_write64_other _ _ _ _ (by omega)]; exact r3
      · intro _
        show read64 (write64 m2 nxt b1) nxt = _
        rw [read64_write64_same, Nat.mod_eq_of_lt (by omega)]
      · intro x hx _ hxn
        show read64 (write64 m2 nxt b1) x = _
        rw [read64_write64_other _ _ _ _ (by omega)]
        exact fr2 x hx
  · rw [if_neg hp0]
    have hpp : s.g_heap_start ≤ prv + 8 ∧ prv + 16 ≤ b1 := by
      rcases hprv with h | h
      · exact absurd h hp0
      · exact h
    have a3 : add64 prv 8 = prv + 8 := by unfold add64 WORD at *; omega
    let m3 : Mem := write64 m2 (prv + 8) b1
    have e6 : setNext { s with mem := m2 } prv b1 = .ok { s with mem := m3 } := by
      rw [setNext, a3, explicit_store_ok _ (prv + 8) b1 (by omega) (by show s.g_heap_start ≤ _; omega)
        (by show _ ≤ s.g_heap_start + s.g_heap_size; omega)]
    have e7 : getNext { s with mem := m3 } b1 = .ok nxt := by
      rw [getNext, a1, explicit_load_ok _ (b1 + 8) (by omega) (by show s.g_heap_start ≤ _; omega)
        (by show _ ≤ s.g_heap_start + s.g_heap_size; omega)]
      show Except.ok (read64 (write64 m2 (prv + 8) b1) (b1 + 8)) = _
      rw [read64_write64_other _ _ _ _ (by omega), r3]
    rw [e6, Implicit.bind_ok]
    dsimp only
    rw [e7, Implicit.bind_ok]
    have fr3 : ∀ x, (x + 8 ≤ b1 ∨ b1 + 16 ≤ x) → (x ≤ prv ∨ prv + 16 ≤ x) →
        read64 m3 x = read64 s.mem x := by
      intro x hx hxp
      show read64 (write64 m2 (prv + 8) b1) x = _
      rw [read64_write64_other _ _ _ _ (by omega)]
      exact fr2 x hx
    by_cases hn0 : nxt = 0
    · rw [if_neg (by simpa using hn0), Implicit.pure_ok]
      refine ⟨_, rfl, rfl, rfl, ?_, ?_, fun h => absurd h hp0, fun _ => ⟨rfl, ?_⟩,
        fun h => absurd hn0 h, ?_⟩
      · show read64 (write64 m2 (prv + 8) b1) b1 = _
        rw [read64_write64_other _ _ _ _ (by omega)]; exact r2
      · show read64 (write64 m2 (prv + 8) b1) (b1 + 8) = _
        rw [read64_write64_other _ _ _ _ (by omega)]; exact r3
      · show read64 (write64 m2 (prv + 8) b1) (prv + 8) = _
        rw [read64_write64_same, Nat.mod_eq_of_lt (by omega)]
      · intro x hx hxp _
        exact fr3 x hx (by omega)
    · rw [if_pos hn0]
      have hnn : b2 + 16 ≤ nxt ∧ nxt + 8 ≤ s.g_heap_start + s.g_heap_size := by
        rcases hnxt with h | h
        · exact absurd h hn0
        · exact h
      rw [setPrev, explicit_store_ok _ nxt b1 (by omega) (by show s.g_heap_start ≤ _; omega)
        (by show _ ≤ s.g_heap_start + s.g_heap_size; omega)]
      refine ⟨_, rfl, rfl, rfl, ?_, ?_, fun h => absurd h hp0, fun _ => ⟨rfl, ?_⟩, ?_, ?_⟩
      · show read64 (write64 (write64 m2 (prv + 8) b1) nxt b1) b1 = _
        rw [read64_write64_other _ _ _ _ (by omega), read64_write64_other _ _ _ _ (by omega)]
        exact r2
      · show read64 (write64 (write64 m2 (prv + 8) b1) nxt b1) (b1 + 8) = _
        rw [read64_write64_other _ _ _ _ (by omega), read64_write64_other _ _ _ _ (by omega)]
        exact r3
      · show read64 (write64 (write64 m2 (prv + 8) b1) nxt b1) (prv + 8) = _
        rw [read64_write64_other _ _ _ _ (by omega), read64_write64_same,
          Nat.mod_eq_of_lt (by omega)]
      · intro _
        show read64 (write64 m3 nxt b1) nxt = _
        rw [read64_write64_same, Nat.mod_eq_of_lt (by omega)]
      · intro x hx hxp hxn
        show read64 (write64 m3 nxt b1) x = _
        rw [read64_write64_other _ _ _ _ (by omega)]
        exact fr3 x hx (by omega)

/-- The coalescing branch of `myfree`: a used block `p` of size `sz` whose right neighbour
is a free list node of size `t` with `prev` field `P` and `next` field `N`. -/
theorem myfree_coalesce (s : State) (p sz t : Nat)
    (hs : s.g_heap_start ≠ 0) (hfit : s.g_heap_start + s.g_heap_size ≤ WORD)
    (hlo : s.g_heap_start + 8 ≤ p) (hsz : sz % 8 = 0) (hpos : 0 < sz)
    (ht : t % 8 = 0) (ht16 : 16 ≤ t)
    (hhi : p + sz + 8 + t + 8 ≤ s.g_heap_start + s.g_heap_size)
    (hused : read64 s.mem (p - 8) = sz + 1)
    (hfree : read64 s.mem (p + sz) = t)
    (hprv : read64 s.mem (p + sz + 8) = 0 ∨
      (s.g_heap_start + 8 ≤ read64 s.mem (p + sz + 8) ∧
        read64 s.mem (p + sz + 8) + 16 ≤ p - 8))
    (hnxt : read64 s.mem (p + sz + 8 + 8) = 0 ∨
      (p + sz + 8 + t + 8 ≤ read64 s.mem (p + sz + 8 + 8) ∧
        read64 s.mem (p + sz + 8 + 8) + 8 ≤ s.g_heap_start + s.g_heap_size)) :
    ∃ s', myfree s p = .ok s' ∧ s'.g_heap_start = s.g_heap_start ∧
      s'.g_heap_size = s.g_heap_size ∧
      read64 s'.mem (p - 8) = sz + 8 + t ∧
      read64 s'.mem p = read64 s.mem (p + sz + 8) ∧
      read64 s'.mem (p + 8) = read64 s.mem (p + sz + 8 + 8) ∧
      (read64 s.mem (p + sz + 8) = 0 → s'.first_free_block = p) ∧
      (read64 s.mem (p + sz + 8) ≠ 0 → s'.first_free_block = s.first_free_block ∧
        read64 s'.mem (read64 s.mem (p + sz + 8) + 8) = p) ∧
      (read64 s.mem (p + sz + 8 + 8) ≠ 0 →
        read64 s'.mem (read64 s.mem (p + sz + 8 + 8)) = p) ∧
      ∀ x, (x + 8 ≤ p - 8 ∨ p + 16 ≤ x) →
        (read64 s.mem (p + sz + 8) = 0 ∨ x ≤ read64 s.mem (p + sz + 8) ∨
          read64 s.mem (p + sz + 8) + 16 ≤ x) →
        (read64 s.mem (p + sz + 8 + 8) = 0 ∨ x + 8 ≤ read64 s.mem (p + sz + 8 + 8) ∨
          read64 s.mem (p + sz + 8 + 8) + 8 ≤ x) →
        read64 s'.mem x = read64 s.mem x := by
  generalize hPv : read64 s.mem (p + sz + 8) = P at hprv ⊢
  generalize hNv : read64 s.mem (p + sz + 8 + 8) = N at hnxt ⊢
  have a0 : p - 8 ≠ 0 ∧ s.g_heap_start ≤ p - 8 ∧
      p - 8 + 8 ≤ s.g_heap_start + s.g_heap_size := by clear hprv hnxt; omega
  have a1 : p + sz ≠ 0 ∧ s.g_heap_start ≤ p + sz ∧
      p + sz + 8 ≤ s.g_heap_start + s.g_heap_size := by clear hprv hnxt; omega
  have a2 : sz % 2 = 0 ∧ t % 2 = 0 := by clear hprv hnxt; omega
  have hp0 : ¬ (p = 0) := by clear hprv hnxt; omega
  have hh : sub64 p HEADER_SIZE = p - 8 := by
    clear hprv hnxt; unfold sub64 HEADER_SIZE ALIGNMENT WORD at *; omega
  have hu := explicit_is_used_ok s (p - 8) sz 1 a0.1 a0.2.1 a0.2.2 hused a2.1 (le_refl _)
  have hn := explicit_header_num_ok s (p - 8) sz 1 a0.1 a0.2.1 a0.2.2 hused a2.1 (le_refl _)
  have hnh : add64 p sz = p + sz := by clear hprv hnxt; unfold add64 WORD at *; omega
  have hu2 := explicit_is_used_ok s (p + sz) t 0 a1.1 a1.2.1 a1.2.2 hfree a2.2 (Nat.zero_le _)
  have hn2 := explicit_header_num_ok s (p + sz) t 0 a1.1 a1.2.1 a1.2.2 hfree a2.2
    (Nat.zero_le _)
  have hnb : add64 (p + sz) HEADER_SIZE = p + sz + 8 := by
    clear hprv hnxt; unfold add64 HEADER_SIZE ALIGNMENT WORD at *; omega
  have hv : add64 (add64 (add64 HEADER_SIZE sz) t) FREE = sz + 8 + t := by
    clear hprv hnxt; unfold add64 HEADER_SIZE ALIGNMENT FREE WORD at *; omega
  have hst : create_header (add64 (add64 HEADER_SIZE sz) t) (p - 8) FREE s =
      .ok { s with mem := write64 s.mem (p - 8) (sz + 8 + t) } := by
    rw [create_header, hv, explicit_store_ok s (p - 8) _ a0.1 a0.2.1 a0.2.2]
  obtain ⟨u, hud⟩ : ∃ u : State, u = { s with mem := write64 s.mem (p - 8) (sz + 8 + t) } :=
    ⟨_, rfl⟩
  rw [← hud] at hst
  have ub1 : u.g_heap_start = s.g_heap_start := by rw [hud]
  have ub2 : u.g_heap_size = s.g_heap_size := by rw [hud]
  have ub3 : u.first_free_block = s.first_free_block := by rw [hud]
  have ru : ∀ x, (x + 8 ≤ p - 8 ∨ p ≤ x) → read64 u.mem x = read64 s.mem x := by
    intro x hx
    rw [hud]
    show read64 (write64 s.mem (p - 8) (sz + 8 + t)) x = _
    rw [read64_write64_other _ _ _ _ (by clear hprv hnxt; omega)]
  have uh : read64 u.mem (p - 8) = sz + 8 + t := by
    rw [hud]
    show read64 (write64 s.mem (p - 8) (sz + 8 + t)) _ = _
    rw [read64_write64_same, Nat.mod_eq_of_lt (by clear hprv hnxt; unfold WORD at *; omega)]
  have eP : read64 u.mem (p + sz + 8) = P := by rw [ru _ (by clear hprv hnxt; omega)]; exact hPv
  have eN : read64 u.mem (p + sz + 8 + 8) = N := by
    rw [ru _ (by clear hprv hnxt; omega)]; exact hNv
  obtain ⟨s', hrun, g1, g2, c1, c2, c3, c4, c5, c6⟩ := coalesce_spec u p (p + sz + 8)
    (by rw [ub1]; exact hs) (by rw [ub1, ub2]; exact hfit)
    (by rw [ub1]; clear hprv hnxt; omega) (by clear hprv hnxt; omega)
    (by rw [ub1, ub2]; clear hprv hnxt; omega)
    (by rw [eP, ub1]; clear hnxt; omega) (by rw [eN, ub1, ub2]; clear hprv; omega)
  rw [eP] at c1 c3 c4 c6
  rw [eN] at c2 c5 c6
  refine ⟨s', ?_, by rw [g1, ub1], by rw [g2, ub2], ?_, c1, c2, c3, ?_, c5, ?_⟩
  · unfold myfree
    rw [if_neg hp0]
    dsimp only
    rw [hh, hu, Implicit.bind_ok, if_neg (by simp), hn, Implicit.bind_ok, hnh, hn2,
      Implicit.bind_ok, hu2, Implicit.bind_ok, if_pos (by simp)]
    unfold coalesceFree
    dsimp only
    rw [hst, Implicit.bind_ok, hnb]
    exact hrun
  · rw [c6 _ (by clear hprv hnxt c3 c4 c5; omega) (by clear hnxt c3 c4 c5; omega)
      (by clear hprv c3 c4 c5; omega), uh]
  · intro hp
    rw [(c4 hp).1, ub3]
    exact ⟨rfl, (c4 hp).2⟩
  · intro x hx hxp hxn
    rw [c6 x (by clear hprv hnxt hxp hxn c3 c4 c5; omega) hxp hxn,
      ru x (by clear hprv hnxt hxp hxn c3 c4 c5; omega)]

/-- The `prev` field of a list node with predecessors is the address of a free block that
ends below any address `p` all predecessors end below. -/
theorem freeList_prev_below (s : State) (cur c p : Nat) (post : List (Nat × Nat))
    (pre : List (Nat × Nat)) :
    ∀ (lo prev a : Nat), FreeList s lo prev a (pre ++ (cur, c) :: post) →
      (∀ b, b ∈ pre → b.1 + b.2 + 8 ≤ p) → pre ≠ [] → read64 s.mem cur + 24 ≤ p := by
  induction pre with
  | nil => intro lo prev a _ _ h; exact absurd rfl h
  | cons b pre ih =>
    intro lo prev a h hpre _
    obtain ⟨n, c'⟩ := b
    simp only [List.cons_append, FreeList] at h
    obtain ⟨_, _, _, h4, _, _, _, h8⟩ := h
    cases pre with
    | nil =>
      simp only [List.nil_append, FreeList] at h8
      have := hpre (n, c') (by simp)
      simp only [] at this
      omega
    | cons b2 pre2 =>
      exact ih _ _ _ h8 (fun x hx => hpre x (by simp [hx])) (by simp)

/-- Replacement: if `t` agrees with `s` below the header of `p` except for the `next`
field of the predecessor of the node `nb`, which now holds `p`, the block of `p` ends
where the block of `nb` ended, and the part of the list behind `nb` is a free list of `t`
whose `prev` is `p`, then the list of `t` is the list of `s` with `nb` replaced by `p`. -/
theorem freeList_replace (s t : State) (p cp nb c : Nat) (post : List (Nat × Nat))
    (hb : t.g_heap_start + t.g_heap_size = s.g_heap_start + s.g_heap_size)
    (hend : p + cp = nb + c) (hcp : 16 ≤ cp ∧ cp % 8 = 0)
    (hlow : ∀ x, x + 8 ≤ p - 8 →
      (read64 s.mem nb = 0 ∨ x ≤ read64 s.mem nb ∨ read64 s.mem nb + 16 ≤ x) →
      read64 t.mem x = read64 s.mem x)
    (hP : read64 s.mem nb ≠ 0 → read64 t.mem (read64 s.mem nb + 8) = p)
    (hnode : read64 t.mem (p - 8) = cp ∧ read64 t.mem p = read64 s.mem nb)
    (hpost : FreeList t (nb + c) p (read64 t.mem (p + 8)) post) (pre : List (Nat × Nat)) :
    ∀ (lo prev a : Nat), FreeList s lo prev a (pre ++ (nb, c) :: post) →
      (∀ b, b ∈ pre → b.1 + b.2 + 8 ≤ p) → lo + 8 ≤ p →
      FreeList t lo prev (if pre = [] then p else a) (pre ++ (p, cp) :: post) := by
  induction pre with
  | nil =>
    intro lo prev a h _ hlo
    simp only [List.nil_append, FreeList] at h
    obtain ⟨_, _, h3, _, _, _, h7, _⟩ := h
    simp only [List.nil_append, if_true, FreeList]
    rw [hend]
    refine ⟨trivial, hlo, by omega, hcp.1, hcp.2, hnode.1, by rw [hnode.2, h7], hpost⟩
  | cons b pre ih =>
    intro lo prev a h hpre hlo
    obtain ⟨n, c'⟩ := b
    have hb1 := hpre (n, c') (by simp)
    simp only [] at hb1
    have hbelow := freeList_prev_below s nb c p post ((n, c') :: pre) _ _ _ h hpre (by simp)
    simp only [List.cons_append, FreeList] at h
    obtain ⟨h1, h2, h3, h4, h5, h6, h7, h8⟩ := h
    obtain ⟨lo', i1, i2, i3⟩ := freeList_split s nb c post pre _ _ _ h8
    have hPn : n ≤ read64 s.mem nb := by
      rcases i3 with ⟨_, e, _, _⟩ | ⟨_, e1, e2, _⟩ <;> omega
    have hih := ih _ _ _ h8 (fun x hx => hpre x (by simp [hx])) (by omega)
    simp only [List.cons_append, FreeList, if_neg (List.cons_ne_nil _ _)]
    refine ⟨h1, h2, by omega, h4, h5, ?_, ?_, ?_⟩
    · rw [hlow _ (by omega) (by omega)]; exact h6
    · rw [hlow _ (by omega) (by omega)]; exact h7
    · rcases i3 with ⟨e0, e, e2, _⟩ | ⟨e0, e1, e2, _⟩
      · rw [if_pos e0] at hih
        have : read64 t.mem (n + 8) = p := by
          have := hP (by omega)
          rw [e] at this
          exact this
        rw [this]
        exact hih
      · rw [if_neg e0] at hih
        rw [hlow _ (by omega) (by omega)]
        exact hih

/-- C21. Explicit variant, coalescing free (A = 8). On a heap whose free list is well
formed (`FreeList`) with nodes `pre ++ (p + sz + 8, t) :: post`, where `p` is a used block
of size `sz` that starts after every block of `pre` and whose right neighbour is the
list node of size `t`: `myfree p` returns, the header word at `p - 8` becomes
`sz + 8 + t` with used bit 0, and the free list of the new state, followed from its head,
is well formed with the nodes `pre ++ (p, sz + 8 + t) :: post`: the block at `p` has the
list position of the neighbour, and the other nodes, their order, sizes and links are as
before. Words outside the header and link fields of `p`, the `next` field of the
predecessor and the `prev` field of the successor are unchanged. -/
theorem explicit_free_takes_slot (s : State) (p sz t : Nat) (pre post : List (Nat × Nat))
    (hs : s.g_heap_start ≠ 0) (hfit : s.g_heap_start + s.g_heap_size ≤ WORD)
    (hlo : s.g_heap_start + 8 ≤ p) (hsz : sz % 8 = 0) (hpos : 0 < sz)
    (hused : read64 s.mem (p - 8) = sz + 1)
    (hlist : FreeList s s.g_heap_start 0 s.first_free_block
      (pre ++ (p + sz + 8, t) :: post))
    (hpre : ∀ b, b ∈ pre → b.1 + b.2 + 8 ≤ p) :
    ∃ s', myfree s p = .ok s' ∧ s'.g_heap_start = s.g_heap_start ∧
      s'.g_heap_size = s.g_heap_size ∧ read64 s'.mem (p - 8) = sz + 8 + t ∧
      FreeList s' s.g_heap_start 0 s'.first_free_block (pre ++ (p, sz + 8 + t) :: post) ∧
      ∀ x, (x + 8 ≤ p - 8 ∨ p + 16 ≤ x) →
        (read64 s.mem (p + sz + 8) = 0 ∨ x ≤ read64 s.mem (p + sz + 8) ∨
          read64 s.mem (p + sz + 8) + 16 ≤ x) →
        (read64 s.mem (p + sz + 8 + 8) = 0 ∨ x + 8 ≤ read64 s.mem (p + sz + 8 + 8) ∨
          read64 s.mem (p + sz + 8 + 8) + 8 ≤ x) →
        read64 s'.mem x = read64 s.mem x := by
  obtain ⟨lo', l1, l2, l3⟩ := freeList_split s (p + sz + 8) t post pre _ _ _ hlist
  simp only [FreeList] at l2
  obtain ⟨_, k2, k3, k4, k5, k6, _, k8⟩ := l2
  have e1 : p + sz + 8 - 8 = p + sz := by omega
  rw [e1] at k6
  have hprv : read64 s.mem (p + sz + 8) = 0 ∨
      (s.g_heap_start + 8 ≤ read64 s.mem (p + sz + 8) ∧
        read64 s.mem (p + sz + 8) + 16 ≤ p - 8) := by
    rcases l3 with ⟨_, h, _, _⟩ | ⟨hne, h1, h2, _⟩
    · exact Or.inl h
    · have := freeList_prev_below s (p + sz + 8) t p post pre _ _ _ hlist hpre hne
      right; omega
  have hnxt : read64 s.mem (p + sz + 8 + 8) = 0 ∨
      (p + sz + 8 + t + 8 ≤ read64 s.mem (p + sz + 8 + 8) ∧
        read64 s.mem (p + sz + 8 + 8) + 8 ≤ s.g_heap_start + s.g_heap_size) := by
    cases post with
    | nil => simp only [FreeList] at k8; exact Or.inl k8
    | cons b post =>
      obtain ⟨n, cn⟩ := b
      simp only [FreeList] at k8
      right; omega
  obtain ⟨s', hrun, g1, g2, w0, w1, w2, w3, w4, w5, w6⟩ :=
    myfree_coalesce s p sz t hs hfit hlo hsz hpos k5 k4 k3 hused k6 hprv hnxt
  have hpost : FreeList s' (p + sz + 8 + t) p (read64 s'.mem (p + 8)) post := by
    rw [w2]
    cases post with
    | nil => simp only [FreeList] at k8 ⊢; exact k8
    | cons b post =>
      obtain ⟨n, cn⟩ := b
      simp only [FreeList] at k8 ⊢
      obtain ⟨q1, q2, q3, q4, q5, q6, q7, q8⟩ := k8
      rw [q1] at w5 w6
      have r1 : read64 s'.mem (n - 8) = cn := by
        rw [w6 _ (by clear hprv hnxt w3 w4 w5; omega) (by clear hnxt w3 w4 w5; omega)
          (by clear hprv hnxt w3 w4 w5; omega)]
        exact q6
      have r2 : read64 s'.mem (n + 8) = read64 s.mem (n + 8) := by
        rw [w6 _ (by clear hprv hnxt w3 w4 w5; omega) (by clear hnxt w3 w4 w5; omega)
          (by clear hprv hnxt w3 w4 w5; omega)]
      refine ⟨q1, q2, by rw [g1, g2]; exact q3, q4, q5, r1,
        w5 (by clear hprv hnxt w3 w4; omega), ?_⟩
      rw [r2]
      refine freeList_frame s s' post _ _ _ q8 (by rw [g1, g2]) ?_
      intro x hx
      exact w6 x (by clear hprv hnxt w3 w4 w5; omega) (by clear hnxt w3 w4 w5; omega)
        (by clear hprv hnxt w3 w4 w5; omega)
  have hrep := freeList_replace s s' p (sz + 8 + t) (p + sz + 8) t post (by rw [g1, g2])
    (by omega) ⟨by omega, by omega⟩
    (fun x hx hxp => w6 x (Or.inl hx) hxp (by clear hprv w3 w4 w5; omega))
    (fun hp => (w4 hp).2) ⟨w0, w1⟩ hpost pre _ _ _ hlist hpre hlo
  refine ⟨s', hrun, g1, g2, w0, ?_, w6⟩
  rcases l3 with ⟨e0, h, _, _⟩ | ⟨e0, h1, h2, _⟩
  · rw [if_pos e0] at hrep
    rw [w3 h]
    exact hrep
  · rw [if_neg e0] at hrep
    rw [(w4 (by omega)).1]
    exact hrep

theorem explicit_free_takes_slot_witness :
    ∃ s', myfree afterMalloc32 4104 = .ok s' ∧
      s'.g_heap_start = afterMalloc32.g_heap_start ∧
      s'.g_heap_size = afterMalloc32.g_heap_size ∧ read64 s'.mem (4104 - 8) = 32 + 8 + 40 ∧
      FreeList s' afterMalloc32.g_heap_start 0 s'.first_free_block
        ([] ++ (4104, 32 + 8 + 40) :: []) ∧
      ∀ x, (x + 8 ≤ 4104 - 8 ∨ 4104 + 16 ≤ x) →
        (read64 afterMalloc32.mem (4104 + 32 + 8) = 0 ∨
          x ≤ read64 afterMalloc32.mem (4104 + 32 + 8) ∨
          read64 afterMalloc32.mem (4104 + 32 + 8) + 16 ≤ x) →
        (read64 afterMalloc32.mem (4104 + 32 + 8 + 8) = 0 ∨
          x + 8 ≤ read64 afterMalloc32.mem (4104 + 32 + 8 + 8) ∨
          read64 afterMalloc32.mem (4104 + 32 + 8 + 8) + 8 ≤ x) →
        read64 s'.mem x = read64 afterMalloc32.mem x :=
  explicit_free_takes_slot afterMalloc32 4104 32 40 [] [] (by decide) (by decide)
    (by decide) (by decide) (by decide) (by rfl)
    ⟨by rfl, by decide, by decide, by decide, by decide, by rfl, by rfl, by rfl⟩
    (fun _ h => nomatch h)

/-- C22 (failing input). Explicit variant. On a 96-byte region, after
`a = mymalloc(16); b = mymalloc(16); c = mymalloc(16)` the free list is empty, and
`myfree(b)` leaves the walk used 16, free 16, used 32 with the free-list head still null:
the freed block is on no list. On a 120-byte region, after `a, b, c = mymalloc(16);
myfree(a); d = mymalloc(32)` the only list node lies below `c`, and `myfree(c)` reads the
`prev` field of the null pointer. -/
theorem explicit_free_not_listed :
    freeMiddleRun =
        .ok (4104, 4128, 4152, 0, [(4104, 16, true), (4128, 16, false), (4152, 32, true)]) ∧
      freeAboveListRun = .error .fault :=
  ⟨by rfl, by rfl⟩

/-- C23 (failing input). Explicit variant, 96-byte region: after `p = mymalloc(64)` (the
whole 80-byte block, free list empty) the call `q = myrealloc(p, 16)` returns `q = p`, the
walk shows used 16 and free 56, and the free-list head is still null: the new free block
is not on the free list. -/
theorem explicit_shrink_remainder_unlinked :
    shrinkSplitRun = .ok (4104, 4104, 0, [(4104, 16, true), (4128, 56, false)]) := by rfl

/-- C24 (counterexample). Explicit variant, 96-byte region: after `p = mymalloc(16);
q = myrealloc(p, 8)` it holds that `q = p`, and the walk shows a used block of size 16
(not 8) followed by a free block of size 56. -/
theorem explicit_shrink_small_walk :
    shrinkSmallRun = .ok (4104, 4104, [(4104, 16, true), (4128, 56, false)]) := by rfl

/-- C24 (amended). Explicit variant, shrink without split: for a used block `p` whose
header records the size `old` and a request `0 < r` whose rounded size is at most `old`
with `old - roundup r 8 ≤ 24`, `myrealloc p r` returns `p` and the allocator state (every
header, every byte, the free list) is unchanged. -/
theorem explicit_realloc_small_shrink (s : State) (p old r : Nat)
    (hstart : s.g_heap_start ≠ 0) (hlo : s.g_heap_start + 8 ≤ p)
    (hhi : p + old ≤ s.g_heap_start + s.g_heap_size)
    (hfit : s.g_heap_start + s.g_heap_size ≤ WORD)
    (hused : read64 s.mem (p - 8) = old + 1) (h8 : old % 8 = 0) (hr0 : 0 < r)
    (hr : roundup r ALIGNMENT ≤ old) (hsmall : old - roundup r ALIGNMENT ≤ 24)
    (hrw : r + 7 < WORD) :
    myrealloc s p r = .ok (p, s) := by
  have hlt : old + 1 < WORD := hused ▸ read64_lt _ _
  have hre := explicit_roundup_eq r hrw
  have hold : 8 ≤ old := by omega
  have hp0 : ¬ (p = 0) := by omega
  have hr0' : ¬ (r = 0) := by omega
  have hh : sub64 p HEADER_SIZE = p - 8 := by
    unfold sub64 HEADER_SIZE ALIGNMENT WORD at *; omega
  have hn := explicit_header_num_ok s (p - 8) old 1 (by omega) (by omega) (by omega) hused
    (by omega) (by omega)
  have hb : add64 (p - 8) HEADER_SIZE = p := by
    unfold add64 HEADER_SIZE ALIGNMENT WORD at *; omega
  have hgt : ¬ (roundup r ALIGNMENT > old) := by omega
  have hsub : ¬ (sub64 old (roundup r ALIGNMENT) > MIN_ALLOC_SIZE) := by
    generalize roundup r ALIGNMENT = n at *
    unfold sub64 MIN_ALLOC_SIZE HEADER_SIZE FREE_SIZE ALIGNMENT WORD at *; omega
  unfold myrealloc
  rw [if_neg hp0, if_neg hr0']
  rw [hh]
  dsimp only
  rw [hn, Implicit.bind_ok, Implicit.bind_ok, if_neg hgt, if_neg hsub, hb]
  rfl

theorem explicit_realloc_small_shrink_witness :
    myrealloc afterMalloc16 4104 8 = .ok (4104, afterMalloc16) ∧
      blocks afterMalloc16 = .ok [(4104, 16, true), (4128, 56, false)] :=
  ⟨explicit_realloc_small_shrink afterMalloc16 4104 16 8 (by decide) (by decide) (by decide)
    (by decide) (by rfl) (by decide) (by decide) (by decide) (by decide) (by decide), by rfl⟩

/-- C25 (failing input). Explicit variant, 96-byte region: after `p = mymalloc(16)` the
walk is used 16, free 56, so the block of `p` with its free right neighbour holds
`16 + 8 + 56 ≥ 32` bytes; `myrealloc(p, 32)` returns `4128`, not `p = 4104`. -/
theorem explicit_grow_relocates :
    growInPlaceRun = .ok (4104, 4128, [(4104, 16, true), (4128, 56, false)]) := by rfl

/-- C27 (failing input). Explicit variant. After `p = mymalloc(16); myrealloc(p, 32)` on
a 96-byte region the free-list head is `4104`, its header has used bit 1, and
`validate_heap` returns true. On the heap `truncatedHeap`, whose first header is the end
header, the walk covers 8 of the 96 bytes, the header of the free-list head is used, and
`validate_heap` returns true. -/
theorem explicit_audit_accepts_bad_heap :
    auditAfterGrowRun = .ok (4104, true, true) ∧
      validate_heap truncatedHeap = .ok true ∧ blocks truncatedHeap = .ok [] ∧
      is_used truncatedHeap (sub64 truncatedHeap.first_free_block HEADER_SIZE) = .ok true :=
  ⟨by rfl, by rfl, by rfl, by rfl⟩

end Explicit

/-- C28. Header encode (A = 8), both variants: for a size that is a multiple of 8 and
below `2^64 - 1` and a status 0 or 1, the 64-bit sum `size + status` is `size | status`,
and `create_header` stores that word at the given address. -/
theorem header_encode (si : Implicit.State) (se : Explicit.State) (a size status : Nat)
    (h8 : size % 8 = 0) (hlt : size < WORD - 1) (hst : status ≤ 1) :
    add64 size status = size ||| status ∧
      Implicit.create_header size a status si = Implicit.store si a (size ||| status) ∧
      Explicit.create_header size a status se = Explicit.store se a (size ||| status) := by
  have e : add64 size status = size ||| status := by
    rw [lor_status size status (by omega) hst, add64_eq _ _ (by omega)]
  exact ⟨e, by rw [Implicit.create_header, e], by rw [Explicit.create_header, e]⟩

theorem header_encode_witness :
    add64 32 1 = 32 ||| 1 ∧
      Implicit.create_header 32 4096 1 Implicit.afterInit =
        Implicit.store Implicit.afterInit 4096 (32 ||| 1) ∧
      Explicit.create_header 32 4096 1 Explicit.afterInit =
        Explicit.store Explicit.afterInit 4096 (32 ||| 1) :=
  header_encode Implicit.afterInit Explicit.afterInit 4096 32 1 (by decide) (by decide)
    (by decide)

/-- C29. Header decode, both variants: for the word `W` stored at an address inside the
region, `is_used` is the test `W & 1 = 1` and `header_num` is `W & ~1` (the mask
`2^64 - 2`); and after `create_header size a status` with `size` a multiple of 8 and
`status` 0 or 1, `is_used` gives `status = 1` and `header_num` gives `size`. -/
theorem header_decode (si : Implicit.State) (se : Explicit.State) (a size status : Nat)
    (hi : a ≠ 0 ∧ si.g_heap_start ≤ a ∧ a + 8 ≤ si.g_heap_start + si.g_heap_size)
    (he : a ≠ 0 ∧ se.g_heap_start ≤ a ∧ a + 8 ≤ se.g_heap_start + se.g_heap_size)
    (h8 : size % 8 = 0) (hst : status ≤ 1) (hlt : size + status < WORD) :
    (Implicit.is_used si a = .ok (decide (read64 si.mem a &&& 1 = 1)) ∧
      Implicit.header_num si a = .ok (read64 si.mem a &&& (WORD - 2))) ∧
    (Explicit.is_used se a = .ok (decide (read64 se.mem a &&& 1 = 1)) ∧
      Explicit.header_num se a = .ok (read64 se.mem a &&& (WORD - 2))) ∧
    (∃ s', Implicit.create_header size a status si = .ok s' ∧
      Implicit.is_used s' a = .ok (decide (status = 1)) ∧
      Implicit.header_num s' a = .ok size) ∧
    (∃ s', Explicit.create_header size a status se = .ok s' ∧
      Explicit.is_used s' a = .ok (decide (status = 1)) ∧
      Explicit.header_num s' a = .ok size) :=
  ⟨⟨Implicit.is_used_word si a hi.1 hi.2.1 hi.2.2, Implicit.header_num_word si a hi.1 hi.2.1 hi.2.2⟩,
    ⟨Explicit.explicit_is_used_word se a he.1 he.2.1 he.2.2,
      Explicit.explicit_header_num_word se a he.1 he.2.1 he.2.2⟩,
    Implicit.create_header_decode si a size status hi.1 hi.2.1 hi.2.2 h8 hst hlt,
    Explicit.explicit_create_header_decode se a size status he.1 he.2.1 he.2.2 h8 hst hlt⟩

theorem header_decode_witness :
    (Implicit.is_used Implicit.afterMalloc 4096 =
        .ok (decide (read64 Implicit.afterMalloc.mem 4096 &&& 1 = 1)) ∧
      Implicit.header_num Implicit.afterMalloc 4096 =
        .ok (read64 Implicit.afterMalloc.mem 4096 &&& (WORD - 2))) ∧
    (Explicit.is_used Explicit.afterMalloc32 4096 =
        .ok (decide (read64 Explicit.afterMalloc32.mem 4096 &&& 1 = 1)) ∧
      Explicit.header_num Explicit.afterMalloc32 4096 =
        .ok (read64 Explicit.afterMalloc32.mem 4096 &&& (WORD - 2))) ∧
    (∃ s', Implicit.create_header 48 4096 1 Implicit.afterMalloc = .ok s' ∧
      Implicit.is_used s' 4096 = .ok (decide (1 = 1)) ∧
      Implicit.header_num s' 4096 = .ok 48) ∧
    (∃ s', Explicit.create_header 48 4096 1 Explicit.afterMalloc32 = .ok s' ∧
      Explicit.is_used s' 4096 = .ok (decide (1 = 1)) ∧
      Explicit.header_num s' 4096 = .ok 48) :=
  header_decode Implicit.afterMalloc Explicit.afterMalloc32 4096 48 1
    ⟨by decide, by decide, by decide⟩ ⟨by decide, by decide, by decide⟩ (by decide)
    (by decide) (by decide)

/-- C30. The function `toggle_free`, both variants: for the word `W` stored at an address
inside the region it stores `(W >> 1) << 1`, which is `W & ~1`; afterwards `is_used` is
false, `header_num` is what it was before, and a second `toggle_free` changes nothing. -/
theorem toggle_free_clears_bit (si : Implicit.State) (se : Explicit.State) (a : Nat)
    (hi : a ≠ 0 ∧ si.g_heap_start ≤ a ∧ a + 8 ≤ si.g_heap_start + si.g_heap_size)
    (he : a ≠ 0 ∧ se.g_heap_start ≤ a ∧ a + 8 ≤ se.g_heap_start + se.g_heap_size) :
    (∃ s', Implicit.toggle_free si a = .ok s' ∧
      s' = { si with mem := write64 si.mem a ((read64 si.mem a >>> 1) <<< 1) } ∧
      read64 s'.mem a = read64 si.mem a &&& (WORD - 2) ∧
      Implicit.is_used s' a = .ok false ∧
      Implicit.header_num s' a = Implicit.header_num si a ∧
      Implicit.toggle_free s' a = .ok s') ∧
    (∃ s', Explicit.toggle_free se a = .ok s' ∧
      s' = { se with mem := write64 se.mem a ((read64 se.mem a >>> 1) <<< 1) } ∧
      read64 s'.mem a = read64 se.mem a &&& (WORD - 2) ∧
      Explicit.is_used s' a = .ok false ∧
      Explicit.header_num s' a = Explicit.header_num se a ∧
      Explicit.toggle_free s' a = .ok s') :=
  ⟨Implicit.toggle_free_word si a hi.1 hi.2.1 hi.2.2,
    Explicit.explicit_toggle_free_word se a he.1 he.2.1 he.2.2⟩

theorem toggle_free_clears_bit_witness :
    (∃ s', Implicit.toggle_free Implicit.afterMalloc 4096 = .ok s' ∧
      s' = { Implicit.afterMalloc with
        mem :=
          write64 Implicit.afterMalloc.mem 4096
            ((read64 Implicit.afterMalloc.mem 4096 >>> 1) <<< 1) } ∧
      read64 s'.mem 4096 = read64 Implicit.afterMalloc.mem 4096 &&& (WORD - 2) ∧
      Implicit.is_used s' 4096 = .ok false ∧
      Implicit.header_num s' 4096 = Implicit.header_num Implicit.afterMalloc 4096 ∧
      Implicit.toggle_free s' 4096 = .ok s') ∧
    (∃ s', Explicit.toggle_free Explicit.afterMalloc32 4096 = .ok s' ∧
      s' = { Explicit.afterMalloc32 with
        mem :=
          write64 Explicit.afterMalloc32.mem 4096
            ((read64 Explicit.afterMalloc32.mem 4096 >>> 1) <<< 1) } ∧
      read64 s'.mem 4096 = read64 Explicit.afterMalloc32.mem 4096 &&& (WORD - 2) ∧
      Explicit.is_used s' 4096 = .ok false ∧
      Explicit.header_num s' 4096 = Explicit.header_num Explicit.afterMalloc32 4096 ∧
      Explicit.toggle_free s' 4096 = .ok s') :=
  toggle_free_clears_bit Implicit.afterMalloc Explicit.afterMalloc32 4096
    ⟨by decide, by decide, by decide⟩ ⟨by decide, by decide, by decide⟩

namespace Implicit

/-- Clearing a used bit leaves the payload address and size of every block of the
layout as they are. -/
theorem layout_release (h : Nat) (bs : List Blk) (a : Nat) :
    (layout a (release h a bs)).map (fun b => (b.1, b.2.1)) =
      (layout a bs).map (fun b => (b.1, b.2.1)) := by
  induction bs generalizing a with
  | nil => rfl
  | cons b bs ih =>
    by_cases hah : a = h
    · simp [release, hah, layout]
    · simp [release, hah, layout, ih]

/-- C32. Implicit variant, frame of `myfree` (A = 8): for a non-null `p` whose header word
`W` at `p - 8` lies inside the region, `myfree p` returns a state with the same bounds and
counters; the word at `p - 8` is `W & ~1` (only bit 0 can have changed), every byte
outside that word is unchanged, `header_num` at `p - 8` is unchanged, and when the heap
is a chain of blocks and `p - 8` is one of its headers, the header walk before and after
has the same payload addresses and sizes. -/
theorem implicit_free_frame (s : State) (p : Nat) (hp : p ≠ 0)
    (hs : s.g_heap_start ≠ 0) (hlo : s.g_heap_start + 8 ≤ p)
    (hhi : p ≤ s.g_heap_start + s.g_heap_size)
    (hfit : s.g_heap_start + s.g_heap_size ≤ WORD) :
    ∃ s', myfree s p = .ok s' ∧ s'.g_heap_start = s.g_heap_start ∧
      s'.g_heap_end = s.g_heap_end ∧ s'.g_heap_size = s.g_heap_size ∧
      s'.bytes_used = s.bytes_used ∧
      read64 s'.mem (p - 8) = read64 s.mem (p - 8) &&& (WORD - 2) ∧
      (∀ x, x < p - 8 ∨ p ≤ x → s'.mem x = s.mem x) ∧
      header_num s' (p - 8) = header_num s (p - 8) ∧
      ∀ bs, Inv s bs → p - 8 ∈ hdrs s.g_heap_start bs →
        ∃ L L', blocks s = .ok L ∧ blocks s' = .ok L' ∧
          L'.map (fun b => (b.1, b.2.1)) = L.map (fun b => (b.1, b.2.1)) := by
  have hh : sub64 p ALIGNMENT = p - 8 := by unfold sub64 ALIGNMENT WORD at *; omega
  obtain ⟨s', hrun, hs', hw, _, hnum, _⟩ :=
    toggle_free_word s (p - 8) (by omega) (by omega) (by omega)
  have hfree : myfree s p = .ok s' := by
    unfold myfree
    rw [if_neg hp, hh]
    exact hrun
  refine ⟨s', hfree, by rw [hs'], by rw [hs'], by rw [hs'], by rw [hs'], hw, ?_, hnum, ?_⟩
  · intro x hx
    rw [hs']
    show write64 s.mem (p - 8) _ x = s.mem x
    unfold write64
    rw [if_neg (by omega)]
  · intro bs hinv hmem
    obtain ⟨s2, hrun2, hinv2, g1, _⟩ := myfree_inv s bs (p - 8) hinv hmem
    have e : p - 8 + 8 = p := by omega
    rw [e, hfree] at hrun2
    cases hrun2
    exact ⟨_, _, blocks_inv s bs hinv, blocks_inv s' _ hinv2,
      by rw [g1]; exact layout_release _ _ _⟩

theorem implicit_free_frame_witness :
    (∃ s', myfree afterMalloc 4104 = .ok s' ∧ s'.g_heap_start = afterMalloc.g_heap_start ∧
      s'.g_heap_end = afterMalloc.g_heap_end ∧ s'.g_heap_size = afterMalloc.g_heap_size ∧
      s'.bytes_used = afterMalloc.bytes_used ∧
      read64 s'.mem (4104 - 8) = read64 afterMalloc.mem (4104 - 8) &&& (WORD - 2) ∧
      (∀ x, x < 4104 - 8 ∨ 4104 ≤ x → s'.mem x = afterMalloc.mem x) ∧
      header_num s' (4104 - 8) = header_num afterMalloc (4104 - 8) ∧
      ∀ bs, Inv afterMalloc bs → 4104 - 8 ∈ hdrs afterMalloc.g_heap_start bs →
        ∃ L L', blocks afterMalloc = .ok L ∧ blocks s' = .ok L' ∧
          L'.map (fun b => (b.1, b.2.1)) = L.map (fun b => (b.1, b.2.1))) ∧
      Inv afterMalloc [(32, true), (40, false)] ∧
      4104 - 8 ∈ hdrs afterMalloc.g_heap_start [(32, true), (40, false)] :=
  ⟨implicit_free_frame afterMalloc 4104 (by decide) (by decide) (by decide) (by decide)
    (by decide),
    ⟨by decide, by decide, by decide,
      ⟨by rfl, by decide, by decide, by rfl, by decide, by decide, by rfl, by rfl⟩⟩,
    by decide⟩

/-- Consecutive blocks of a layout: the payload of a later block starts at least a header
after the end of an earlier one. -/
theorem layout_step (bs : List Blk) (a : Nat) :
    (layout a bs).Pairwise (fun b c => b.1 + b.2.1 + 8 ≤ c.1) := by
  induction bs generalizing a with
  | nil => simp [layout]
  | cons b bs ih =>
    simp only [layout, List.pairwise_cons]
    refine ⟨?_, ih _⟩
    intro c hc
    have := layout_lower bs _ c hc
    simp; omega

/-- C34. Implicit variant, termination of the header scans (A = 8). On every heap that is
a chain of blocks `bs` from the base to the end header `{0, used}` in the last 8 bytes:
the number of blocks is below the region size; the loop of `mymalloc` and the loop of
`validate_heap`, started at the base, return a result with any fuel above the number of
blocks, so `mymalloc` and `validate_heap` return; the header walk lists blocks whose
headers and successors' headers lie inside the region, and each block starts at least 8
bytes after the previous one ends, also after a free block of size 0. The model reports
a read outside the region as a fault, so a returned result means every header read was
inside the region. -/
theorem implicit_scans_terminate (s : State) (bs : List Blk) (hinv : Inv s bs) :
    bs.length < s.g_heap_size ∧
      (∀ need fuel, need % 8 = 0 → 0 < need → bs.length < fuel →
        ∃ r, mallocLoop s need fuel s.g_heap_start (headOf bs).1 (headOf bs).2 = .ok r) ∧
      (∀ fuel, bs.length < fuel →
        ∃ r, validateLoop s fuel s.g_heap_start (headOf bs).1 (headOf bs).2 ALIGNMENT =
          .ok r) ∧
      (∀ n, ∃ r, mymalloc s n = .ok r) ∧ validate_heap s = .ok true ∧
      ∃ L, blocks s = .ok L ∧
        (∀ b, b ∈ L → s.g_heap_start + 8 ≤ b.1 ∧
          b.1 + b.2.1 + 8 ≤ s.g_heap_start + s.g_heap_size) ∧
        L.Pairwise (fun b c => b.1 + b.2.1 + 8 ≤ c.1) := by
  have hinv' := hinv
  obtain ⟨h0, hfit, hge, hc⟩ := hinv
  have hb := chain_bound _ _ _ _ hc
  refine ⟨by omega, ?_, ?_, ?_, validate_heap_inv s bs hinv', ?_⟩
  · intro need fuel h8 hpos hf
    obtain ⟨r, hr, _⟩ := mallocLoop_spec s need (s.g_heap_start + s.g_heap_size - 8) h8 hpos
      h0 (by omega) hfit bs s.g_heap_start fuel (le_refl _) hc hf
    exact ⟨r, hr⟩
  · intro fuel hf
    exact ⟨_, validateLoop_spec s (s.g_heap_start + s.g_heap_size - 8) h0 (by omega) hfit bs
      s.g_heap_start fuel ALIGNMENT (le_refl _) hc hf (by unfold ALIGNMENT WORD at *; omega)⟩
  · intro n
    obtain ⟨r, hr, _⟩ := mymalloc_spec s bs n hinv'
    exact ⟨r, hr⟩
  · refine ⟨_, blocks_inv s bs hinv', ?_, layout_step bs _⟩
    intro b hbm
    have h1 := layout_lower bs _ b hbm
    have h2 := layout_upper _ bs _ _ hc b hbm
    omega

theorem implicit_scans_terminate_witness :
    (([(72, true), ((0 : Nat), false)] : List Blk).length < zeroBlockHeap.g_heap_size ∧
      (∀ need fuel, need % 8 = 0 → 0 < need →
        ([(72, true), ((0 : Nat), false)] : List Blk).length < fuel →
        ∃ r, mallocLoop zeroBlockHeap need fuel zeroBlockHeap.g_heap_start
          (headOf [(72, true), (0, false)]).1 (headOf [(72, true), (0, false)]).2 = .ok r) ∧
      (∀ fuel, ([(72, true), ((0 : Nat), false)] : List Blk).length < fuel →
        ∃ r, validateLoop zeroBlockHeap fuel zeroBlockHeap.g_heap_start
          (headOf [(72, true), (0, false)]).1 (headOf [(72, true), (0, false)]).2 ALIGNMENT =
          .ok r) ∧
      (∀ n, ∃ r, mymalloc zeroBlockHeap n = .ok r) ∧
      validate_heap zeroBlockHeap = .ok true ∧
      ∃ L, blocks zeroBlockHeap = .ok L ∧
        (∀ b, b ∈ L → zeroBlockHeap.g_heap_start + 8 ≤ b.1 ∧
          b.1 + b.2.1 + 8 ≤ zeroBlockHeap.g_heap_start + zeroBlockHeap.g_heap_size) ∧
        L.Pairwise (fun b c => b.1 + b.2.1 + 8 ≤ c.1)) ∧
      mymalloc afterInit 72 = .ok (4104, zeroBlockHeap) ∧
      blocks zeroBlockHeap = .ok [(4104, 72, true), (4184, 0, false)] :=
  ⟨implicit_scans_terminate zeroBlockHeap [(72, true), (0, false)]
    ⟨by decide, by decide, by decide,
      ⟨by rfl, by decide, by decide, by rfl, by decide, by decide, by rfl, by rfl⟩⟩,
    by rfl, by rfl⟩

end Implicit

namespace Explicit

/-- C33 (failing input). Explicit variant. On a 128-byte region with `a = mymalloc(16);
b = mymalloc(16)`, the header word of `b` is 17 (`{16, used}`); `myrealloc(a, 32)` first
calls `coalescePossible(b)`, which is true because the block after `b` is free, and then
`coalesceReal(b)`, after which the header word of `b` is 88 (`{88, free}`); the call then
passes the null result of `mymalloc` to `memmove`. On a 192-byte region, after
`a, b, x, c = mymalloc(16); myfree(x)`, the call `myrealloc(a, 48)` returns `4200` and
the header word of the used block `b` has changed from 17 to 40 (`{40, free}`). -/
theorem explicit_realloc_frees_neighbour :
    neighbourPrefixRun = .ok (4104, 4128, 17, true, 88) ∧
      neighbourExampleRun = .error .fault ∧
      neighbourMergedRun = .ok (4104, 4128, 4200, 17, 40) :=
  ⟨by rfl, by rfl, by rfl⟩

end Explicit

/-- C31. The function `roundup(sz, 8)` of both variants, for `sz ≤ 2^64 - 8`: it is
`(sz + 7) & ~7` (mask `2^64 - 8`), a multiple of 8 with `sz ≤ result < sz + 8`, the least
multiple of 8 that is at least `sz`, and `sz` itself when `sz` is a multiple of 8. -/
theorem roundup_least_multiple (sz : Nat) (h : sz ≤ WORD - 8) :
    Implicit.roundup sz 8 = (sz + 7) &&& (WORD - 8) ∧
      Explicit.roundup sz 8 = Implicit.roundup sz 8 ∧
      Implicit.roundup sz 8 % 8 = 0 ∧ sz ≤ Implicit.roundup sz 8 ∧
      Implicit.roundup sz 8 < sz + 8 ∧
      (∀ m, m % 8 = 0 → sz ≤ m → Implicit.roundup sz 8 ≤ m) ∧
      (sz % 8 = 0 → Implicit.roundup sz 8 = sz) := by
  have hw : sz + 7 < WORD := by unfold WORD at *; omega
  have e1 : Implicit.roundup sz 8 = (sz + 7) / 8 * 8 := Implicit.roundup_eq sz hw
  have e2 : Explicit.roundup sz 8 = (sz + 7) / 8 * 8 := Explicit.explicit_roundup_eq sz hw
  have e3 : (sz + 7) &&& (WORD - 8) = (sz + 7) / 8 * 8 := land_mask8 _ hw
  rw [e1, e2, e3]
  refine ⟨rfl, rfl, by omega, by omega, by omega, ?_, ?_⟩
  · intro m hm hle; omega
  · intro h8; omega

theorem roundup_least_multiple_witness :
    Implicit.roundup 13 8 = (13 + 7) &&& (WORD - 8) ∧
      Explicit.roundup 13 8 = Implicit.roundup 13 8 ∧
      Implicit.roundup 13 8 % 8 = 0 ∧ 13 ≤ Implicit.roundup 13 8 ∧
      Implicit.roundup 13 8 < 13 + 8 ∧
      (∀ m, m % 8 = 0 → 13 ≤ m → Implicit.roundup 13 8 ≤ m) ∧
      (13 % 8 = 0 → Implicit.roundup 13 8 = 13) :=
  roundup_least_multiple 13 (by decide)

end Allocator
